import Mathlib

/-!
# flatc-wasm: the orchestration layer around the embedded `flatc` engine

A shallow embedding of `src/generators/binary.mjs`, `src/generators/json.mjs`,
`src/generators/code.mjs`, `src/fs/generate-include.mjs`, `src/fs/list.mjs`,
`src/utils/run-command.mjs`, `src/core/streaming-transformer.mjs` and the mount helpers
of `src/core/runner.mjs`.

Conventions of the embedding.

* A JavaScript string is a Lean `String` (a sequence of Unicode scalar values), so
  only well-formed strings are modelled; positions count characters, which gives
  the same substrings as UTF-16 positions for the one-character needle `/`.
* A `Uint8Array` is a reference into a heap of byte sequences: `===` on two of
  them compares the references, never the bytes.
* A JavaScript object used as a record is the list of its own entries in
  `Object.keys` order; keys are unique.
* Stateful code passes the runner explicitly and returns the outcome together
  with the runner as it is left, also when the outcome is a thrown value.
-/

set_option autoImplicit false

namespace FlatcWasm

/-! ## JavaScript strings -/

/-- Position of the last occurrence of `c` in a list of characters, if any. -/
def lastIndexOfChars (c : Char) : List Char → Option Nat
  | [] => none
  | x :: xs =>
    match lastIndexOfChars c xs with
    | some i => some (i + 1)
    | none => if x = c then some 0 else none

/-- `String.prototype.lastIndexOf` for a one-character needle: `-1` when absent. -/
def lastIndexOf (s : String) (c : Char) : Int :=
  match lastIndexOfChars c s.data with
  | some i => (i : Int)
  | none => -1

/-- `String.prototype.substring(start, stop)`: both ends are clamped to
`[0, length]` and swapped when out of order. -/
def substring (s : String) (start stop : Int) : String :=
  let n : Int := s.data.length
  let a := min (max start 0) n
  let b := min (max stop 0) n
  let lo := min a b
  let hi := max a b
  ⟨(s.data.drop lo.toNat).take (hi.toNat - lo.toNat)⟩

/-- `String.prototype.slice(start, stop)`: a negative end counts from the end of
the string, and an empty range gives the empty string. -/
def slice (s : String) (start stop : Int) : String :=
  let n : Int := s.data.length
  let a := if start < 0 then max (n + start) 0 else min start n
  let b := if stop < 0 then max (n + stop) 0 else min stop n
  ⟨(s.data.drop a.toNat).take (b.toNat - a.toNat)⟩

/-- `String.prototype.endsWith`. -/
def endsWith (s suffix : String) : Bool :=
  suffix.data.isSuffixOf s.data

/-- `s.replace(/\.mon$/, replacement)`: the pattern is anchored at the end of the
input, so at most the final `.mon` is replaced. -/
def replaceFinalDotMon (s replacement : String) : String :=
  if endsWith s ".mon" then ⟨s.data.take (s.data.length - 4) ++ replacement.data⟩ else s

/-- The JavaScript `a || b` on strings: the empty string is falsy. -/
def orElse (a b : String) : String :=
  if a = "" then b else a

/-- Splitting a list of characters at every occurrence of `sep`. -/
def splitChars (sep : Char) : List Char → List (List Char)
  | [] => [[]]
  | c :: cs =>
    if c = sep then [] :: splitChars sep cs
    else
      match splitChars sep cs with
      | [] => [[c]]
      | w :: ws => (c :: w) :: ws

/-- `String.prototype.split` for a one-character separator. -/
def split (s : String) (sep : Char) : List String :=
  (splitChars sep s.data).map String.mk

/-- `Array.prototype.join`. -/
def join (xs : List String) (sep : String) : String :=
  sep.intercalate xs

/-- The code points `String.prototype.trim` strips: ECMAScript WhiteSpace and
LineTerminator. -/
def isTrimmed (c : Char) : Bool :=
  let n := c.toNat
  n = 0x09 || n = 0x0A || n = 0x0B || n = 0x0C || n = 0x0D || n = 0x20 || n = 0xA0 ||
  n = 0x1680 || (0x2000 ≤ n && n ≤ 0x200A) || n = 0x2028 || n = 0x2029 || n = 0x202F ||
  n = 0x205F || n = 0x3000 || n = 0xFEFF

/-- `String.prototype.trim`. -/
def trim (s : String) : String :=
  ⟨((s.data.dropWhile isTrimmed).reverse.dropWhile isTrimmed).reverse⟩

/-- `String.prototype.includes`: `sub` occurs in `s` as a contiguous run. -/
def includes (s sub : String) : Prop :=
  sub.data <:+: s.data

/-- Bytes, as a `Uint8Array` holds them. -/
abbrev Bytes := List UInt8

/-- `new TextEncoder().encode(s)`: the UTF-8 bytes of a string. -/
def TextEncoder.encode (s : String) : Bytes :=
  s.data.flatMap String.utf8EncodeChar

/-! ## Schema input -/

/-- The value of one entry of `schemaInput.files` (and of `jsonInput`): a string, or
a `Uint8Array` object, given by its reference into the heap. -/
inductive FileData where
  | text (s : String)
  | bytes (ref : Nat)
deriving DecidableEq, Repr

/-- The JavaScript heap as far as the drivers read it: the bytes each `Uint8Array`
currently holds. -/
abbrev Heap := Nat → Bytes

/-- The bytes a value stands for: the UTF-8 encoding of a string, the current bytes of
a `Uint8Array`. -/
def FileData.content (heap : Heap) : FileData → Bytes
  | .text s => TextEncoder.encode s
  | .bytes ref => heap ref

/-- `Object.keys` of a record. -/
def Object.keys {α : Type} (o : List (String × α)) : List String :=
  o.map Prod.fst

/-- Property access `o[key]`: `none` stands for `undefined`. -/
def Object.get {α : Type} (o : List (String × α)) (key : String) : Option α :=
  o.lookup key

/-- The `{ entry, files }` object the drivers receive. `files` lists the own entries of
the record in `Object.keys` order; a JavaScript object has each key once. -/
structure SchemaInput where
  entry : String
  files : List (String × FileData)
  keys_nodup : (Object.keys files).Nodup
deriving DecidableEq

/-- Truthiness of `files[key]`: `undefined` and the empty string are falsy, every other
string and every object is truthy. -/
def truthy : Option FileData → Bool
  | none => false
  | some (.text s) => s ≠ ""
  | some (.bytes _) => true

/-- Strict equality `a === b` of two property values: strings compare by content,
objects by reference. -/
def strictEq (a b : Option FileData) : Bool :=
  a == b

/-- The `schemaUnchanged` expression of `generateBinary` and `generateJSON`
(lines 21-30 of both), as a boolean. -/
def schemaUnchanged (cached : Option SchemaInput) (schemaInput : SchemaInput) : Bool :=
  match cached with
  | none => false
  | some c =>
    c.entry == schemaInput.entry &&
    ((Object.keys c.files).length == (Object.keys schemaInput.files).length &&
     (Object.keys c.files).all (fun key =>
        truthy (Object.get schemaInput.files key) &&
        strictEq (Object.get c.files key) (Object.get schemaInput.files key)))

/-! ## Include directories (`src/fs/generate-include.mjs`) -/

/-- `Set.prototype.add` on a set kept in insertion order. -/
def setAdd (dirs : List String) (d : String) : List String :=
  if d ∈ dirs then dirs else dirs ++ [d]

/-- The `dir` computed by the loop body of `getIncludeDirsFromSchemaInput`. -/
def includeDirOf (filePath : String) : String :=
  let lastSlash := lastIndexOf filePath '/'
  if lastSlash > 0 then slice filePath 0 lastSlash else "/"

/-- The function `getIncludeDirsFromSchemaInput`: a `Set` filled in key order, then
`Array.from`. -/
def getIncludeDirsFromSchemaInput (schemaInput : SchemaInput) : List String :=
  (Object.keys schemaInput.files).foldl (fun dirs filePath => setAdd dirs (includeDirOf filePath)) []

/-! ## The virtual filesystem

`src/flatc.mjs`, the Emscripten build of the engine with its in-memory filesystem, is
not among the sources; the drivers only use its `FS` object. -/

/-- The failure codes of `FS.ErrnoError` the model distinguishes. -/
inductive Errno where
  | ENOENT | EEXIST | ENOTDIR | EISDIR | ENOTEMPTY | EBUSY | EINVAL
deriving DecidableEq, Repr

/-- A filesystem node: a regular file with its bytes, or a directory. -/
inductive Node where
  | file (data : Bytes)
  | dir
deriving DecidableEq, Repr

/-- A resolved path: the names from the root downward; `[]` is the root. -/
abbrev Path := List String

/-- Modelled from the spec: the engine's virtual filesystem (`Module.FS` of the absent
`src/flatc.mjs`), "a virtual filesystem exposing mkdir, writeFile, readFile, readdir,
stat, unlink, rmdir", POSIX-like. The state lists every node but the root under its
resolved path, in creation order, which is the order `readdir` reports. -/
abbrev MemFS := List (Path × Node)

/-- Modelled from the spec: the node of the virtual filesystem at a resolved path; the
root always exists and is a directory. -/
def MemFS.node (fs : MemFS) (p : Path) : Option Node :=
  if p = [] then some Node.dir else fs.lookup p

/-- Modelled from the spec: the names of the entries directly inside the directory `p`
of the virtual filesystem, in creation order. -/
def MemFS.names (fs : MemFS) (p : Path) : List String :=
  fs.filterMap (fun e => if e.1 ≠ [] ∧ e.1.dropLast = p then e.1.getLast? else none)

/-- Modelled from the spec: path normalisation of the virtual filesystem
(`PATH.normalizeArray`): `.` is dropped and `..` removes the name before it; the
first argument is the stack of names kept so far, innermost first. -/
def normalizeParts : List String → List String → Path
  | stack, [] => stack.reverse
  | stack, p :: ps =>
    if p = "." then normalizeParts stack ps
    else if p = ".." then normalizeParts stack.tail ps
    else normalizeParts (p :: stack) ps

/-- Modelled from the spec: how the virtual filesystem resolves a path string against
the working directory `/`. The empty string names nothing. -/
def resolve (path : String) : Option Path :=
  if path = "" then none
  else some (normalizeParts [] ((split path '/').filter (fun part => part ≠ "")))

/-- Modelled from the spec: `FS.mkdir(path)` of the virtual filesystem. -/
def FS.mkdir (fs : MemFS) (path : String) : Except Errno MemFS :=
  match resolve path with
  | none => .error .ENOENT
  | some p =>
    if p = [] then .error .EEXIST
    else
      match MemFS.node fs p.dropLast with
      | none => .error .ENOENT
      | some (.file _) => .error .ENOTDIR
      | some .dir =>
        match MemFS.node fs p with
        | some _ => .error .EEXIST
        | none => .ok (fs ++ [(p, Node.dir)])

/-- Modelled from the spec: `FS.writeFile(path, data)` of the virtual filesystem: an
existing regular file is rewritten in place, a missing one is created in an existing
directory. -/
def FS.writeFile (fs : MemFS) (path : String) (data : Bytes) : Except Errno MemFS :=
  match resolve path with
  | none => .error .ENOENT
  | some p =>
    match MemFS.node fs p with
    | some .dir => .error .EISDIR
    | some (.file _) => .ok (fs.map (fun e => if e.1 = p then (p, Node.file data) else e))
    | none =>
      match MemFS.node fs p.dropLast with
      | none => .error .ENOENT
      | some (.file _) => .error .ENOTDIR
      | some .dir => .ok (fs ++ [(p, Node.file data)])

/-- Modelled from the spec: `FS.readFile(path)` of the virtual filesystem with the
default binary encoding. -/
def FS.readFile (fs : MemFS) (path : String) : Except Errno Bytes :=
  match resolve path with
  | none => .error .ENOENT
  | some p =>
    match MemFS.node fs p with
    | none => .error .ENOENT
    | some .dir => .error .EISDIR
    | some (.file data) => .ok data

/-- Modelled from the spec: `FS.readdir(path)` of the virtual filesystem: `.` and `..`
first, then the entries in creation order. -/
def FS.readdir (fs : MemFS) (path : String) : Except Errno (List String) :=
  match resolve path with
  | none => .error .ENOENT
  | some p =>
    match MemFS.node fs p with
    | none => .error .ENOENT
    | some (.file _) => .error .ENOTDIR
    | some .dir => .ok ("." :: ".." :: MemFS.names fs p)

/-- Modelled from the spec: `FS.stat(path)` of the virtual filesystem; the node stands
for the `mode` the caller inspects. -/
def FS.stat (fs : MemFS) (path : String) : Except Errno Node :=
  match resolve path with
  | none => .error .ENOENT
  | some p =>
    match MemFS.node fs p with
    | none => .error .ENOENT
    | some n => .ok n

/-- Modelled from the spec: `FS.isDir(mode)`. -/
def FS.isDir : Node → Bool
  | .dir => true
  | .file _ => false

/-- Modelled from the spec: `FS.unlink(path)` of the virtual filesystem: removes a
regular file. -/
def FS.unlink (fs : MemFS) (path : String) : Except Errno MemFS :=
  match resolve path with
  | none => .error .ENOENT
  | some p =>
    match MemFS.node fs p with
    | none => .error .ENOENT
    | some .dir => .error .EISDIR
    | some (.file _) => .ok (fs.filter (fun e => e.1 ≠ p))

/-- Modelled from the spec: `FS.rmdir(path)` of the virtual filesystem: removes an
empty directory other than the root. -/
def FS.rmdir (fs : MemFS) (path : String) : Except Errno MemFS :=
  match resolve path with
  | none => .error .ENOENT
  | some p =>
    if p = [] then .error .EBUSY
    else
      match MemFS.node fs p with
      | none => .error .ENOENT
      | some (.file _) => .error .ENOTDIR
      | some .dir =>
        if MemFS.names fs p = [] then .ok (fs.filter (fun e => e.1 ≠ p))
        else .error .ENOTEMPTY

/-- Modelled from the spec: the loop of `FS.mkdirTree` of the virtual filesystem; `d` is
the path built so far, and only "already exists" is swallowed. On failure the
filesystem as it was left is returned with the code. -/
def FS.mkdirTreeLoop : List String → String → MemFS → Except (Errno × MemFS) MemFS
  | [], _, fs => .ok fs
  | part :: rest, d, fs =>
    if part = "" then FS.mkdirTreeLoop rest d fs
    else
      let d1 := d ++ "/" ++ part
      match FS.mkdir fs d1 with
      | .ok fs1 => FS.mkdirTreeLoop rest d1 fs1
      | .error e => if e = .EEXIST then FS.mkdirTreeLoop rest d1 fs else .error (e, fs)

/-- Modelled from the spec: `FS.mkdirTree(path)` of the virtual filesystem. -/
def FS.mkdirTree (fs : MemFS) (path : String) : Except (Errno × MemFS) MemFS :=
  FS.mkdirTreeLoop (split path '/') "" fs

/-- A `try { op } catch {}` block around one filesystem operation. -/
def swallow (op : MemFS → Except Errno MemFS) (fs : MemFS) : MemFS :=
  match op fs with
  | .ok fs1 => fs1
  | .error _ => fs

/-! ## Mounting (`src/core/runner.mjs`) -/

/-- What `mountFile` receives as `data`: a string, or the bytes of a `Uint8Array`. -/
inductive MountData where
  | text (s : String)
  | bytes (b : Bytes)
deriving DecidableEq, Repr

/-- The bytes `mountFile` hands to `writeFile`: a string is encoded as UTF-8, bytes are
written as they are. -/
def MountData.toBytes : MountData → Bytes
  | .text s => TextEncoder.encode s
  | .bytes b => b

/-- The loop of `mountFile` over the directory parts: every `mkdir` failure is
swallowed. -/
def mkdirParts : List String → String → MemFS → MemFS
  | [], _, fs => fs
  | part :: rest, cur, fs =>
    let cur1 := cur ++ "/" ++ part
    mkdirParts rest cur1 (swallow (fun fs => FS.mkdir fs cur1) fs)

/-- The method `FlatcRunner.mountFile`. A failure of `writeFile` propagates; the
filesystem is then left with the directories already made. -/
def mountFile (path : String) (data : MountData) (fs : MemFS) : Except (Errno × MemFS) MemFS :=
  let dir := orElse (substring path 0 (lastIndexOf path '/')) "/"
  let parts := (split dir '/').filter (fun part => part ≠ "")
  let fs1 := mkdirParts parts "" fs
  match FS.writeFile fs1 path data.toBytes with
  | .ok fs2 => .ok fs2
  | .error e => .error (e, fs1)

/-- The method `FlatcRunner.mountFiles`: `mountFile` in list order, stopping at the
first failure. -/
def mountFiles : List (String × MountData) → MemFS → Except (Errno × MemFS) MemFS
  | [], fs => .ok fs
  | f :: rest, fs =>
    match mountFile f.1 f.2 fs with
    | .ok fs1 => mountFiles rest fs1
    | .error e => .error e

/-! ## The engine and the invocation gateway (`src/utils/run-command.mjs`) -/

/-- What `Module.callMain` may throw: a number, read as the exit code, or any other
value of the engine. -/
inductive Thrown (E : Type) where
  | number (n : Int)
  | other (e : E)

/-- One run of `Module.callMain(args)`: the filesystem and engine memory it leaves, the
texts it handed to `print` and `printErr`, and what it threw, if anything. -/
structure EngineRun (σ E : Type) where
  fs : MemFS
  mem : σ
  printed : List String
  printedErr : List String
  thrown : Option (Thrown E)

/-- The engine: a black box that reads its argument vector, the filesystem and its own
memory. -/
abbrev Engine (σ E : Type) := List String → MemFS → σ → EngineRun σ E

/-- A value thrown by a driver. -/
inductive JSError (E : Type) where
  | errno (e : Errno)
  | error (message : String)
  | typeError
  | engine (e : E)

/-- The fields of `FlatcRunner` the drivers use: `Module` (filesystem and engine
memory), the output buffers and the schema cache. -/
structure FlatcRunner (σ : Type) where
  FS : MemFS
  mem : σ
  _stdout : String
  _stderr : String
  _cachedSchema : Option SchemaInput
  _cachedIncludeDirs : Option (List String)

/-- The `{ code, stdout, stderr }` object `runCommand` returns. -/
structure CommandResult where
  code : Int
  stdout : String
  stderr : String
deriving DecidableEq, Repr

/-- The `print` and `printErr` callbacks of `FlatcRunner.init`: each text is appended
to the buffer, followed by a newline. -/
def appendPrinted (buffer : String) (texts : List String) : String :=
  texts.foldl (fun b text => b ++ (text ++ "\n")) buffer

variable {σ E : Type}

/-- The function `runCommand`. -/
def runCommand (callMain : Engine σ E) (args : List String) (r : FlatcRunner σ) :
    Except (JSError E) CommandResult × FlatcRunner σ :=
  let r0 := { r with _stdout := "", _stderr := "" }
  let run := callMain args r0.FS r0.mem
  let r1 := { r0 with
    FS := run.fs, mem := run.mem,
    _stdout := appendPrinted r0._stdout run.printed,
    _stderr := appendPrinted r0._stderr run.printedErr }
  match run.thrown with
  | none => (.ok ⟨0, trim r1._stdout, trim r1._stderr⟩, r1)
  | some (.number e) => (.ok ⟨e, trim r1._stdout, trim r1._stderr⟩, r1)
  | some (.other e) => (.error (.engine e), r1)

/-! ## The schema cache (lines 21-41 of both drivers) -/

/-- The argument of `mountFiles` on a cache miss: a string is passed on, anything else
is copied into a new `Uint8Array`. -/
def schemaMountList (heap : Heap) (schemaInput : SchemaInput) : List (String × MountData) :=
  schemaInput.files.map (fun e =>
    (e.1, match e.2 with
      | .text s => MountData.text s
      | .bytes ref => MountData.bytes (heap ref)))

/-- The cache step of `generateBinary` and `generateJSON`: nothing on a hit; on a miss
the files are mounted and then the two cache fields are replaced. -/
def ensureSchema (E : Type) (heap : Heap) (schemaInput : SchemaInput) (r : FlatcRunner σ) :
    Except (JSError E) Unit × FlatcRunner σ :=
  if schemaUnchanged r._cachedSchema schemaInput then (.ok (), r)
  else
    match mountFiles (schemaMountList heap schemaInput) r.FS with
    | .error (e, fs) => (.error (.errno e), { r with FS := fs })
    | .ok fs =>
      (.ok (), { r with
        FS := fs,
        _cachedSchema := some schemaInput,
        _cachedIncludeDirs := some (getIncludeDirsFromSchemaInput schemaInput) })

/-- The message of the error both drivers throw on a non-zero exit code. -/
def failureMessage (result : CommandResult) (args : List String) : String :=
  join
    [ "flatc failed with exit code " ++ toString result.code,
      "Arguments: " ++ join args " ",
      "--- stdout ---",
      orElse (trim result.stdout) "(empty)",
      "--- stderr ---",
      orElse (trim result.stderr) "(empty)" ] "\n"

/-! ## Encoding (`src/generators/binary.mjs`) -/

/-- The argument vector of `generateBinary`. -/
def binaryArgs (outDir : String) (includeDirs : List String) (entry jsonInputPath : String) :
    List String :=
  ["--binary", "--unknown-json", "-o", outDir] ++
    includeDirs.flatMap (fun d => ["-I", d]) ++ [entry, jsonInputPath]

/-- The closure `cleanup` of `generateBinary`. -/
def binaryCleanup (outDir jsonInputPath : String) (fs : MemFS) : MemFS :=
  let fs1 := swallow (fun fs => FS.unlink fs jsonInputPath) fs
  match FS.readdir fs1 outDir with
  | .error _ => fs1
  | .ok outputFiles =>
    let fs2 := outputFiles.foldl
      (fun fs f =>
        if f ≠ "." ∧ f ≠ ".." then swallow (fun fs => FS.unlink fs (outDir ++ "/" ++ f)) fs
        else fs) fs1
    swallow (fun fs => FS.rmdir fs outDir) fs2

/-- The message of the error `generateBinary` throws when no `.mon` file is found. -/
def missingOutputMessage (outDir : String) (files : List String) (result : CommandResult)
    (args : List String) : String :=
  join
    [ "flatc succeeded but no .mon output was found.",
      "Expected output in directory: " ++ outDir,
      "Files present: " ++ join files ", ",
      "Arguments: " ++ join args " ",
      "--- stdout ---",
      orElse (trim result.stdout) "(empty)",
      "--- stderr ---",
      orElse (trim result.stderr) "(empty)" ] "\n"

/-- The part of `generateBinary` before the engine runs (lines 16-62): the output
directory, the cache step, the mounted document and the argument vector. -/
def prepareBinary (E : Type) (heap : Heap) (uuid1 uuid2 : String) (schemaInput : SchemaInput)
    (jsonInput : FileData) (r : FlatcRunner σ) :
    Except (JSError E) (List String) × FlatcRunner σ :=
  let outDir := "/" ++ uuid1
  let jsonInputPath := "/input-" ++ uuid2 ++ ".json"
  match FS.mkdirTree r.FS outDir with
  | .error (e, fs) => (.error (.errno e), { r with FS := fs })
  | .ok fs0 =>
    match ensureSchema E heap schemaInput { r with FS := fs0 } with
    | (.error e, r1) => (.error e, r1)
    | (.ok (), r1) =>
      match mountFiles [(jsonInputPath, MountData.bytes (jsonInput.content heap))] r1.FS with
      | .error (e, fs) => (.error (.errno e), { r1 with FS := fs })
      | .ok fs2 =>
        match r1._cachedIncludeDirs with
        | none => (.error .typeError, { r1 with FS := fs2 })
        | some includeDirs =>
          (.ok (binaryArgs outDir includeDirs schemaInput.entry jsonInputPath),
            { r1 with FS := fs2 })

/-- The part of `generateBinary` after the engine ran (lines 84-119). -/
def harvestBinary (outDir jsonInputPath : String) (args : List String)
    (result : CommandResult) (r : FlatcRunner σ) :
    Except (JSError E) Bytes × FlatcRunner σ :=
  if result.code ≠ 0 then
    (.error (.error (failureMessage result args)),
      { r with FS := binaryCleanup outDir jsonInputPath r.FS })
  else
    match FS.readdir r.FS outDir with
    | .error e => (.error (.errno e), r)
    | .ok files =>
      match files.find? (fun f => endsWith f ".mon") with
      | none =>
        (.error (.error (missingOutputMessage outDir files result args)),
          { r with FS := binaryCleanup outDir jsonInputPath r.FS })
      | some file =>
        if file = "" then
          (.error (.error (missingOutputMessage outDir files result args)),
            { r with FS := binaryCleanup outDir jsonInputPath r.FS })
        else
          match FS.readFile r.FS (outDir ++ "/" ++ file) with
          | .error e => (.error (.errno e), r)
          | .ok output => (.ok output, { r with FS := binaryCleanup outDir jsonInputPath r.FS })

/-- The function `generateBinary`; `uuid1` and `uuid2` are the two values of
`randomUUID()`. -/
def generateBinary (callMain : Engine σ E) (heap : Heap) (uuid1 uuid2 : String)
    (schemaInput : SchemaInput) (jsonInput : FileData) (r : FlatcRunner σ) :
    Except (JSError E) Bytes × FlatcRunner σ :=
  match prepareBinary E heap uuid1 uuid2 schemaInput jsonInput r with
  | (.error e, r1) => (.error e, r1)
  | (.ok args, r1) =>
    match runCommand callMain args r1 with
    | (.error e, r2) => (.error e, r2)
    | (.ok result, r2) =>
      harvestBinary ("/" ++ uuid1) ("/input-" ++ uuid2 ++ ".json") args result r2

/-! ## Decoding (`src/generators/json.mjs`) -/

/-- A JavaScript value as an option field may hold it. -/
inductive JSValue where
  | undefined
  | null
  | bool (b : Bool)
  | number (n : Int)
  | string (s : String)
deriving DecidableEq, Repr

/-- Truthiness of a JavaScript value. -/
def JSValue.truthy : JSValue → Bool
  | .undefined => false
  | .null => false
  | .bool b => b
  | .number n => n ≠ 0
  | .string s => s ≠ ""

/-- The text a template literal gives a value. -/
def JSValue.toText : JSValue → String
  | .undefined => "undefined"
  | .null => "null"
  | .bool b => if b then "true" else "false"
  | .number n => toString n
  | .string s => s

/-- The `opts` object of `generateJSON`; an omitted field is `undefined`. -/
structure JSONOptions where
  rawBinary : JSValue
  defaultsJson : JSValue
  encoding : JSValue
deriving DecidableEq, Repr

/-- The `binaryInput` object of `generateJSON`. -/
structure BinaryInput where
  path : String
  data : FileData
deriving DecidableEq, Repr

/-- What `generateJSON` returns: raw bytes, or decoded text. -/
inductive Output where
  | bytes (b : Bytes)
  | text (s : String)
deriving DecidableEq, Repr

/-- Modelled from the spec: `FS.readFile(path, { encoding })` of the virtual filesystem,
"readFile(path, encoding?) -> text|bytes": a falsy encoding means binary, `utf8` decodes
the bytes with the runtime's decoder `utf8Decode`, any other encoding is refused before
the file is opened. -/
def FS.readFileAs {E : Type} (utf8Decode : Bytes → String) (fs : MemFS) (path : String)
    (encoding : JSValue) : Except (JSError E) Output :=
  let encoding := if encoding.truthy then encoding else JSValue.string "binary"
  if encoding ≠ JSValue.string "utf8" ∧ encoding ≠ JSValue.string "binary" then
    .error (.error ("Invalid encoding type \"" ++ encoding.toText ++ "\""))
  else
    match FS.readFile fs path with
    | .error e => .error (.errno e)
    | .ok data =>
      if encoding = JSValue.string "utf8" then .ok (Output.text (utf8Decode data))
      else .ok (Output.bytes data)

/-- The `outPath` of `generateJSON` (line 18). -/
def jsonOutPath (binaryInput : BinaryInput) : String :=
  replaceFinalDotMon binaryInput.path ".json"

/-- The `outDir` of `generateJSON` (line 19). -/
def jsonOutDir (binaryInput : BinaryInput) : String :=
  let outPath := jsonOutPath binaryInput
  orElse (substring outPath 0 (lastIndexOf outPath '/')) "/"

/-- The argument vector of `generateJSON`. -/
def jsonArgs (opts : JSONOptions) (outDir : String) (includeDirs : List String)
    (entry inputPath : String) : List String :=
  ["--json", "--strict-json"] ++
    (if opts.rawBinary = JSValue.bool false then [] else ["--raw-binary"]) ++
    (if opts.defaultsJson.truthy then ["--defaults-json"] else []) ++
    ["-o", outDir] ++
    includeDirs.flatMap (fun d => ["-I", d]) ++ [entry, "--", inputPath]

/-- The closure `cleanup` of `generateJSON`. -/
def jsonCleanup (inputPath outPath outDir : String) (fs : MemFS) : MemFS :=
  let fs1 := swallow (fun fs => FS.unlink fs inputPath) fs
  let fs2 := swallow (fun fs => FS.unlink fs outPath) fs1
  match FS.readdir fs2 outDir with
  | .error _ => fs2
  | .ok files =>
    if files.all (fun f => f = "." || f = "..") then
      swallow (fun fs => FS.rmdir fs outDir) fs2
    else fs2

/-- The value handed to `mountFile` for `binaryInput.data`. -/
def FileData.toMount (heap : Heap) : FileData → MountData
  | .text s => MountData.text s
  | .bytes ref => MountData.bytes (heap ref)

/-- The part of `generateJSON` before the engine runs (lines 18-61). -/
def prepareJSON (E : Type) (heap : Heap) (schemaInput : SchemaInput) (binaryInput : BinaryInput)
    (opts : JSONOptions) (r : FlatcRunner σ) :
    Except (JSError E) (List String) × FlatcRunner σ :=
  match ensureSchema E heap schemaInput r with
  | (.error e, r1) => (.error e, r1)
  | (.ok (), r1) =>
    match mountFiles [(binaryInput.path, binaryInput.data.toMount heap)] r1.FS with
    | .error (e, fs) => (.error (.errno e), { r1 with FS := fs })
    | .ok fs2 =>
      match r1._cachedIncludeDirs with
      | none => (.error .typeError, { r1 with FS := fs2 })
      | some includeDirs =>
        (.ok (jsonArgs opts (jsonOutDir binaryInput) includeDirs schemaInput.entry
            binaryInput.path),
          { r1 with FS := fs2 })

/-- The part of `generateJSON` after the engine ran (lines 84-103). -/
def harvestJSON (utf8Decode : Bytes → String) (binaryInput : BinaryInput) (opts : JSONOptions)
    (args : List String) (result : CommandResult) (r : FlatcRunner σ) :
    Except (JSError E) Output × FlatcRunner σ :=
  let outPath := jsonOutPath binaryInput
  let outDir := jsonOutDir binaryInput
  if result.code ≠ 0 then
    (.error (.error (failureMessage result args)),
      { r with FS := jsonCleanup binaryInput.path outPath outDir r.FS })
  else
    let encoding :=
      if opts.encoding = JSValue.undefined ∨ opts.encoding = JSValue.null then JSValue.null
      else opts.encoding
    match FS.readFileAs utf8Decode r.FS outPath encoding with
    | .error e => (.error e, r)
    | .ok output =>
      (.ok output, { r with FS := jsonCleanup binaryInput.path outPath outDir r.FS })

/-- The function `generateJSON`; `utf8Decode` is the UTF-8 decoder of the engine's
runtime. -/
def generateJSON (callMain : Engine σ E) (utf8Decode : Bytes → String) (heap : Heap)
    (schemaInput : SchemaInput) (binaryInput : BinaryInput) (opts : JSONOptions)
    (r : FlatcRunner σ) : Except (JSError E) Output × FlatcRunner σ :=
  match prepareJSON E heap schemaInput binaryInput opts r with
  | (.error e, r1) => (.error e, r1)
  | (.ok args, r1) =>
    match runCommand callMain args r1 with
    | (.error e, r2) => (.error e, r2)
    | (.ok result, r2) => harvestJSON utf8Decode binaryInput opts args result r2

/-! ## Listing (`src/fs/list.mjs`) -/

/-- The `for` loop of `traverse` over the names of a directory; `visit name result` is
the recursive call for one name, and a failure ends the loop. -/
def traverseLoop (visit : String → List String → Option (Except Errno (List String))) :
    List String → List String → Option (Except Errno (List String))
  | [], result => some (.ok result)
  | name :: rest, result =>
    match visit name result with
    | some (.ok res) => traverseLoop visit rest res
    | other => other

/-- The closure `traverse` of `listAllFiles`, threading the `result` array. The first
argument bounds the depth of the recursion; `none` means the bound was reached. -/
def traverse (fs : MemFS) : Nat → String → List String → Option (Except Errno (List String))
  | 0, _, _ => none
  | fuel + 1, p, result =>
    match FS.stat fs p with
    | .error e => some (.error e)
    | .ok stat =>
      if FS.isDir stat then
        match FS.readdir fs p with
        | .error e => some (.error e)
        | .ok names =>
          traverseLoop
            (fun name res =>
              traverse fs fuel (if p = "/" then "/" ++ name else p ++ "/" ++ name) res)
            (names.filter (fun n => n ≠ "." ∧ n ≠ "..")) result
      else some (.ok (result ++ [p]))

/-- The length of the longest resolved path in the filesystem. -/
def MemFS.depth (fs : MemFS) : Nat :=
  fs.foldl (fun d e => max d e.1.length) 0

/-- The function `listAllFiles`: `traverse` from `path` with an empty `result`. The
depth bound is one more than the deepest node, which no traversal exceeds. -/
def listAllFiles (fs : MemFS) (path : String) : Option (Except Errno (List String)) :=
  traverse fs (MemFS.depth fs + 2) path []

/-! ## Names and output directories -/

/-- A name a directory entry can carry: not empty, not `.` or `..`, and without `/`.
Path resolution only ever produces such names. -/
def ProperName (n : String) : Prop :=
  n ≠ "" ∧ n ≠ "." ∧ n ≠ ".." ∧ '/' ∉ n.data

instance (n : String) : Decidable (ProperName n) := by
  unfold ProperName
  infer_instance

/-- Every name in the filesystem is a proper name, as it is when all nodes were made
through the path operations above. -/
def MemFS.ProperNames (fs : MemFS) : Prop :=
  ∀ e ∈ fs, ∀ n ∈ e.1, ProperName n

instance (fs : MemFS) : Decidable (MemFS.ProperNames fs) := by
  unfold MemFS.ProperNames
  infer_instance

/-- Everything below the directory `/u` is a regular file directly inside it. -/
def OnlyFilesIn (u : String) (fs : MemFS) : Prop :=
  ∀ e ∈ fs, e.1.head? = some u →
    e.1 = [u] ∨ (e.1.length = 2 ∧ (∀ n ∈ e.1, ProperName n) ∧ FS.isDir e.2 = false)

instance (u : String) (fs : MemFS) : Decidable (OnlyFilesIn u fs) := by
  unfold OnlyFilesIn
  infer_instance


/-! ## Example inputs -/

/-- A schema of two files in two directories. -/
def exampleSchema : SchemaInput :=
  ⟨"/a/m.fbs", [("/a/m.fbs", .text "table T{}"), ("/b.fbs", .text "x")], by decide⟩

/-- A schema whose one file is the byte array with reference 1. -/
def bytesSchemaA : SchemaInput :=
  ⟨"/m.fbs", [("/m.fbs", .bytes 1)], by decide⟩

/-- The same schema with its file in another byte array, reference 2. -/
def bytesSchemaB : SchemaInput :=
  ⟨"/m.fbs", [("/m.fbs", .bytes 2)], by decide⟩

/-- A schema one of whose files is the empty string. -/
def emptyFileSchema : SchemaInput :=
  ⟨"/m.fbs", [("/m.fbs", .text "table T{}"), ("/e.fbs", .text "")], by decide⟩

/-- A schema in which one path is both a file and the directory of another file. -/
def nestedSchema : SchemaInput :=
  ⟨"/a", [("/a", .text "x"), ("/a/b", .text "y")], by decide⟩

/-- A heap in which every byte array holds the same two bytes. -/
def exampleHeap : Heap := fun _ => [1, 2]

/-- A runner right after `init`: empty filesystem, nothing cached. -/
def emptyRunner : FlatcRunner Unit :=
  ⟨[], (), "", "", none, none⟩

/-- A runner that has `bytesSchemaA` cached. -/
def cachedRunner : FlatcRunner Unit :=
  ⟨[], (), "", "", some bytesSchemaA, some ["/"]⟩

/-- A runner that has `exampleSchema` cached and mounted. -/
def warmRunner : FlatcRunner Unit :=
  ⟨[(["a"], Node.dir), (["a", "m.fbs"], Node.file (TextEncoder.encode "table T{}")),
    (["b.fbs"], Node.file (TextEncoder.encode "x"))], (), "", "",
    some exampleSchema, some ["/a", "/"]⟩

/-- An engine that writes `/u1/input-u2.mon`, prints a line and exits with code 0. -/
def exampleEngine : Engine Unit Unit := fun _ fs _ =>
  { fs := fs ++ [(["u1", "input-u2.mon"], Node.file [1, 2, 3])], mem := (),
    printed := ["ok"], printedErr := [], thrown := none }

/-- An engine that reports an error and exits with code 1. -/
def failingEngine : Engine Unit Unit := fun _ fs _ =>
  { fs := fs, mem := (), printed := [], printedErr := ["error: bad input"],
    thrown := some (Thrown.number 1) }

/-- An engine that exits with code 0 and writes nothing. -/
def silentEngine : Engine Unit Unit := fun _ fs _ =>
  { fs := fs, mem := (), printed := [], printedErr := [], thrown := none }

/-- An engine that aborts with a value that is not a number. -/
def abortingEngine : Engine Unit Unit := fun _ fs _ =>
  { fs := fs, mem := (), printed := [], printedErr := [], thrown := some (Thrown.other ()) }

/-- An engine that writes `/out.json`, the decoded form of `/out.mon`, and exits with
code 0. -/
def decodingEngine : Engine Unit Unit := fun _ fs _ =>
  { fs := fs ++ [(["out.json"], Node.file [123, 125])], mem := (),
    printed := [], printedErr := [], thrown := none }

/-- The options object `{}`. -/
def noOptions : JSONOptions :=
  ⟨JSValue.undefined, JSValue.undefined, JSValue.undefined⟩

/-- A UTF-8 decoder for the examples: it maps each byte to the character with that
code. -/
def exampleDecode : Bytes → String := fun b =>
  ⟨b.map (fun x => Char.ofNat x.toNat)⟩

/-- The argument vector of an encode call with the example schema and the identifiers
`u1` and `u2`. -/
def exampleArgs : List String :=
  ["--binary", "--unknown-json", "-o", "/u1", "-I", "/a", "-I", "/", "/a/m.fbs",
    "/input-u2.json"]

/-- The fresh runner as an encode call leaves it right before the engine starts. -/
def examplePrepared : FlatcRunner Unit :=
  (prepareBinary Unit exampleHeap "u1" "u2" exampleSchema (FileData.text "{}") emptyRunner).2

/-- The runner after `exampleEngine` ran in that call. -/
def exampleRan : FlatcRunner Unit :=
  (runCommand exampleEngine exampleArgs examplePrepared).2

/-- The runner after `failingEngine` ran in that call. -/
def exampleFailed : FlatcRunner Unit :=
  (runCommand failingEngine exampleArgs examplePrepared).2

/-- A binary input at `/out.mon`. -/
def exampleInput : BinaryInput :=
  ⟨"/out.mon", FileData.bytes 1⟩

/-- A binary input whose path does not end in `.mon`. -/
def plainInput : BinaryInput :=
  ⟨"/out.bin", FileData.bytes 1⟩

/-- The argument vector of a decode call of `exampleInput` with the example schema. -/
def decodeArgs : List String :=
  ["--json", "--strict-json", "--raw-binary", "-o", "/", "-I", "/a", "-I", "/", "/a/m.fbs",
    "--", "/out.mon"]

/-- The fresh runner as that decode call leaves it right before the engine starts. -/
def decodePrepared : FlatcRunner Unit :=
  (prepareJSON Unit exampleHeap exampleSchema exampleInput noOptions emptyRunner).2

/-- The runner after `failingEngine` ran in that decode call. -/
def decodeFailed : FlatcRunner Unit :=
  (runCommand failingEngine decodeArgs decodePrepared).2

/-! ## Example inputs: decoding options -/

/-- Options that ask for text with defaults and without raw-binary mode. -/
def textOptions : JSONOptions :=
  ⟨JSValue.bool false, JSValue.bool true, JSValue.string "utf8"⟩

/-! ## Example inputs: a decode call inside a directory -/

/-- A binary input inside the directory `/data`. -/
def nestedInput : BinaryInput :=
  ⟨"/data/out.mon", FileData.bytes 1⟩

/-- An engine that writes `/data/out.json` and exits with code 0. -/
def nestedDecodingEngine : Engine Unit Unit := fun _ fs _ =>
  { fs := fs ++ [(["data", "out.json"], Node.file [123, 125])], mem := (),
    printed := [], printedErr := [], thrown := none }

/-- The argument vector of a decode call of `nestedInput` with the example schema. -/
def nestedArgs : List String :=
  ["--json", "--strict-json", "--raw-binary", "-o", "/data", "-I", "/a", "-I", "/", "/a/m.fbs",
    "--", "/data/out.mon"]

/-- The fresh runner as that decode call leaves it right before the engine starts. -/
def nestedPrepared : FlatcRunner Unit :=
  (prepareJSON Unit exampleHeap exampleSchema nestedInput noOptions emptyRunner).2

/-- The runner after `nestedDecodingEngine` ran in that decode call. -/
def nestedRan : FlatcRunner Unit :=
  (runCommand nestedDecodingEngine nestedArgs nestedPrepared).2

/-! ## Example inputs: the invocation gateway -/

/-- An engine that prints, reports an error and exits with code 3. -/
def noisyEngine : Engine Unit Unit := fun _ fs _ =>
  { fs := fs, mem := (), printed := ["  one", "two  "], printedErr := ["bad"],
    thrown := some (Thrown.number 3) }

/-- A runner whose buffers still hold the output of an earlier run. -/
def staleRunner : FlatcRunner Unit :=
  ⟨[], (), "earlier output\n", "earlier error\n", none, none⟩

/-! ## Path strings -/

/-- The path string `/n1/.../nk` of a resolved path, built the way `mountFile` builds
the directories it makes: every name preceded by `/`. -/
def absolutePath (q : Path) : String :=
  q.foldl (fun cur name => cur ++ "/" ++ name) ""

/-! ## Code generation (`src/generators/code.mjs`) and directory trees -/

/-- The `options` object of `generateCode`, as the list of its own entries; it may
hold any keys. -/
abbrev CodeOptions := List (String × JSValue)

/-- Property access `options.key`: a key the object does not hold reads as
`undefined`. -/
def optionValue (options : CodeOptions) (key : String) : JSValue :=
  (Object.get options key).getD JSValue.undefined

/-- The argument vector of `generateCode` (lines 60-79). -/
def codeArgs (language outputDir : String) (includeDirs : List String) (options : CodeOptions)
    (entry : String) : List String :=
  ["--" ++ language, "-o", outputDir] ++
    includeDirs.flatMap (fun d => ["-I", d]) ++
    (if (optionValue options "genObjectApi").truthy then ["--gen-object-api"] else []) ++
    (if (optionValue options "genOneFile").truthy then ["--gen-onefile"] else []) ++
    (if (optionValue options "pythonTyping").truthy then ["--python-typing"] else []) ++
    (if (optionValue options "pythonVersion").truthy then ["--python-version"] else []) ++
    (if (optionValue options "noIncludes").truthy then ["--no-includes"] else []) ++
    (if (optionValue options "genCompare").truthy then ["--gen-compare"] else []) ++
    (if (optionValue options "genNameStrings").truthy then ["--gen-name-strings"] else []) ++
    (if (optionValue options "reflectNames").truthy then ["--reflect-names"] else []) ++
    (if (optionValue options "reflectTypes").truthy then ["--reflect-types"] else []) ++
    (if (optionValue options "genJsonEmit").truthy then ["--gen-json-emit"] else []) ++
    (if (optionValue options "keepPrefix").truthy then ["--keep-prefix"] else []) ++
    (if (optionValue options "preserveCase").truthy then ["--preserve-case"] else []) ++
    [entry]

/-- The option keys `generateCode` reads, each with the flag it stands for, in the order
the specification lists them. -/
def codeFlagTable : List (String × String) :=
  [("genObjectApi", "--gen-object-api"), ("genOneFile", "--gen-onefile"),
    ("pythonTyping", "--python-typing"), ("pythonVersion", "--python-version"),
    ("noIncludes", "--no-includes"), ("genCompare", "--gen-compare"),
    ("genNameStrings", "--gen-name-strings"), ("reflectNames", "--reflect-names"),
    ("reflectTypes", "--reflect-types"), ("genJsonEmit", "--gen-json-emit"),
    ("keepPrefix", "--keep-prefix"), ("preserveCase", "--preserve-case")]

/-- Assignment `o[key] = value` on an object kept as the list of its entries: an
existing key keeps its place, a new key goes last. -/
def Object.set {α : Type} (o : List (String × α)) (key : String) (value : α) :
    List (String × α) :=
  if key ∈ Object.keys o then o.map (fun e => if e.1 = key then (key, value) else e)
  else o ++ [(key, value)]

/-- `Object.assign(target, source)`: every entry of `source` is assigned in order. -/
def Object.assign {α : Type} (target source : List (String × α)) : List (String × α) :=
  source.foldl (fun o e => Object.set o e.1 e.2) target

/-- The `for` loop of `walk` over the entries of a directory; `visit entry result` handles
one entry, and a failure ends the loop. -/
def walkLoop {ε : Type} (visit : String → List (String × String) →
      Option (Except ε (List (String × String)))) :
    List String → List (String × String) → Option (Except ε (List (String × String)))
  | [], result => some (.ok result)
  | entry :: rest, result =>
    match visit entry result with
    | some (.ok res) => walkLoop visit rest res
    | other => other

/-- The closure `walk` of `generateCode` (lines 84-101). Files are read with
`{ encoding: "utf8" }`, that is through the decoder `utf8Decode` of the engine's runtime.
The first argument bounds the depth of the recursion; `none` means the bound was
reached. -/
def walk (utf8Decode : Bytes → String) (fs : MemFS) :
    Nat → String → String → Option (Except (JSError E) (List (String × String)))
  | 0, _, _ => none
  | fuel + 1, path, base =>
    match FS.readdir fs path with
    | .error e => some (.error (.errno e))
    | .ok names =>
      walkLoop
        (fun entry result =>
          let fullPath := path ++ "/" ++ entry
          let relPath := if base ≠ "" then base ++ "/" ++ entry else entry
          match FS.stat fs fullPath with
          | .error e => some (.error (.errno e))
          | .ok stat =>
            if FS.isDir stat then
              match walk utf8Decode fs fuel fullPath relPath with
              | some (.ok sub) => some (.ok (Object.assign result sub))
              | other => other
            else
              match FS.readFile fs fullPath with
              | .error e => some (.error (.errno e))
              | .ok data => some (.ok (Object.set result relPath (utf8Decode data))))
        (names.filter (fun e => e ≠ "." ∧ e ≠ "..")) []

/-- The part of `generateCode` before the engine runs (lines 43-81): the output
directory, the schema files, mounted without consulting or updating the cache, and
the argument vector. A string is mounted as it is and a `Uint8Array` with the bytes it
holds, which is the list `schemaMountList` gives. -/
def prepareCode (E : Type) (heap : Heap) (schemaInput : SchemaInput) (language outputDir : String)
    (options : CodeOptions) (r : FlatcRunner σ) :
    Except (JSError E) (List String) × FlatcRunner σ :=
  match FS.mkdirTree r.FS outputDir with
  | .error (e, fs) => (.error (.errno e), { r with FS := fs })
  | .ok fs0 =>
    match mountFiles (schemaMountList heap schemaInput) fs0 with
    | .error (e, fs) => (.error (.errno e), { r with FS := fs })
    | .ok fs1 =>
      (.ok (codeArgs language outputDir (getIncludeDirsFromSchemaInput schemaInput) options
          schemaInput.entry),
        { r with FS := fs1 })

/-- The part of `generateCode` after the engine ran (lines 82-103): a non-zero exit
code is thrown as an error carrying `stderr`, otherwise the output directory is
walked. `none` stands for a walk that did not end within the depth bound. -/
def harvestCode (utf8Decode : Bytes → String) (outputDir : String) (result : CommandResult)
    (r : FlatcRunner σ) :
    Option (Except (JSError E) (List (String × String))) × FlatcRunner σ :=
  if result.code ≠ 0 then (some (.error (.error result.stderr)), r)
  else (walk utf8Decode r.FS (MemFS.depth r.FS + 2) outputDir "", r)

/-- The function `generateCode`; `outputDir` is the directory given by the caller or the
default `/out/<uuid>`. -/
def generateCode (callMain : Engine σ E) (utf8Decode : Bytes → String) (heap : Heap)
    (schemaInput : SchemaInput) (language outputDir : String) (options : CodeOptions)
    (r : FlatcRunner σ) :
    Option (Except (JSError E) (List (String × String))) × FlatcRunner σ :=
  match prepareCode E heap schemaInput language outputDir options r with
  | (.error e, r1) => (some (.error e), r1)
  | (.ok args, r1) =>
    match runCommand callMain args r1 with
    | (.error e, r2) => (some (.error e), r2)
    | (.ok result, r2) => harvestCode utf8Decode outputDir result r2

/-- A filesystem state that is a directory tree: proper names, every path held once,
and every node below the top level inside a directory of the state. -/
def MemFS.Tree (fs : MemFS) : Prop :=
  MemFS.ProperNames fs ∧ (fs.map Prod.fst).Nodup ∧
    ∀ e ∈ fs, e.1.dropLast = [] ∨ (e.1.dropLast, Node.dir) ∈ fs

instance (fs : MemFS) : Decidable (MemFS.Tree fs) := by
  unfold MemFS.Tree
  infer_instance

/-- The regular files at and below the node `q`, each given by its names relative to
`q`, depth-first in directory order; the first argument bounds the depth. -/
def relFiles (fs : MemFS) : Nat → Path → List Path
  | 0, _ => []
  | fuel + 1, q =>
    match MemFS.node fs q with
    | none => []
    | some (Node.file _) => [[]]
    | some Node.dir =>
      (MemFS.names fs q).flatMap (fun name => (relFiles fs fuel (q ++ [name])).map (name :: ·))

/-- The path string `listAllFiles` reports for the file `rest` below the path `p`: one
name appended at a time, without a second slash after the root. -/
def descend (p : String) (rest : Path) : String :=
  rest.foldl (fun p name => if p = "/" then "/" ++ name else p ++ "/" ++ name) p

/-- The key `walk` gives to the file `rest` below a directory walked with `base`. -/
def relKey (base : String) (rest : Path) : String :=
  rest.foldl (fun base entry => if base ≠ "" then base ++ "/" ++ entry else entry) base

/-- An engine that writes two generated files, one in a subdirectory, and exits with
code 0. -/
def codegenEngine : Engine Unit Unit := fun _ fs _ =>
  { fs := fs ++ [(["out", "m_generated.ts"], Node.file [97]), (["out", "ns"], Node.dir),
      (["out", "ns", "t.ts"], Node.file [98])],
    mem := (), printed := [], printedErr := [], thrown := none }

/-! ## Example inputs: code generation -/

/-- An options object as the code generation test passes it, with two of the options
`generateCode` reads. -/
def exampleCodeOptions : CodeOptions :=
  [("objectAPI", JSValue.bool true), ("preserveCase", JSValue.string "y"),
    ("genOneFile", JSValue.number 1), ("genCompare", JSValue.bool false)]

/-- The argument vector of that call for the example schema, TypeScript and `/out`. -/
def exampleCodeArgs : List String :=
  ["--ts", "-o", "/out", "-I", "/a", "-I", "/", "--gen-onefile", "--preserve-case", "/a/m.fbs"]

/-- The fresh runner as that call leaves it right before the engine starts. -/
def codePrepared : FlatcRunner Unit :=
  (prepareCode Unit exampleHeap exampleSchema "ts" "/out" exampleCodeOptions emptyRunner).2

/-! ## Example inputs: a directory tree -/

/-- A directory tree: generated files under `/out`, one of them in a subdirectory, and
a schema file next to it. -/
def exampleTree : MemFS :=
  [(["out"], Node.dir), (["out", "m_generated.ts"], Node.file [97]), (["out", "ns"], Node.dir),
    (["b.fbs"], Node.file [120]), (["out", "ns", "t.ts"], Node.file [98]),
    (["out", "empty"], Node.dir)]

/-! ## The text of a file -/

/-- The text `readFile` with `utf8` gives for the regular file at a resolved path; the
empty string where there is no regular file. -/
def textAt (utf8Decode : Bytes → String) (fs : MemFS) (f : Path) : String :=
  match MemFS.node fs f with
  | some (Node.file b) => utf8Decode b
  | _ => ""

/-- The runner after `codegenEngine` ran in the example code generation call. -/
def codeRan : FlatcRunner Unit :=
  (runCommand codegenEngine exampleCodeArgs codePrepared).2

/-! ## The streaming transformer (`src/core/streaming-transformer.mjs`) -/

/-- Modelled from the spec: `FS.unmount(path)` of the virtual filesystem. The drivers
mount no filesystem of their own, so no node is a mount point and the call fails. -/
def FS.unmount (fs : MemFS) (path : String) : Except Errno MemFS :=
  match resolve path with
  | none => .error .ENOENT
  | some p =>
    match MemFS.node fs p with
    | none => .error .ENOENT
    | some _ => .error .EINVAL

/-- The method `#initRunner` of `StreamingTransformer`: `new FlatcRunner(null)` around a
new engine instance, given by its initial filesystem and memory. -/
def initRunner (fs0 : MemFS) (mem0 : σ) : FlatcRunner σ :=
  ⟨fs0, mem0, "", "", none, none⟩

/-- The statements inside the outer `try` of `#destroyRunner`: every top-level entry is
unmounted and removed, each attempt in its own `try`, and then the content map of the
root is replaced by an empty one. -/
def destroyRunnerBody (fs : MemFS) : Except Errno MemFS :=
  match FS.readdir fs "/" with
  | .error e => .error e
  | .ok root =>
    let _fs1 := root.foldl
      (fun fs name =>
        if name = "." ∨ name = ".." then fs
        else
          swallow (fun fs => FS.rmdir fs ("/" ++ name))
            (swallow (fun fs => FS.unmount fs ("/" ++ name)) fs)) fs
    .ok []

/-- The method `#destroyRunner`: whatever fails inside is caught, so the method always
returns normally. -/
def destroyRunner (r : FlatcRunner σ) : Except (JSError E) Unit × FlatcRunner σ :=
  match destroyRunnerBody r.FS with
  | .ok fs => (.ok (), { r with FS := fs })
  | .error _ => (.ok (), r)

/-- What a call of a transform method amounts to: what the caller receives, the
engine instance as it is left (if one was created), and the runners `#destroyRunner`
was called with, in order. -/
structure TransformRun (σ E α : Type) where
  outcome : Except (JSError E) α
  runner : Option (FlatcRunner σ)
  teardowns : List (FlatcRunner σ)

/-- The statement `try { return body } finally { finalizer }`: the finalizer runs after
the body on the state the body left; a value thrown by the finalizer replaces the
outcome of the body. -/
def tryFinally {α : Type} (body : FlatcRunner σ → Except (JSError E) α × FlatcRunner σ)
    (finalizer : FlatcRunner σ → Except (JSError E) Unit × FlatcRunner σ)
    (r : FlatcRunner σ) : TransformRun σ E α :=
  match body r with
  | (out, r1) =>
    match finalizer r1 with
    | (.ok (), r2) => ⟨out, some r2, [r1]⟩
    | (.error e, r2) => ⟨.error e, some r2, [r1]⟩

/-- The method `transformJsonToBinary`; `created` is the outcome of creating the
engine instance, which is awaited before the `try`. -/
def transformJsonToBinary (callMain : Engine σ E) (heap : Heap) (uuid1 uuid2 : String)
    (schemaInput : SchemaInput) (json : FileData) (created : Except E (MemFS × σ)) :
    TransformRun σ E Bytes :=
  match created with
  | .error e => ⟨.error (.engine e), none, []⟩
  | .ok (fs0, mem0) =>
    tryFinally (generateBinary callMain heap uuid1 uuid2 schemaInput json) destroyRunner
      (initRunner fs0 mem0)

/-- The method `transformBinaryToJson`: the options argument of `generateJSON` is
`undefined`, so the default `{}` applies; the fourth argument is not a parameter of
`generateJSON`. -/
def transformBinaryToJson (callMain : Engine σ E) (utf8Decode : Bytes → String) (heap : Heap)
    (schemaInput : SchemaInput) (buffer : FileData) (created : Except E (MemFS × σ)) :
    TransformRun σ E Output :=
  match created with
  | .error e => ⟨.error (.engine e), none, []⟩
  | .ok (fs0, mem0) =>
    tryFinally
      (generateJSON callMain utf8Decode heap schemaInput ⟨"/input.mon", buffer⟩
        ⟨JSValue.undefined, JSValue.undefined, JSValue.undefined⟩)
      destroyRunner (initRunner fs0 mem0)

/-- The engine instance the examples start from: an empty filesystem. -/
def freshInstance : Except Unit (MemFS × Unit) :=
  .ok ([], ())

/-! ## Example inputs: two schemas at one path -/

/-- A schema whose one file `/m.fbs` holds the text `a`. -/
def schemaOne : SchemaInput :=
  ⟨"/m.fbs", [("/m.fbs", .text "a")], by decide⟩

/-- Another schema at the same path: `/m.fbs` holds the text `b`. -/
def schemaTwo : SchemaInput :=
  ⟨"/m.fbs", [("/m.fbs", .text "b")], by decide⟩

/-- An engine whose output shows which schema it was given: it copies the bytes it
finds at `/m.fbs` (none when the file is missing) into `x.mon` in the directory that
follows `-o`, and exits with code 0. -/
def probeEngine : Engine Unit Unit := fun args fs _ =>
  let outDir := match args.dropWhile (fun a => a ≠ "-o") with
    | _ :: d :: _ => d
    | _ => "/"
  let seen := match FS.readFile fs "/m.fbs" with
    | .ok b => b
    | .error _ => []
  { fs := swallow (fun fs => FS.writeFile fs (outDir ++ "/x.mon") seen) fs, mem := (),
    printed := [], printedErr := [], thrown := none }

/-- The runner after encoding a document against `schemaOne` on a fresh runner. -/
def afterEncode : FlatcRunner Unit :=
  (generateBinary probeEngine exampleHeap "u1" "u2" schemaOne (FileData.text "{}")
    emptyRunner).2

/-- The runner after then generating code for `schemaTwo` on the same runner. -/
def afterGenerate : FlatcRunner Unit :=
  (generateCode probeEngine exampleDecode exampleHeap schemaTwo "ts" "/out" [] afterEncode).2

/-- The runner after decoding, against `schemaOne` on a fresh runner, a binary whose
caller-chosen path is the schema path `/m.fbs`. -/
def afterDecode : FlatcRunner Unit :=
  (generateJSON silentEngine exampleDecode exampleHeap schemaOne
    ⟨"/m.fbs", FileData.bytes 1⟩ noOptions emptyRunner).2

/-! # Properties -/

/-! ## Strings -/

theorem lastIndexOfChars_eq_none (c : Char) (l : List Char) :
    lastIndexOfChars c l = none ↔ c ∉ l := by
  induction l with
  | nil => simp [lastIndexOfChars]
  | cons x xs ih =>
    simp only [lastIndexOfChars]
    cases h : lastIndexOfChars c xs with
    | some i =>
      have : ¬ c ∉ xs := fun hn => by rw [ih.2 hn] at h; cases h
      simp only [List.mem_cons, not_or]
      constructor
      · intro h'; cases h'
      · intro h'; exact absurd h'.2 this
    | none =>
      have hc := ih.1 h
      by_cases hx : x = c
      · subst hx; simp
      · simp [hx, hc, Ne.symm hx]

theorem lastIndexOfChars_eq_some (c : Char) (l : List Char) (i : Nat)
    (h : lastIndexOfChars c l = some i) :
    l = l.take i ++ c :: l.drop (i + 1) ∧ c ∉ l.drop (i + 1) ∧ i < l.length := by
  induction l generalizing i with
  | nil => simp [lastIndexOfChars] at h
  | cons x xs ih =>
    simp only [lastIndexOfChars] at h
    cases h' : lastIndexOfChars c xs with
    | some j =>
      rw [h'] at h
      simp only [Option.some.injEq] at h
      subst h
      obtain ⟨h1, h2, h3⟩ := ih j h'
      refine ⟨?_, ?_, ?_⟩
      · simp only [List.take_succ_cons, List.drop_succ_cons, List.cons_append]
        rw [← h1]
      · simpa using h2
      · simp; omega
    | none =>
      rw [h'] at h
      by_cases hx : x = c
      · subst hx
        simp only [if_true, Option.some.injEq] at h
        subst h
        have := (lastIndexOfChars_eq_none x xs).1 h'
        simp [this]
      · simp [hx] at h

theorem slice_zero_data (s : String) (k : Nat) (hk : k ≤ s.data.length) :
    (slice s 0 (k : Int)).data = s.data.take k := by
  have hk' : k ≤ s.length := hk
  simp only [slice]
  have h1 : ¬ ((k : Int) < 0) := by omega
  simp only [lt_self_iff_false, if_false, h1]
  have h2 : min (0 : Int) (s.length : Int) = 0 := by omega
  have h3 : min (k : Int) (s.length : Int) = k := by omega
  simp [h2, h3]

theorem substring_zero_data (s : String) (k : Nat) (hk : k ≤ s.data.length) :
    (substring s 0 (k : Int)).data = s.data.take k := by
  have e1 : (min (min (max (0 : Int) 0) (s.data.length : Int))
      (min (max (k : Int) 0) (s.data.length : Int))).toNat = 0 := by omega
  have e2 : (max (min (max (0 : Int) 0) (s.data.length : Int))
      (min (max (k : Int) 0) (s.data.length : Int))).toNat = k := by omega
  unfold substring
  simp only [e1, e2, List.drop_zero, Nat.sub_zero]

theorem substring_zero_neg (s : String) : substring s 0 (-1) = "" := by
  simp only [substring]
  have h0 : min (max (0 : Int) 0) (s.length : Int) = 0 := by omega
  have h1 : min (max (-1 : Int) 0) (s.length : Int) = 0 := by omega
  simp [h0, h1]

/-- The directory part, on characters: the first `i` characters when the last `/` is
at a position `i > 0`, and `/` otherwise. -/
theorem includeDirOf_cases (k : String) :
    (∃ rest, k.data = (includeDirOf k).data ++ '/' :: rest ∧ '/' ∉ rest ∧
        (includeDirOf k).data ≠ []) ∨
    (includeDirOf k = "/" ∧ ('/' ∉ k.data ∨ ∃ rest, k.data = '/' :: rest ∧ '/' ∉ rest)) := by
  unfold includeDirOf lastIndexOf
  cases h : lastIndexOfChars '/' k.data with
  | none =>
    right
    simp only [(by decide : ¬ ((-1 : Int) > 0)), if_false, true_and]
    exact Or.inl ((lastIndexOfChars_eq_none _ _).1 h)
  | some i =>
    obtain ⟨h1, h2, h3⟩ := lastIndexOfChars_eq_some _ _ _ h
    cases i with
    | zero =>
      right
      simp only [Nat.cast_zero, gt_iff_lt, lt_self_iff_false, if_false, true_and]
      right
      exact ⟨k.data.drop 1, by simpa using h1, h2⟩
    | succ j =>
      left
      have hpos : ((j + 1 : Nat) : Int) > 0 := by omega
      simp only [hpos, if_true]
      rw [slice_zero_data k (j + 1) (by omega)]
      refine ⟨k.data.drop (j + 1 + 1), h1, h2, ?_⟩
      intro hnil
      rcases List.take_eq_nil_iff.1 hnil with h0 | h0
      · omega
      · rw [h0] at h3; simp at h3

/-! ## The cache check -/

theorem Object.get_eq_none_iff {α : Type} (o : List (String × α)) (k : String) :
    Object.get o k = none ↔ k ∉ Object.keys o := by
  unfold Object.get Object.keys
  induction o with
  | nil => simp
  | cons e es ih =>
    obtain ⟨a, b⟩ := e
    by_cases h : k = a
    · subst h; simp [List.lookup_cons]
    · have h1 : (k == a) = false := by simpa using h
      simp [List.lookup_cons, h1, ih, h]

theorem truthy_ne_none {v : Option FileData} (h : truthy v = true) : v ≠ none := by
  intro hv; subst hv; simp [truthy] at h

theorem schemaUnchanged_some (c S : SchemaInput) (h : schemaUnchanged (some c) S = true) :
    c.entry = S.entry ∧ (∀ k, k ∈ Object.keys c.files ↔ k ∈ Object.keys S.files) ∧
      (∀ k, Object.get c.files k = Object.get S.files k) := by
  simp only [schemaUnchanged, Bool.and_eq_true, beq_iff_eq, List.all_eq_true, strictEq] at h
  obtain ⟨he, hl, hall⟩ := h
  have hsub : Object.keys c.files ⊆ Object.keys S.files := by
    intro k hk
    by_contra hn
    have := (Object.get_eq_none_iff S.files k).2 hn
    exact truthy_ne_none (hall k hk).1 this
  have hperm : (Object.keys c.files).Perm (Object.keys S.files) :=
    (List.subperm_of_subset c.keys_nodup hsub).perm_of_length_le (le_of_eq hl.symm)
  refine ⟨he, fun k => hperm.mem_iff, fun k => ?_⟩
  by_cases hk : k ∈ Object.keys c.files
  · exact (hall k hk).2
  · have hk2 : k ∉ Object.keys S.files := fun h2 => hk (hperm.mem_iff.2 h2)
    rw [(Object.get_eq_none_iff _ k).2 hk, (Object.get_eq_none_iff _ k).2 hk2]


/-- C1: whenever the `schemaUnchanged` check is truthy (the remount is skipped), a
schema is cached, it has the same entry as the incoming one, the same set of file paths
(none added, none removed), and under every path the same value, hence the same
content. -/
theorem schemaUnchanged_sound (cached : Option SchemaInput) (schemaInput : SchemaInput)
    (h : schemaUnchanged cached schemaInput = true) :
    ∃ c, cached = some c ∧ c.entry = schemaInput.entry ∧
      (∀ k, k ∈ Object.keys c.files ↔ k ∈ Object.keys schemaInput.files) ∧
      (∀ k, Object.get c.files k = Object.get schemaInput.files k) ∧
      (∀ (heap : Heap) k, (Object.get c.files k).map (FileData.content heap) =
        (Object.get schemaInput.files k).map (FileData.content heap)) := by
  cases cached with
  | none => simp [schemaUnchanged] at h
  | some c =>
    obtain ⟨h1, h2, h3⟩ := schemaUnchanged_some c schemaInput h
    exact ⟨c, rfl, h1, h2, h3, fun heap k => by rw [h3 k]⟩

/-- Witness for C1: a cached schema checked against an equal incoming one. -/
theorem schemaUnchanged_sound_witness :
    schemaUnchanged (some exampleSchema) exampleSchema = true ∧
    ∃ c, some exampleSchema = some c ∧ c.entry = exampleSchema.entry ∧
      (∀ k, k ∈ Object.keys c.files ↔ k ∈ Object.keys exampleSchema.files) ∧
      (∀ k, Object.get c.files k = Object.get exampleSchema.files k) ∧
      (∀ (heap : Heap) k, (Object.get c.files k).map (FileData.content heap) =
        (Object.get exampleSchema.files k).map (FileData.content heap)) :=
  ⟨by decide, schemaUnchanged_sound (some exampleSchema) exampleSchema (by decide)⟩

/-! ## Include directories -/

theorem foldl_setAdd_nodup (l acc : List String) (h : acc.Nodup) :
    (l.foldl setAdd acc).Nodup := by
  induction l generalizing acc with
  | nil => simpa using h
  | cons x xs ih =>
    simp only [List.foldl_cons]
    apply ih
    unfold setAdd
    split
    · exact h
    · rename_i hx
      exact List.Nodup.append h (List.nodup_singleton x) (by simpa using hx)

theorem mem_foldl_setAdd (l acc : List String) (d : String) :
    d ∈ l.foldl setAdd acc ↔ d ∈ acc ∨ d ∈ l := by
  induction l generalizing acc with
  | nil => simp
  | cons x xs ih =>
    simp only [List.foldl_cons, ih, List.mem_cons]
    unfold setAdd
    split
    · rename_i hx
      constructor
      · rintro (h | h)
        · exact Or.inl h
        · exact Or.inr (Or.inr h)
      · rintro (h | h | h)
        · exact Or.inl h
        · subst h; exact Or.inl hx
        · exact Or.inr h
    · simp only [List.mem_append, List.mem_singleton]
      tauto

theorem foldl_setAdd_order (full : List String) (l pre acc : List String)
    (hfull : full = pre ++ l) (hmem : ∀ a, a ∈ acc ↔ a ∈ pre)
    (hord : acc.Pairwise (fun a b => List.indexOf a full < List.indexOf b full)) :
    (l.foldl setAdd acc).Pairwise (fun a b => List.indexOf a full < List.indexOf b full) := by
  induction l generalizing pre acc with
  | nil => simpa using hord
  | cons x xs ih =>
    simp only [List.foldl_cons]
    apply ih (pre ++ [x])
    · simp [hfull]
    · intro a
      unfold setAdd
      split
      · rename_i hx
        simp only [List.mem_append, List.mem_singleton, hmem]
        constructor
        · exact Or.inl
        · rintro (h | h)
          · exact h
          · subst h; exact (hmem a).1 hx
      · simp [hmem]
    · unfold setAdd
      split
      · exact hord
      · rename_i hx
        rw [List.pairwise_append]
        refine ⟨hord, List.pairwise_singleton _ _, ?_⟩
        intro a ha b hb
        simp only [List.mem_singleton] at hb
        subst hb
        have hap : a ∈ pre := (hmem a).1 ha
        have hbp : b ∉ pre := fun h => hx ((hmem b).2 h)
        rw [hfull, List.indexOf_append_of_mem hap, List.indexOf_append_of_not_mem hbp,
          List.indexOf_cons_self]
        have := List.indexOf_lt_length.2 hap
        omega

theorem foldl_setAdd_eq_nil (l acc : List String) :
    l.foldl setAdd acc = [] ↔ acc = [] ∧ l = [] := by
  constructor
  · intro h
    have hm : ∀ d, ¬ (d ∈ acc ∨ d ∈ l) := fun d hd => by
      have := (mem_foldl_setAdd l acc d).2 hd
      rw [h] at this
      cases this
    constructor
    · exact List.eq_nil_iff_forall_not_mem.2 fun d hd => hm d (Or.inl hd)
    · exact List.eq_nil_iff_forall_not_mem.2 fun d hd => hm d (Or.inr hd)
  · rintro ⟨rfl, rfl⟩; rfl

theorem getIncludeDirs_eq_foldl (S : SchemaInput) :
    getIncludeDirsFromSchemaInput S =
      ((Object.keys S.files).map includeDirOf).foldl setAdd [] := by
  unfold getIncludeDirsFromSchemaInput
  rw [List.foldl_map]

/-- C4: `getIncludeDirsFromSchemaInput` returns a list without duplicates whose
elements are exactly the directories of the keys of `files`; the directory of a key is
the text before its last `/` when that text is not empty, and `/` when the key has no
`/` or its only `/` is the leading one; the directories come in the order in which they
first occur among the keys; the list is empty exactly when `files` is. -/
theorem getIncludeDirsFromSchemaInput_spec (schemaInput : SchemaInput) :
    (getIncludeDirsFromSchemaInput schemaInput).Nodup ∧
    (∀ d, d ∈ getIncludeDirsFromSchemaInput schemaInput ↔
      ∃ k ∈ Object.keys schemaInput.files, includeDirOf k = d) ∧
    (∀ k : String,
      (∃ rest, k.data = (includeDirOf k).data ++ '/' :: rest ∧ '/' ∉ rest ∧
        (includeDirOf k).data ≠ []) ∨
      (includeDirOf k = "/" ∧ ('/' ∉ k.data ∨ ∃ rest, k.data = '/' :: rest ∧ '/' ∉ rest))) ∧
    (getIncludeDirsFromSchemaInput schemaInput).Pairwise (fun a b =>
      List.indexOf a ((Object.keys schemaInput.files).map includeDirOf) <
        List.indexOf b ((Object.keys schemaInput.files).map includeDirOf)) ∧
    (getIncludeDirsFromSchemaInput schemaInput = [] ↔ schemaInput.files = []) := by
  rw [getIncludeDirs_eq_foldl]
  refine ⟨foldl_setAdd_nodup _ _ List.nodup_nil, ?_, includeDirOf_cases, ?_, ?_⟩
  · intro d
    rw [mem_foldl_setAdd]
    simp
  · exact foldl_setAdd_order _ _ [] [] rfl (fun a => Iff.rfl) List.Pairwise.nil
  · rw [foldl_setAdd_eq_nil]
    simp [Object.keys]

/-! ## Messages -/

theorem dropWhile_head_not (p : Char → Bool) (l : List Char) :
    l.dropWhile p = [] ∨ ∃ a t, l.dropWhile p = a :: t ∧ p a = false := by
  induction l with
  | nil => left; rfl
  | cons x xs ih =>
    by_cases hx : p x = true
    · simpa [List.dropWhile_cons, hx] using ih
    · right
      exact ⟨x, xs, by simp [List.dropWhile_cons, hx], by simpa using hx⟩

theorem dropWhile_of_head_not (p : Char → Bool) (a : Char) (t : List Char) (h : p a = false) :
    (a :: t).dropWhile p = a :: t := by
  simp [List.dropWhile_cons, h]

theorem trim_trim (s : String) : trim (trim s) = trim s := by
  unfold trim
  simp only
  set u := s.data.dropWhile isTrimmed with hu
  set w := u.reverse.dropWhile isTrimmed with hw
  have hpre : w.reverse <+: u := by
    have : w <:+ u.reverse := List.dropWhile_suffix _
    have h2 := List.reverse_prefix.2 this
    simpa using h2
  have h1 : w.reverse.dropWhile isTrimmed = w.reverse := by
    rcases dropWhile_head_not isTrimmed s.data with h | ⟨a, t, h, ha⟩
    · rw [← hu] at h
      rw [h] at hpre
      have : w.reverse = [] := List.prefix_nil.1 hpre
      rw [this]; rfl
    · rw [← hu] at h
      rw [h] at hpre
      rcases List.prefix_cons_iff.1 hpre with h0 | ⟨t', h0, _⟩
      · rw [h0]; rfl
      · rw [h0]; exact dropWhile_of_head_not _ _ _ ha
  rw [h1, List.reverse_reverse, hw, List.dropWhile_idempotent]

theorem intercalate_go_data (acc sep : String) (xs : List String) :
    (String.intercalate.go acc sep xs).data =
      acc.data ++ xs.flatMap (fun a => sep.data ++ a.data) := by
  induction xs generalizing acc with
  | nil => simp [String.intercalate.go]
  | cons x xs ih =>
    simp [String.intercalate.go, ih, String.data_append, List.append_assoc]

theorem mem_infix_flatMap (sep : List Char) (xs : List String) (x : String) (hx : x ∈ xs) :
    x.data <:+: xs.flatMap (fun a => sep ++ a.data) := by
  induction xs with
  | nil => cases hx
  | cons y ys ih =>
    simp only [List.flatMap_cons]
    rcases List.mem_cons.1 hx with h | h
    · subst h
      exact ⟨sep, ys.flatMap (fun a => sep ++ a.data), by simp⟩
    · obtain ⟨a, b, hab⟩ := ih h
      exact ⟨sep ++ y.data ++ a, b, by simp [← hab, List.append_assoc]⟩

theorem includes_join (xs : List String) (sep x : String) (hx : x ∈ xs) :
    includes (join xs sep) x := by
  unfold includes join
  cases xs with
  | nil => cases hx
  | cons y ys =>
    simp only [String.intercalate, intercalate_go_data]
    rcases List.mem_cons.1 hx with h | h
    · subst h
      exact (List.prefix_append _ _).isInfix
    · obtain ⟨a, b, hab⟩ := mem_infix_flatMap sep.data ys x h
      exact ⟨y.data ++ a, b, by simp [← hab, List.append_assoc]⟩

theorem includes_trans {a b c : String} (h1 : includes b a) (h2 : includes c b) :
    includes c a :=
  List.IsInfix.trans h1 h2

theorem includes_append_right (a b : String) : includes (a ++ b) b := by
  unfold includes
  rw [String.data_append]
  exact (List.suffix_append _ _).isInfix

theorem join_startsWith (x : String) (xs : List String) (sep : String) :
    x.data <+: (join (x :: xs) sep).data := by
  unfold join
  simp only [String.intercalate, intercalate_go_data]
  exact List.prefix_append _ _

theorem runCommand_trimmed (callMain : Engine σ E) (args : List String) (r r2 : FlatcRunner σ)
    (result : CommandResult) (h : runCommand callMain args r = (.ok result, r2)) :
    trim result.stdout = result.stdout ∧ trim result.stderr = result.stderr := by
  unfold runCommand at h
  simp only at h
  split at h
  · simp only [Prod.mk.injEq, Except.ok.injEq] at h
    obtain ⟨h1, _⟩ := h
    subst h1
    exact ⟨trim_trim _, trim_trim _⟩
  · simp only [Prod.mk.injEq, Except.ok.injEq] at h
    obtain ⟨h1, _⟩ := h
    subst h1
    exact ⟨trim_trim _, trim_trim _⟩
  · simp at h

theorem orElse_eq_ite (a b : String) : orElse a b = if a = "" then b else a := rfl

theorem failureMessage_includes (result : CommandResult) (args : List String)
    (hout : trim result.stdout = result.stdout) (herr : trim result.stderr = result.stderr) :
    ("flatc failed with exit code " ++ toString result.code).data <+:
      (failureMessage result args).data ∧
    includes (failureMessage result args) (toString result.code) ∧
    includes (failureMessage result args) (join args " ") ∧
    (∀ a ∈ args, includes (failureMessage result args) a) ∧
    includes (failureMessage result args)
      (if result.stdout = "" then "(empty)" else result.stdout) ∧
    includes (failureMessage result args)
      (if result.stderr = "" then "(empty)" else result.stderr) := by
  unfold failureMessage
  rw [hout, herr]
  refine ⟨join_startsWith _ _ _, ?_, ?_, ?_, ?_, ?_⟩
  · exact includes_trans (includes_append_right "flatc failed with exit code " _)
      (includes_join _ _ _ (by simp))
  · exact includes_trans (includes_append_right "Arguments: " _)
      (includes_join _ _ _ (by simp))
  · intro a ha
    exact includes_trans (includes_join args " " a ha)
      (includes_trans (includes_append_right "Arguments: " _) (includes_join _ _ _ (by simp)))
  · exact includes_join _ _ _ (by simp [orElse_eq_ite])
  · exact includes_join _ _ _ (by simp [orElse_eq_ite])

/-- C6: when the engine ends with a non-zero exit code, the error `generateBinary`
and `generateJSON` raise has a message that contains the exit code, the argument vector
that was passed to the engine (its elements in order, joined by blanks, hence every
element), the captured stdout and the captured stderr, with the marker `(empty)` in
place of a stream that is empty. -/
theorem failure_diagnostics_complete :
    (∀ (callMain : Engine σ E) (heap : Heap) (uuid1 uuid2 : String) (schemaInput : SchemaInput)
        (jsonInput : FileData) (r r1 r2 : FlatcRunner σ) (args : List String)
        (result : CommandResult),
      prepareBinary E heap uuid1 uuid2 schemaInput jsonInput r =
        ((.ok args, r1) : Except (JSError E) (List String) × FlatcRunner σ) →
      runCommand callMain args r1 = (.ok result, r2) →
      result.code ≠ 0 →
      ∃ msg, (generateBinary callMain heap uuid1 uuid2 schemaInput jsonInput r).1 =
          .error (.error msg) ∧
        includes msg (toString result.code) ∧
        includes msg (join args " ") ∧
        (∀ a ∈ args, includes msg a) ∧
        includes msg (if result.stdout = "" then "(empty)" else result.stdout) ∧
        includes msg (if result.stderr = "" then "(empty)" else result.stderr)) ∧
    (∀ (callMain : Engine σ E) (utf8Decode : Bytes → String) (heap : Heap)
        (schemaInput : SchemaInput) (binaryInput : BinaryInput) (opts : JSONOptions)
        (r r1 r2 : FlatcRunner σ) (args : List String) (result : CommandResult),
      prepareJSON E heap schemaInput binaryInput opts r =
        ((.ok args, r1) : Except (JSError E) (List String) × FlatcRunner σ) →
      runCommand callMain args r1 = (.ok result, r2) →
      result.code ≠ 0 →
      ∃ msg, (generateJSON callMain utf8Decode heap schemaInput binaryInput opts r).1 =
          .error (.error msg) ∧
        includes msg (toString result.code) ∧
        includes msg (join args " ") ∧
        (∀ a ∈ args, includes msg a) ∧
        includes msg (if result.stdout = "" then "(empty)" else result.stdout) ∧
        includes msg (if result.stderr = "" then "(empty)" else result.stderr)) := by
  constructor
  · intro callMain heap uuid1 uuid2 schemaInput jsonInput r r1 r2 args result hprep hrun hcode
    obtain ⟨hout, herr⟩ := runCommand_trimmed callMain args r1 r2 result hrun
    refine ⟨failureMessage result args, ?_, (failureMessage_includes result args hout herr).2⟩
    simp [generateBinary, hprep, hrun, harvestBinary, hcode]
  · intro callMain utf8Decode heap schemaInput binaryInput opts r r1 r2 args result hprep hrun
      hcode
    obtain ⟨hout, herr⟩ := runCommand_trimmed callMain args r1 r2 result hrun
    refine ⟨failureMessage result args, ?_, (failureMessage_includes result args hout herr).2⟩
    simp [generateJSON, hprep, hrun, harvestJSON, hcode]

/-! ## The outcome of encoding -/

theorem find_endsWith_ne_empty (files : List String) (file : String)
    (h : files.find? (fun f => endsWith f ".mon") = some file) : file ≠ "" := by
  intro he
  have := List.find?_some h
  rw [he] at this
  revert this
  decide

/-- The three ways `generateBinary` ends once the engine gave an exit code, with the
`.mon` entry given by `find`. -/
theorem generateBinary_outcome_find (callMain : Engine σ E) (heap : Heap) (uuid1 uuid2 : String)
    (schemaInput : SchemaInput) (jsonInput : FileData) (r r1 r2 : FlatcRunner σ)
    (args : List String) (result : CommandResult)
    (hprep : prepareBinary E heap uuid1 uuid2 schemaInput jsonInput r = (.ok args, r1))
    (hrun : runCommand callMain args r1 = (.ok result, r2)) :
    (∀ b, (generateBinary callMain heap uuid1 uuid2 schemaInput jsonInput r).1 = .ok b ↔
      result.code = 0 ∧ ∃ files file,
        FS.readdir r2.FS ("/" ++ uuid1) = .ok files ∧
        files.find? (fun f => endsWith f ".mon") = some file ∧
        FS.readFile r2.FS ("/" ++ uuid1 ++ "/" ++ file) = .ok b) ∧
    (result.code ≠ 0 →
      ∃ msg, (generateBinary callMain heap uuid1 uuid2 schemaInput jsonInput r).1 =
          .error (.error msg) ∧
        "flatc failed with exit code".data <+: msg.data) ∧
    (result.code = 0 →
      ∀ files, FS.readdir r2.FS ("/" ++ uuid1) = .ok files →
        (∀ f ∈ files, endsWith f ".mon" = false) →
        ∃ msg, (generateBinary callMain heap uuid1 uuid2 schemaInput jsonInput r).1 =
            .error (.error msg) ∧
          "flatc succeeded but no .mon output was found".data <+: msg.data ∧
          ¬ "flatc failed with exit code".data <+: msg.data) := by
  have hgen : generateBinary callMain heap uuid1 uuid2 schemaInput jsonInput r =
      harvestBinary ("/" ++ uuid1) ("/input-" ++ uuid2 ++ ".json") args result r2 := by
    simp [generateBinary, hprep, hrun]
  rw [hgen]
  refine ⟨?_, ?_, ?_⟩
  · intro b
    unfold harvestBinary
    by_cases hc : result.code = 0
    · simp only [hc, ne_eq, not_true_eq_false, if_false, true_and]
      cases hrd : FS.readdir r2.FS ("/" ++ uuid1) with
      | error e => simp
      | ok files =>
        simp only [Except.ok.injEq, exists_eq_left']
        cases hf : files.find? (fun f => endsWith f ".mon") with
        | none => simp [hf]
        | some file =>
          have hne := find_endsWith_ne_empty files file hf
          simp only [hne, if_false, Option.some.injEq, exists_eq_left']
          cases hread : FS.readFile r2.FS ("/" ++ uuid1 ++ "/" ++ file) with
          | error e => simp [hf, hread]
          | ok output => simp [hf, hread]
    · simp [hc]
  · intro hc
    refine ⟨failureMessage result args, by simp [harvestBinary, hc], ?_⟩
    unfold failureMessage
    refine List.IsPrefix.trans ?_ (join_startsWith _ _ _)
    rw [String.data_append]
    exact ⟨' ' :: (toString result.code).data, rfl⟩
  · intro hc files hrd hnone
    have hf : files.find? (fun f => endsWith f ".mon") = none := by
      rw [List.find?_eq_none]
      intro f hfm
      simp [hnone f hfm]
    refine ⟨missingOutputMessage ("/" ++ uuid1) files result args,
      by simp [harvestBinary, hc, hrd, hf], ?_, ?_⟩
    · unfold missingOutputMessage
      refine List.IsPrefix.trans ?_ (join_startsWith _ _ _)
      exact ⟨['.'], by decide⟩
    · intro hp
      have h1 : "flatc succeeded but no .mon output was found.".data <+:
          (missingOutputMessage ("/" ++ uuid1) files result args).data := by
        unfold missingOutputMessage
        exact join_startsWith _ _ _
      obtain ⟨t1, ht1⟩ := hp
      obtain ⟨t2, ht2⟩ := h1
      have := congrArg (List.take 7) (ht1.trans ht2.symm)
      simp at this

/-! ## Paths -/

theorem splitChars_ne_nil (sep : Char) (l : List Char) : splitChars sep l ≠ [] := by
  cases l with
  | nil => simp [splitChars]
  | cons c cs =>
    simp only [splitChars]
    split
    · simp
    · split <;> simp

theorem splitChars_of_not_mem (sep : Char) (l : List Char) (h : sep ∉ l) :
    splitChars sep l = [l] := by
  induction l with
  | nil => rfl
  | cons c cs ih =>
    simp only [List.mem_cons, not_or] at h
    simp only [splitChars, if_neg (Ne.symm h.1), ih h.2]

theorem splitChars_append_sep (sep : Char) (a b : List Char) :
    splitChars sep (a ++ sep :: b) = splitChars sep a ++ splitChars sep b := by
  induction a with
  | nil => simp [splitChars]
  | cons c cs ih =>
    simp only [List.cons_append, splitChars]
    by_cases hc : c = sep
    · simp [hc, ih]
    · simp only [if_neg hc]
      cases h : splitChars sep cs with
      | nil => exact absurd h (splitChars_ne_nil sep cs)
      | cons w ws =>
        have ih' : splitChars sep (cs.append (sep :: b)) = splitChars sep cs ++ splitChars sep b := ih
        rw [ih', h]
        rfl

theorem normalizeParts_append_proper (stack xs : List String) (n : String)
    (h1 : n ≠ ".") (h2 : n ≠ "..") :
    normalizeParts stack (xs ++ [n]) = normalizeParts stack xs ++ [n] := by
  induction xs generalizing stack with
  | nil => simp [normalizeParts, h1, h2]
  | cons x xs ih =>
    simp only [List.cons_append, normalizeParts]
    split
    · exact ih _
    · split
      · exact ih _
      · exact ih _

/-- Resolving `d/n` for a proper name `n`: the names of `d`, then `n`. -/
theorem resolve_child (d n : String) (hn : ProperName n) :
    resolve (d ++ "/" ++ n) =
      some (normalizeParts [] ((split d '/').filter (fun part => part ≠ "")) ++ [n]) := by
  obtain ⟨h0, h1, h2, h3⟩ := hn
  have hne : d ++ "/" ++ n ≠ "" := by
    intro h
    have := congrArg String.data h
    simp [String.data_append] at this
  have hsplit : split (d ++ "/" ++ n) '/' = split d '/' ++ [n] := by
    unfold split
    have : (d ++ "/" ++ n).data = d.data ++ '/' :: n.data := by
      simp [String.data_append]
    rw [this, splitChars_append_sep, splitChars_of_not_mem _ _ h3]
    simp
  unfold resolve
  rw [if_neg hne, hsplit, List.filter_append]
  have : List.filter (fun part => decide (part ≠ "")) [n] = [n] := by simp [h0]
  rw [this, normalizeParts_append_proper _ _ _ h1 h2]

theorem resolve_root_child (n : String) (hn : ProperName n) :
    resolve ("/" ++ n) = some [n] := by
  have := resolve_child "" n hn
  simpa [split, splitChars, normalizeParts] using this

theorem resolve_root_grandchild (a n : String) (ha : ProperName a) (hn : ProperName n) :
    resolve ("/" ++ a ++ "/" ++ n) = some [a, n] := by
  rw [resolve_child _ n hn]
  have h := resolve_root_child a ha
  unfold resolve at h
  have hne : "/" ++ a ≠ "" := by
    intro h'
    have := congrArg String.data h'
    simp [String.data_append] at this
  rw [if_neg hne] at h
  simp only [Option.some.injEq] at h
  rw [h]
  rfl

theorem properName_input (u : String) (hu : '/' ∉ u.data) :
    ProperName ("input-" ++ u ++ ".json") := by
  refine ⟨?_, ?_, ?_, ?_⟩
  · intro h
    have := congrArg String.data h
    simp [String.data_append] at this
  · intro h
    have := congrArg (fun s => s.data.head?) h
    simp [String.data_append] at this
  · intro h
    have := congrArg (fun s => s.data.head?) h
    simp [String.data_append] at this
  · simp only [String.data_append, List.mem_append, not_or]
    exact ⟨⟨by decide, hu⟩, by decide⟩

theorem resolve_input (u : String) (hu : '/' ∉ u.data) :
    resolve ("/input-" ++ u ++ ".json") = some ["input-" ++ u ++ ".json"] := by
  have h : "/input-" ++ u ++ ".json" = "/" ++ ("input-" ++ u ++ ".json") := by
    apply String.ext
    simp [String.data_append]
  rw [h]
  exact resolve_root_child _ (properName_input u hu)

/-! ## Filesystem states -/

theorem lookup_mem {α β : Type} [BEq α] [LawfulBEq α] {l : List (α × β)} {k : α} {v : β}
    (h : l.lookup k = some v) : (k, v) ∈ l := by
  induction l with
  | nil => simp at h
  | cons e es ih =>
    obtain ⟨a, b⟩ := e
    rw [List.lookup_cons] at h
    by_cases hk : k = a
    · subst hk
      simp at h
      subst h
      exact List.mem_cons_self _ _
    · have : (k == a) = false := by simpa using hk
      rw [this] at h
      exact List.mem_cons_of_mem _ (ih h)

theorem lookup_filter_keep (l : MemFS) (f : Path × Node → Bool) (k : Path)
    (h : ∀ v, f (k, v) = true) : (l.filter f).lookup k = l.lookup k := by
  induction l with
  | nil => rfl
  | cons e es ih =>
    obtain ⟨a, b⟩ := e
    by_cases hk : k = a
    · subst hk
      simp [List.filter_cons, h b]
    · have hka : (k == a) = false := by simpa using hk
      by_cases hf : f (a, b) = true
      · simp [List.filter_cons, hf, List.lookup_cons, hka, ih]
      · simp [List.filter_cons, hf, List.lookup_cons, hka, ih]

theorem lookup_filter_drop (l : MemFS) (f : Path × Node → Bool) (k : Path)
    (h : ∀ v, f (k, v) = false) : (l.filter f).lookup k = none := by
  rw [List.lookup_eq_none_iff]
  intro e he
  obtain ⟨a, b⟩ := e
  have hf := (List.mem_filter.1 he).2
  simp only [bne_iff_ne, ne_eq]
  intro hk
  subst hk
  rw [h b] at hf
  cases hf

theorem node_filter_keep (fs : MemFS) (f : Path × Node → Bool) (q : Path)
    (h : ∀ v, f (q, v) = true) : MemFS.node (fs.filter f) q = MemFS.node fs q := by
  unfold MemFS.node
  split
  · rfl
  · exact lookup_filter_keep fs f q h

theorem node_filter_drop (fs : MemFS) (f : Path × Node → Bool) (q : Path) (hq : q ≠ [])
    (h : ∀ v, f (q, v) = false) : MemFS.node (fs.filter f) q = none := by
  unfold MemFS.node
  rw [if_neg hq]
  exact lookup_filter_drop fs f q h

theorem node_mem {fs : MemFS} {q : Path} {v : Node} (hq : q ≠ [])
    (h : MemFS.node fs q = some v) : (q, v) ∈ fs := by
  unfold MemFS.node at h
  rw [if_neg hq] at h
  exact lookup_mem h

theorem filter_ne_of_node_none (fs : MemFS) (p : Path) (hp : p ≠ [])
    (h : MemFS.node fs p = none) : fs.filter (fun e => e.1 ≠ p) = fs := by
  unfold MemFS.node at h
  rw [if_neg hp, List.lookup_eq_none_iff] at h
  rw [List.filter_eq_self]
  intro e he
  have := h e he
  simp only [bne_iff_ne, ne_eq] at this
  simpa using fun h => this h.symm

/-- A swallowed `unlink` of anything but a directory leaves no node at the path. -/
theorem swallow_unlink (fs : MemFS) (path : String) (p : Path) (hres : resolve path = some p)
    (hp : p ≠ []) (hnd : MemFS.node fs p ≠ some Node.dir) :
    swallow (fun fs => FS.unlink fs path) fs = fs.filter (fun e => e.1 ≠ p) := by
  simp only [swallow, FS.unlink, hres]
  cases hn : MemFS.node fs p with
  | none => exact (filter_ne_of_node_none fs p hp hn).symm
  | some n =>
    cases n with
    | dir => exact absurd hn hnd
    | file d => rfl

/-- A swallowed `rmdir` of an empty directory removes it. -/
theorem swallow_rmdir (fs : MemFS) (path : String) (p : Path) (hres : resolve path = some p)
    (hp : p ≠ []) (hd : MemFS.node fs p = some Node.dir) (hempty : MemFS.names fs p = []) :
    swallow (fun fs => FS.rmdir fs path) fs = fs.filter (fun e => e.1 ≠ p) := by
  have hu : FS.rmdir fs path = .ok (fs.filter (fun e => e.1 ≠ p)) := by
    simp only [FS.rmdir, hres, if_neg hp, hd, hempty, if_true]
  simp only [swallow, hu]

theorem mem_names {fs : MemFS} {p : Path} {n : String} :
    n ∈ MemFS.names fs p ↔ ∃ v, (p ++ [n], v) ∈ fs := by
  unfold MemFS.names
  simp only [List.mem_filterMap]
  constructor
  · rintro ⟨⟨q, v⟩, hmem, hq⟩
    simp only at hq
    split at hq
    · rename_i hc
      obtain ⟨hne, hdl⟩ := hc
      have hl : q.getLast? = some n := hq
      have := List.dropLast_append_getLast? n hl
      rw [hdl] at this
      exact ⟨v, by rw [this]; exact hmem⟩
    · cases hq
  · rintro ⟨v, hmem⟩
    refine ⟨(p ++ [n], v), hmem, ?_⟩
    simp

/-! ## Cleanup after encoding -/

theorem OnlyFilesIn.cases {u : String} {fs : MemFS} (h : OnlyFilesIn u fs)
    {e : Path × Node} (he : e ∈ fs) (hhead : e.1.head? = some u) :
    e.1 = [u] ∨ ∃ n d, ProperName n ∧ e = ([u, n], Node.file d) := by
  rcases h e he hhead with h1 | ⟨h2, h3, h4⟩
  · exact Or.inl h1
  · right
    obtain ⟨p, v⟩ := e
    simp only at h2 h3 h4 hhead
    match p, h2, h3, hhead with
    | [a, n], _, h3, hhead =>
      simp only [List.head?_cons, Option.some.injEq] at hhead
      subst hhead
      cases v with
      | dir => simp [FS.isDir] at h4
      | file d => exact ⟨n, d, h3 n (by simp), rfl⟩

theorem OnlyFilesIn.filter {u : String} {fs : MemFS} (h : OnlyFilesIn u fs)
    (f : Path × Node → Bool) : OnlyFilesIn u (fs.filter f) :=
  fun e he => h e (List.mem_filter.1 he).1

theorem OnlyFilesIn.node_child {u n : String} {fs : MemFS} (h : OnlyFilesIn u fs) :
    MemFS.node fs [u, n] ≠ some Node.dir := by
  intro hn
  have hm := node_mem (by simp) hn
  rcases h.cases hm (by simp) with h1 | ⟨n', d, _, h2⟩
  · simp at h1
  · simp at h2

theorem OnlyFilesIn.names_proper {u n : String} {fs : MemFS} (h : OnlyFilesIn u fs)
    (hn : n ∈ MemFS.names fs [u]) : ProperName n := by
  obtain ⟨v, hv⟩ := mem_names.1 hn
  rcases h.cases hv (by simp) with h1 | ⟨n', d, hp, h2⟩
  · simp at h1
  · simp only [List.singleton_append, Prod.mk.injEq, List.cons.injEq, and_true, true_and] at h2
    rw [h2.1]
    exact hp

/-- The loop of `binaryCleanup` over the names read from the output directory. -/
theorem unlink_loop (u : String) (hu : ProperName u) (names : List String) (cur : MemFS)
    (hnames : ∀ n ∈ names, n ≠ "." → n ≠ ".." → ProperName n)
    (hcur : OnlyFilesIn u cur) :
    names.foldl
      (fun fs f =>
        if f ≠ "." ∧ f ≠ ".." then swallow (fun fs => FS.unlink fs ("/" ++ u ++ "/" ++ f)) fs
        else fs) cur =
    cur.filter (fun e => decide (∀ n ∈ names, n ≠ "." → n ≠ ".." → e.1 ≠ [u, n])) := by
  induction names generalizing cur with
  | nil => simp
  | cons n rest ih =>
    simp only [List.foldl_cons]
    by_cases hdot : n ≠ "." ∧ n ≠ ".."
    · rw [if_pos hdot]
      have hn : ProperName n := hnames n (List.mem_cons_self _ _) hdot.1 hdot.2
      rw [swallow_unlink cur _ [u, n] (resolve_root_grandchild u n hu hn) (by simp)
        hcur.node_child]
      rw [ih _ (fun m hm => hnames m (List.mem_cons_of_mem _ hm)) (hcur.filter _),
        List.filter_filter]
      apply List.filter_congr
      intro e _
      simp only [List.mem_cons, forall_eq_or_imp, Bool.decide_and, Bool.and_eq_true,
        decide_eq_true_eq, Bool.decide_eq_true]
      rw [Bool.eq_iff_iff]
      simp only [Bool.and_eq_true, decide_eq_true_eq]
      constructor
      · rintro ⟨h1, h2⟩
        exact ⟨fun _ _ => h2, h1⟩
      · rintro ⟨h1, h2⟩
        exact ⟨h2, h1 hdot.1 hdot.2⟩
    · rw [if_neg hdot]
      rw [ih _ (fun m hm => hnames m (List.mem_cons_of_mem _ hm)) hcur]
      apply List.filter_congr
      intro e _
      rw [Bool.eq_iff_iff]
      simp only [decide_eq_true_eq, List.mem_cons, forall_eq_or_imp]
      constructor
      · intro h
        refine ⟨fun h1 h2 => absurd ⟨h1, h2⟩ hdot, h⟩
      · intro h
        exact h.2

/-- What `binaryCleanup` leaves: the document and everything at or below the output
directory are gone, every other node is kept in place. -/
theorem binaryCleanup_eq (uuid1 uuid2 : String) (fs : MemFS)
    (hu1 : ProperName uuid1) (hu2 : '/' ∉ uuid2.data)
    (hdoc : MemFS.node fs ["input-" ++ uuid2 ++ ".json"] ≠ some Node.dir)
    (hout : MemFS.node fs [uuid1] = some Node.dir)
    (hfiles : OnlyFilesIn uuid1 fs) :
    binaryCleanup ("/" ++ uuid1) ("/input-" ++ uuid2 ++ ".json") fs =
      fs.filter (fun e =>
        decide (e.1 ≠ ["input-" ++ uuid2 ++ ".json"] ∧ e.1.head? ≠ some uuid1)) := by
  have hne : ["input-" ++ uuid2 ++ ".json"] ≠ [uuid1] := by
    intro h
    rw [h] at hdoc
    exact hdoc hout
  unfold binaryCleanup
  simp only
  rw [swallow_unlink fs _ _ (resolve_input uuid2 hu2) (by simp) hdoc]
  set fs1 := fs.filter (fun e => decide (e.1 ≠ ["input-" ++ uuid2 ++ ".json"])) with hfs1
  have hout1 : MemFS.node fs1 [uuid1] = some Node.dir := by
    rw [hfs1, node_filter_keep _ _ _ (fun v => by simpa using Ne.symm hne)]
    exact hout
  have hfiles1 : OnlyFilesIn uuid1 fs1 := hfiles.filter _
  have hrd : FS.readdir fs1 ("/" ++ uuid1) = .ok ("." :: ".." :: MemFS.names fs1 [uuid1]) := by
    simp only [FS.readdir, resolve_root_child uuid1 hu1, hout1]
  rw [hrd]
  simp only
  rw [unlink_loop uuid1 hu1 _ fs1 ?_ hfiles1]
  swap
  · intro n hn h1 h2
    simp only [List.mem_cons] at hn
    rcases hn with hn | hn | hn
    · exact absurd hn h1
    · exact absurd hn h2
    · exact hfiles1.names_proper hn
  set fs2 := fs1.filter (fun e => decide (∀ n ∈ "." :: ".." :: MemFS.names fs1 [uuid1],
    n ≠ "." → n ≠ ".." → e.1 ≠ [uuid1, n])) with hfs2
  have hout2 : MemFS.node fs2 [uuid1] = some Node.dir := by
    rw [hfs2, node_filter_keep _ _ _ (fun v => by simp)]
    exact hout1
  have hempty : MemFS.names fs2 [uuid1] = [] := by
    rw [List.eq_nil_iff_forall_not_mem]
    intro n hn
    obtain ⟨v, hv⟩ := mem_names.1 hn
    have hv1 : ([uuid1] ++ [n], v) ∈ fs1 := (List.mem_filter.1 hv).1
    have hp : ProperName n := hfiles1.names_proper (mem_names.2 ⟨v, hv1⟩)
    have hP := (List.mem_filter.1 hv).2
    simp only [decide_eq_true_eq] at hP
    exact hP n (by simp [mem_names.2 ⟨v, hv1⟩]) hp.2.1 hp.2.2.1 rfl
  rw [swallow_rmdir fs2 _ _ (resolve_root_child uuid1 hu1) (by simp) hout2 hempty]
  rw [hfs2, hfs1, List.filter_filter, List.filter_filter]
  apply List.filter_congr
  intro e he
  rw [Bool.eq_iff_iff]
  simp only [Bool.and_eq_true, decide_eq_true_eq]
  constructor
  · rintro ⟨⟨hB, hP⟩, hA⟩
    refine ⟨hA, ?_⟩
    intro hhead
    rcases hfiles.cases he hhead with h1 | ⟨n, d, hp, h2⟩
    · exact hB h1
    · have he1 : e ∈ fs1 := List.mem_filter.2 ⟨he, by simpa using hA⟩
      have hn : n ∈ MemFS.names fs1 [uuid1] := mem_names.2 ⟨Node.file d, by rw [h2] at he1; exact he1⟩
      exact hP n (List.mem_cons_of_mem _ (List.mem_cons_of_mem _ hn)) hp.2.1 hp.2.2.1
        (by rw [h2])
  · rintro ⟨hA, hC⟩
    refine ⟨⟨?_, ?_⟩, hA⟩
    · intro h
      exact hC (by rw [h]; rfl)
    · intro n _ _ _ h
      exact hC (by rw [h]; rfl)

/-! ## Where mounted files come from -/

theorem node_append_file (fs : MemFS) (p q : Path) (n : Node) (b : Bytes)
    (h : MemFS.node (fs ++ [(p, n)]) q = some (Node.file b)) :
    MemFS.node fs q = some (Node.file b) ∨ (q = p ∧ n = Node.file b) := by
  unfold MemFS.node at h ⊢
  by_cases hq : q = []
  · simp [hq] at h
  · rw [if_neg hq] at h
    rw [if_neg hq]
    rw [List.lookup_append] at h
    cases hl : fs.lookup q with
    | some v =>
      rw [hl] at h
      simp only [Option.or_some] at h
      exact Or.inl h
    | none =>
      rw [hl] at h
      simp only [Option.none_or] at h
      right
      have hm := lookup_mem h
      simp only [List.mem_singleton, Prod.mk.injEq] at hm
      exact ⟨hm.1, hm.2.symm⟩

theorem lookup_map_replace (fs : MemFS) (p q : Path) (n : Node) :
    (fs.map (fun e => if e.1 = p then (p, n) else e)).lookup q =
      if q = p then (fs.lookup q).map (fun _ => n) else fs.lookup q := by
  induction fs with
  | nil => simp
  | cons e es ih =>
    obtain ⟨a, v⟩ := e
    simp only [List.map_cons]
    by_cases hap : a = p
    · subst hap
      simp only [if_true]
      by_cases hqa : q = a
      · subst hqa; simp
      · have : (q == a) = false := by simpa using hqa
        simp only [List.lookup_cons, this, ih, if_neg hqa]
    · simp only [if_neg hap]
      by_cases hqa : q = a
      · subst hqa
        simp [if_neg hap]
      · have : (q == a) = false := by simpa using hqa
        simp only [List.lookup_cons, this, ih]

theorem mkdir_file_origin (fs fs' : MemFS) (path : String) (h : FS.mkdir fs path = .ok fs')
    (q : Path) (b : Bytes) (hq : MemFS.node fs' q = some (Node.file b)) :
    MemFS.node fs q = some (Node.file b) := by
  unfold FS.mkdir at h
  split at h
  · cases h
  · split at h
    · cases h
    · split at h
      · cases h
      · cases h
      · split at h
        · cases h
        · simp only [Except.ok.injEq] at h
          subst h
          rcases node_append_file _ _ _ _ _ hq with h1 | ⟨_, h2⟩
          · exact h1
          · cases h2

theorem swallow_mkdir_file_origin (fs : MemFS) (path : String)
    (q : Path) (b : Bytes)
    (hq : MemFS.node (swallow (fun fs => FS.mkdir fs path) fs) q = some (Node.file b)) :
    MemFS.node fs q = some (Node.file b) := by
  unfold swallow at hq
  simp only at hq
  cases h : FS.mkdir fs path with
  | error e => rw [h] at hq; exact hq
  | ok fs1 => rw [h] at hq; exact mkdir_file_origin fs fs1 path h q b hq

theorem mkdirParts_file_origin (parts : List String) (cur : String) (fs : MemFS)
    (q : Path) (b : Bytes)
    (hq : MemFS.node (mkdirParts parts cur fs) q = some (Node.file b)) :
    MemFS.node fs q = some (Node.file b) := by
  induction parts generalizing cur fs with
  | nil => exact hq
  | cons part rest ih =>
    simp only [mkdirParts] at hq
    exact swallow_mkdir_file_origin _ _ q b (ih _ _ hq)

theorem mkdirTreeLoop_file_origin (parts : List String) (d : String) (fs fs' : MemFS)
    (h : FS.mkdirTreeLoop parts d fs = .ok fs')
    (q : Path) (b : Bytes) (hq : MemFS.node fs' q = some (Node.file b)) :
    MemFS.node fs q = some (Node.file b) := by
  induction parts generalizing d fs with
  | nil =>
    simp only [FS.mkdirTreeLoop, Except.ok.injEq] at h
    subst h; exact hq
  | cons part rest ih =>
    simp only [FS.mkdirTreeLoop] at h
    split at h
    · exact ih _ _ h
    · split at h
      · rename_i fs1 hmk
        exact mkdir_file_origin _ _ _ hmk q b (ih _ _ h)
      · split at h
        · exact ih _ _ h
        · cases h

theorem writeFile_file_origin (fs fs' : MemFS) (path : String) (data : Bytes)
    (h : FS.writeFile fs path data = .ok fs')
    (q : Path) (b : Bytes) (hq : MemFS.node fs' q = some (Node.file b)) :
    MemFS.node fs q = some (Node.file b) ∨ resolve path = some q := by
  unfold FS.writeFile at h
  split at h
  · cases h
  · rename_i p hres
    split at h
    · cases h
    · simp only [Except.ok.injEq] at h
      subst h
      by_cases hqp : q = p
      · right; rw [hres, hqp]
      · left
        unfold MemFS.node at hq ⊢
        split
        · rename_i h0; simp [h0] at hq
        · rename_i h0
          rw [if_neg h0, lookup_map_replace, if_neg hqp] at hq
          exact hq
    · split at h
      · cases h
      · cases h
      · simp only [Except.ok.injEq] at h
        subst h
        rcases node_append_file _ _ _ _ _ hq with h1 | ⟨h2, _⟩
        · exact Or.inl h1
        · right; rw [hres, h2]

theorem mountFile_file_origin (path : String) (data : MountData) (fs fs' : MemFS)
    (h : mountFile path data fs = .ok fs')
    (q : Path) (b : Bytes) (hq : MemFS.node fs' q = some (Node.file b)) :
    MemFS.node fs q = some (Node.file b) ∨ resolve path = some q := by
  unfold mountFile at h
  simp only at h
  split at h
  · rename_i fs2 hw
    simp only [Except.ok.injEq] at h
    subst h
    rcases writeFile_file_origin _ _ _ _ hw q b hq with h1 | h1
    · exact Or.inl (mkdirParts_file_origin _ _ _ q b h1)
    · exact Or.inr h1
  · cases h

theorem mountFiles_file_origin (files : List (String × MountData)) (fs fs' : MemFS)
    (h : mountFiles files fs = .ok fs')
    (q : Path) (b : Bytes) (hq : MemFS.node fs' q = some (Node.file b)) :
    MemFS.node fs q = some (Node.file b) ∨ ∃ f ∈ files, resolve f.1 = some q := by
  induction files generalizing fs with
  | nil =>
    simp only [mountFiles, Except.ok.injEq] at h
    subst h; exact Or.inl hq
  | cons f rest ih =>
    simp only [mountFiles] at h
    split at h
    · rename_i fs1 hm
      rcases ih _ h with h1 | ⟨g, hg, hres⟩
      · rcases mountFile_file_origin _ _ _ _ hm q b h1 with h2 | h2
        · exact Or.inl h2
        · exact Or.inr ⟨f, List.mem_cons_self _ _, h2⟩
      · exact Or.inr ⟨g, List.mem_cons_of_mem _ hg, hres⟩
    · cases h

/-! ## Listing only reports regular files -/

theorem stat_file {fs : MemFS} {p : String} {n : Node} (h : FS.stat fs p = .ok n)
    (hd : FS.isDir n = false) : ∃ q b, resolve p = some q ∧ MemFS.node fs q = some (Node.file b) := by
  unfold FS.stat at h
  split at h
  · cases h
  · rename_i q hres
    split at h
    · cases h
    · rename_i v hv
      simp only [Except.ok.injEq] at h
      subst h
      cases v with
      | dir => simp [FS.isDir] at hd
      | file b => exact ⟨q, b, hres, hv⟩

theorem traverseLoop_sound (fs : MemFS) (result : List String)
    (visit : String → List String → Option (Except Errno (List String)))
    (hvisit : ∀ name res l, visit name res = some (.ok l) →
      ∀ x ∈ l, x ∈ res ∨ ∃ q b, resolve x = some q ∧ MemFS.node fs q = some (Node.file b))
    (names : List String) (acc l : List String)
    (hacc : ∀ x ∈ acc, x ∈ result ∨
      ∃ q b, resolve x = some q ∧ MemFS.node fs q = some (Node.file b))
    (h : traverseLoop visit names acc = some (.ok l)) :
    ∀ x ∈ l, x ∈ result ∨ ∃ q b, resolve x = some q ∧ MemFS.node fs q = some (Node.file b) := by
  induction names generalizing acc with
  | nil =>
    simp only [traverseLoop, Option.some.injEq, Except.ok.injEq] at h
    subst h; exact hacc
  | cons n rest ih =>
    simp only [traverseLoop] at h
    split at h
    · rename_i res hn
      apply ih res _ h
      intro x hx
      rcases hvisit n acc res hn x hx with h1 | h1
      · exact hacc x h1
      · exact Or.inr h1
    · rename_i other hother
      rw [h] at hother
      exact absurd rfl (hother l)

/-- Every path `traverse` adds to `result` names a regular file. -/
theorem traverse_sound (fs : MemFS) (fuel : Nat) (p : String) (result l : List String)
    (h : traverse fs fuel p result = some (.ok l)) :
    ∀ x ∈ l, x ∈ result ∨ ∃ q b, resolve x = some q ∧ MemFS.node fs q = some (Node.file b) := by
  induction fuel generalizing p result l with
  | zero => simp [traverse] at h
  | succ fuel ih =>
    simp only [traverse] at h
    split at h
    · simp at h
    · rename_i st hst
      split at h
      · split at h
        · simp at h
        · rename_i names hrd
          exact traverseLoop_sound fs result
            (fun name res =>
              traverse fs fuel (if p = "/" then "/" ++ name else p ++ "/" ++ name) res)
            (fun name res l' hl' => ih _ res l' hl') _ result l (fun x hx => Or.inl hx) h
      · rename_i hdir
        simp only [Option.some.injEq, Except.ok.injEq] at h
        subst h
        intro x hx
        simp only [List.mem_append, List.mem_singleton] at hx
        rcases hx with hx | hx
        · exact Or.inl hx
        · subst hx
          exact Or.inr (stat_file hst (by simpa using hdir))

theorem listAllFiles_sound (fs : MemFS) (path : String) (l : List String)
    (h : listAllFiles fs path = some (.ok l)) :
    ∀ x ∈ l, ∃ q b, resolve x = some q ∧ MemFS.node fs q = some (Node.file b) := by
  intro x hx
  rcases traverse_sound fs _ path [] l h x hx with h1 | h1
  · cases h1
  · exact h1

/-! ## The steps of encoding -/

theorem node_isSome_of_mem {fs : MemFS} {q : Path} {v : Node} (hq : q ≠ [])
    (h : (q, v) ∈ fs) : ∃ v', MemFS.node fs q = some v' := by
  unfold MemFS.node
  rw [if_neg hq]
  cases hl : fs.lookup q with
  | some v' => exact ⟨v', rfl⟩
  | none =>
    rw [List.lookup_eq_none_iff] at hl
    have := hl (q, v) h
    simp at this

theorem ensureSchema_ok (heap : Heap) (schemaInput : SchemaInput) (r r' : FlatcRunner σ)
    (h : ensureSchema E heap schemaInput r = (.ok (), r')) :
    (schemaUnchanged r._cachedSchema schemaInput = true ∧ r' = r) ∨
    (schemaUnchanged r._cachedSchema schemaInput = false ∧
      ∃ fs, mountFiles (schemaMountList heap schemaInput) r.FS = .ok fs ∧
        r' = { r with
          FS := fs,
          _cachedSchema := some schemaInput,
          _cachedIncludeDirs := some (getIncludeDirsFromSchemaInput schemaInput) }) := by
  unfold ensureSchema at h
  split at h
  · rename_i hu
    left
    simp only [Prod.mk.injEq, true_and] at h
    exact ⟨hu, h.symm⟩
  · rename_i hu
    right
    refine ⟨by simpa using hu, ?_⟩
    split at h
    · simp at h
    · rename_i fs hm
      simp only [Prod.mk.injEq, true_and] at h
      exact ⟨fs, hm, h.symm⟩

theorem prepareBinary_ok (heap : Heap) (uuid1 uuid2 : String) (schemaInput : SchemaInput)
    (jsonInput : FileData) (r r1 : FlatcRunner σ) (args : List String)
    (h : prepareBinary E heap uuid1 uuid2 schemaInput jsonInput r = (.ok args, r1)) :
    ∃ fs0 r' fs2 includeDirs,
      FS.mkdirTree r.FS ("/" ++ uuid1) = .ok fs0 ∧
      ensureSchema E heap schemaInput { r with FS := fs0 } = (.ok (), r') ∧
      mountFiles [("/input-" ++ uuid2 ++ ".json", MountData.bytes (jsonInput.content heap))]
        r'.FS = .ok fs2 ∧
      r'._cachedIncludeDirs = some includeDirs ∧
      args = binaryArgs ("/" ++ uuid1) includeDirs schemaInput.entry
        ("/input-" ++ uuid2 ++ ".json") ∧
      r1 = { r' with FS := fs2 } := by
  unfold prepareBinary at h
  simp only at h
  split at h
  · simp at h
  · rename_i fs0 hmk
    split at h
    · simp at h
    · rename_i r' hens
      split at h
      · simp at h
      · rename_i fs2 hm
        split at h
        · simp at h
        · rename_i dirs hd
          simp only [Prod.mk.injEq, Except.ok.injEq] at h
          exact ⟨fs0, r', fs2, dirs, hmk, hens, hm, hd, h.1.symm, h.2.symm⟩

theorem mem_schemaMountList (heap : Heap) (schemaInput : SchemaInput) (f : String × MountData)
    (h : f ∈ schemaMountList heap schemaInput) : f.1 ∈ Object.keys schemaInput.files := by
  unfold schemaMountList at h
  simp only [List.mem_map] at h
  obtain ⟨e, he, hf⟩ := h
  subst hf
  exact List.mem_map.2 ⟨e, he, rfl⟩

/-- A regular file present when the engine is started was there before the call, or is
a schema file, or is the mounted document. -/
theorem prepareBinary_file_origin (heap : Heap) (uuid1 uuid2 : String)
    (schemaInput : SchemaInput) (jsonInput : FileData) (r r1 : FlatcRunner σ)
    (args : List String)
    (h : prepareBinary E heap uuid1 uuid2 schemaInput jsonInput r = (.ok args, r1))
    (q : Path) (b : Bytes) (hq : MemFS.node r1.FS q = some (Node.file b)) :
    MemFS.node r.FS q = some (Node.file b) ∨
      (∃ k ∈ Object.keys schemaInput.files, resolve k = some q) ∨
      resolve ("/input-" ++ uuid2 ++ ".json") = some q := by
  obtain ⟨fs0, r', fs2, dirs, hmk, hens, hm, _, _, hr1⟩ :=
    prepareBinary_ok heap uuid1 uuid2 schemaInput jsonInput r r1 args h
  subst hr1
  simp only at hq
  rcases mountFiles_file_origin _ _ _ hm q b hq with h1 | ⟨f, hf, hres⟩
  · have h0 : MemFS.node fs0 q = some (Node.file b) ∨
        ∃ k ∈ Object.keys schemaInput.files, resolve k = some q := by
      rcases ensureSchema_ok heap schemaInput _ r' hens with ⟨_, hr'⟩ | ⟨_, fs, hmf, hr'⟩
      · subst hr'; exact Or.inl h1
      · subst hr'
        simp only at h1
        rcases mountFiles_file_origin _ _ _ hmf q b h1 with h2 | ⟨f, hf, hres⟩
        · exact Or.inl h2
        · exact Or.inr ⟨f.1, mem_schemaMountList heap schemaInput f hf, hres⟩
    rcases h0 with h0 | h0
    · exact Or.inl (mkdirTreeLoop_file_origin _ _ _ _ hmk q b h0)
    · exact Or.inr (Or.inl h0)
  · simp only [List.mem_singleton] at hf
    subst hf
    exact Or.inr (Or.inr hres)

/-- With only regular files in the output directory, `harvestBinary` ends with bytes or
with one of its two errors, and in each case after `cleanup` ran. -/
theorem harvestBinary_cleans (E : Type) (uuid1 uuid2 : String) (args : List String)
    (result : CommandResult) (r2 : FlatcRunner σ)
    (hu1 : ProperName uuid1)
    (hout : MemFS.node r2.FS [uuid1] = some Node.dir)
    (hfiles : OnlyFilesIn uuid1 r2.FS) :
    ((∃ b, (harvestBinary ("/" ++ uuid1) ("/input-" ++ uuid2 ++ ".json") args result r2 :
        Except (JSError E) Bytes × FlatcRunner σ).1 = .ok b) ∨
      (∃ msg, (harvestBinary ("/" ++ uuid1) ("/input-" ++ uuid2 ++ ".json") args result r2 :
        Except (JSError E) Bytes × FlatcRunner σ).1 = .error (.error msg))) ∧
    (harvestBinary ("/" ++ uuid1) ("/input-" ++ uuid2 ++ ".json") args result r2 :
        Except (JSError E) Bytes × FlatcRunner σ).2.FS =
      binaryCleanup ("/" ++ uuid1) ("/input-" ++ uuid2 ++ ".json") r2.FS := by
  unfold harvestBinary
  by_cases hc : result.code ≠ 0
  · rw [if_pos hc]
    exact ⟨Or.inr ⟨_, rfl⟩, rfl⟩
  · rw [if_neg hc]
    have hrd : FS.readdir r2.FS ("/" ++ uuid1) =
        .ok ("." :: ".." :: MemFS.names r2.FS [uuid1]) := by
      simp only [FS.readdir, resolve_root_child uuid1 hu1, hout]
    rw [hrd]
    simp only
    cases hf : List.find? (fun f => endsWith f ".mon") ("." :: ".." :: MemFS.names r2.FS [uuid1]) with
    | none => exact ⟨Or.inr ⟨_, rfl⟩, rfl⟩
    | some file =>
      simp only
      by_cases hfe : file = ""
      · rw [if_pos hfe]
        exact ⟨Or.inr ⟨_, rfl⟩, rfl⟩
      · rw [if_neg hfe]
        have hmem := List.mem_of_find?_eq_some hf
        have hends := List.find?_some hf
        simp only [List.mem_cons] at hmem
        have hn : file ∈ MemFS.names r2.FS [uuid1] := by
          rcases hmem with h | h | h
          · subst h; exact absurd hends (by decide)
          · subst h; exact absurd hends (by decide)
          · exact h
        have hp : ProperName file := hfiles.names_proper hn
        obtain ⟨v, hv⟩ := mem_names.1 hn
        obtain ⟨v', hv'⟩ := node_isSome_of_mem (by simp) hv
        have hv'' : MemFS.node r2.FS [uuid1, file] = some v' := hv'
        have hfile : ∃ d, v' = Node.file d := by
          rcases hfiles.cases (node_mem (by simp) hv'') (by simp) with h1 | ⟨n, d, _, h2⟩
          · simp at h1
          · simp only [Prod.mk.injEq] at h2
            exact ⟨d, h2.2⟩
        obtain ⟨d, hd⟩ := hfile
        subst hd
        have hread : FS.readFile r2.FS ("/" ++ uuid1 ++ "/" ++ file) = .ok d := by
          simp only [FS.readFile, resolve_root_grandchild uuid1 file hu1 hp, hv'']
        rw [hread]
        exact ⟨Or.inl ⟨_, rfl⟩, rfl⟩

/-! ## Listing terminates -/

theorem foldl_max_ge (fs : MemFS) (d : Nat) :
    d ≤ fs.foldl (fun d e => max d e.1.length) d := by
  induction fs generalizing d with
  | nil => exact Nat.le_refl _
  | cons e es ih =>
    simp only [List.foldl_cons]
    exact Nat.le_trans (Nat.le_max_left _ _) (ih _)

theorem length_le_depth (fs : MemFS) (q : Path) (v : Node) (h : (q, v) ∈ fs) :
    q.length ≤ MemFS.depth fs := by
  unfold MemFS.depth
  suffices ∀ d, q.length ≤ fs.foldl (fun d e => max d e.1.length) d from this 0
  induction fs with
  | nil => cases h
  | cons e es ih =>
    intro d
    simp only [List.foldl_cons]
    rcases List.mem_cons.1 h with h1 | h1
    · subst h1
      exact Nat.le_trans (Nat.le_max_right _ _) (foldl_max_ge es _)
    · exact ih h1 _

theorem traverseLoop_total
    (visit : String → List String → Option (Except Errno (List String)))
    (names : List String)
    (hvisit : ∀ name ∈ names, ∀ res, ∃ l, visit name res = some (.ok l))
    (acc : List String) : ∃ l, traverseLoop visit names acc = some (.ok l) := by
  induction names generalizing acc with
  | nil => exact ⟨acc, rfl⟩
  | cons n rest ih =>
    obtain ⟨l, hl⟩ := hvisit n (List.mem_cons_self _ _) acc
    simp only [traverseLoop, hl]
    exact ih (fun m hm => hvisit m (List.mem_cons_of_mem _ hm)) l

theorem resolve_slash : resolve "/" = some [] := by decide

theorem resolve_ne_empty {p : String} {q : Path} (h : resolve p = some q) :
    q = normalizeParts [] ((split p '/').filter (fun part => part ≠ "")) := by
  unfold resolve at h
  split at h
  · cases h
  · simp only [Option.some.injEq] at h
    exact h.symm

/-- The path string `traverse` builds for an entry of a directory names that entry. -/
theorem resolve_traverse_child (p name : String) (q : Path) (hres : resolve p = some q)
    (hname : ProperName name) :
    resolve (if p = "/" then "/" ++ name else p ++ "/" ++ name) = some (q ++ [name]) := by
  split
  · rename_i hp
    subst hp
    rw [resolve_slash] at hres
    simp only [Option.some.injEq] at hres
    subst hres
    exact resolve_root_child name hname
  · rw [resolve_child p name hname, resolve_ne_empty hres]

/-- On a filesystem with proper names, `traverse` succeeds from every existing path
when the depth bound covers the levels below it. -/
theorem traverse_total (fs : MemFS) (hfs : MemFS.ProperNames fs) (fuel : Nat) :
    ∀ (p : String) (q : Path) (v : Node) (acc : List String),
      resolve p = some q → MemFS.node fs q = some v →
      MemFS.depth fs + 1 ≤ fuel + q.length → 0 < fuel →
      ∃ l, traverse fs fuel p acc = some (.ok l) := by
  induction fuel with
  | zero => intro p q v acc _ _ _ h; exact absurd h (Nat.lt_irrefl 0)
  | succ fuel ih =>
    intro p q v acc hres hnode hdepth _
    have hstat : FS.stat fs p = .ok v := by
      simp only [FS.stat, hres, hnode]
    simp only [traverse, hstat]
    cases v with
    | file d => exact ⟨acc ++ [p], by simp [FS.isDir]⟩
    | dir =>
      have hrd : FS.readdir fs p = .ok ("." :: ".." :: MemFS.names fs q) := by
        simp only [FS.readdir, hres, hnode]
      simp only [FS.isDir, if_true, hrd]
      apply traverseLoop_total
      intro name hname res
      have hn : name ∈ MemFS.names fs q := by
        have := (List.mem_filter.1 hname).1
        have hdots := (List.mem_filter.1 hname).2
        simp only [List.mem_cons] at this
        rcases this with h | h | h
        · subst h; simp at hdots
        · subst h; simp at hdots
        · exact h
      obtain ⟨v', hv'⟩ := mem_names.1 hn
      have hproper : ProperName name := hfs _ hv' name (by simp)
      have hlen := length_le_depth fs _ _ hv'
      simp only [List.length_append, List.length_singleton] at hlen
      obtain ⟨v'', hv''⟩ := node_isSome_of_mem (by simp) hv'
      exact ih _ (q ++ [name]) v'' res (resolve_traverse_child p name q hres hproper) hv''
        (by simp only [List.length_append, List.length_singleton]; omega) (by omega)

/-- On a filesystem with proper names, `listAllFiles` on an existing path returns a
list. -/
theorem listAllFiles_total (fs : MemFS) (hfs : MemFS.ProperNames fs) (path : String)
    (v : Node) (hstat : FS.stat fs path = .ok v) :
    ∃ l, listAllFiles fs path = some (.ok l) := by
  unfold FS.stat at hstat
  split at hstat
  · cases hstat
  · rename_i q hres
    split at hstat
    · cases hstat
    · rename_i n hn
      exact traverse_total fs hfs _ path q n [] hres hn (by omega) (by omega)

theorem properNames_filter {fs : MemFS} (h : MemFS.ProperNames fs) (f : Path × Node → Bool) :
    MemFS.ProperNames (fs.filter f) :=
  fun e he => h e (List.mem_filter.1 he).1

/-! ## Cleanup after encoding, end to end -/

/-- C7: for an encode call in which the engine ran and gave an exit code, and after
which the output directory `/uuid1` is a directory holding nothing but regular files
and the document path is not a directory: the call ends with bytes or with one of the
two errors of `generateBinary` (never with a failure of its own cleanup); afterwards
neither the document path nor the output directory exists and no node lies below the
output directory; every other node is as the engine left it; and if the engine changed
nothing outside the output directory and left only proper names, `listAllFiles` on the
root returns a list, and every path in it is a regular file that was there before the
call or is a schema file. -/
theorem generateBinary_cleanup (callMain : Engine σ E) (heap : Heap) (uuid1 uuid2 : String)
    (schemaInput : SchemaInput) (jsonInput : FileData) (r r1 r2 : FlatcRunner σ)
    (args : List String) (result : CommandResult)
    (hprep : prepareBinary E heap uuid1 uuid2 schemaInput jsonInput r = (.ok args, r1))
    (hrun : runCommand callMain args r1 = (.ok result, r2))
    (hu1 : ProperName uuid1) (hu2 : '/' ∉ uuid2.data)
    (hdoc : MemFS.node r2.FS ["input-" ++ uuid2 ++ ".json"] ≠ some Node.dir)
    (hout : MemFS.node r2.FS [uuid1] = some Node.dir)
    (hfiles : OnlyFilesIn uuid1 r2.FS) :
    ((∃ b, (generateBinary callMain heap uuid1 uuid2 schemaInput jsonInput r).1 = .ok b) ∨
      (∃ msg, (generateBinary callMain heap uuid1 uuid2 schemaInput jsonInput r).1 =
        .error (.error msg))) ∧
    FS.stat (generateBinary callMain heap uuid1 uuid2 schemaInput jsonInput r).2.FS
      ("/input-" ++ uuid2 ++ ".json") = .error .ENOENT ∧
    FS.stat (generateBinary callMain heap uuid1 uuid2 schemaInput jsonInput r).2.FS
      ("/" ++ uuid1) = .error .ENOENT ∧
    (∀ e ∈ (generateBinary callMain heap uuid1 uuid2 schemaInput jsonInput r).2.FS,
      e.1.head? ≠ some uuid1) ∧
    (∀ q, q ≠ ["input-" ++ uuid2 ++ ".json"] → q.head? ≠ some uuid1 →
      MemFS.node (generateBinary callMain heap uuid1 uuid2 schemaInput jsonInput r).2.FS q =
        MemFS.node r2.FS q) ∧
    ((∀ q, q.head? ≠ some uuid1 → MemFS.node r2.FS q = MemFS.node r1.FS q) →
      MemFS.ProperNames r2.FS →
      ∃ l, listAllFiles (generateBinary callMain heap uuid1 uuid2 schemaInput jsonInput r).2.FS
          "/" = some (.ok l) ∧
        ∀ x ∈ l, ∃ q b, resolve x = some q ∧
          q ≠ ["input-" ++ uuid2 ++ ".json"] ∧ q.head? ≠ some uuid1 ∧
          (MemFS.node r.FS q = some (Node.file b) ∨
            ∃ k ∈ Object.keys schemaInput.files, resolve k = some q)) := by
  have hgen : generateBinary callMain heap uuid1 uuid2 schemaInput jsonInput r =
      harvestBinary ("/" ++ uuid1) ("/input-" ++ uuid2 ++ ".json") args result r2 := by
    simp [generateBinary, hprep, hrun]
  obtain ⟨hshape, hfs⟩ := harvestBinary_cleans E uuid1 uuid2 args result r2 hu1 hout hfiles
  rw [binaryCleanup_eq uuid1 uuid2 r2.FS hu1 hu2 hdoc hout hfiles] at hfs
  rw [hgen, hfs]
  have hdocnone : MemFS.node (r2.FS.filter (fun e =>
      decide (e.1 ≠ ["input-" ++ uuid2 ++ ".json"] ∧ e.1.head? ≠ some uuid1)))
      ["input-" ++ uuid2 ++ ".json"] = none :=
    node_filter_drop _ _ _ (by simp) (fun v => by simp)
  have hunder : ∀ q, q.head? = some uuid1 → MemFS.node (r2.FS.filter (fun e =>
      decide (e.1 ≠ ["input-" ++ uuid2 ++ ".json"] ∧ e.1.head? ≠ some uuid1))) q = none := by
    intro q hq
    exact node_filter_drop _ _ _ (by intro h; rw [h] at hq; cases hq) (fun v => by simp [hq])
  have hkeep : ∀ q, q ≠ ["input-" ++ uuid2 ++ ".json"] → q.head? ≠ some uuid1 →
      MemFS.node (r2.FS.filter (fun e =>
        decide (e.1 ≠ ["input-" ++ uuid2 ++ ".json"] ∧ e.1.head? ≠ some uuid1))) q =
      MemFS.node r2.FS q := by
    intro q h1 h2
    exact node_filter_keep _ _ _ (fun v => by simp [h1, h2])
  refine ⟨hshape, ?_, ?_, ?_, hkeep, ?_⟩
  · simp only [FS.stat, resolve_input uuid2 hu2, hdocnone]
  · simp only [FS.stat, resolve_root_child uuid1 hu1, hunder [uuid1] rfl]
  · intro e he
    have := (List.mem_filter.1 he).2
    simp only [decide_eq_true_eq] at this
    exact this.2
  · intro hframe hnames
    obtain ⟨l, hl⟩ := listAllFiles_total _ (properNames_filter hnames _) "/" Node.dir
      (by simp only [FS.stat, resolve_slash, MemFS.node, if_true])
    refine ⟨l, hl, ?_⟩
    intro x hx
    obtain ⟨q, b, hres, hnode⟩ := listAllFiles_sound _ _ _ hl x hx
    have hq1 : q ≠ ["input-" ++ uuid2 ++ ".json"] := by
      intro h
      rw [h, hdocnone] at hnode
      cases hnode
    have hq2 : q.head? ≠ some uuid1 := by
      intro h
      rw [hunder q h] at hnode
      cases hnode
    refine ⟨q, b, hres, hq1, hq2, ?_⟩
    rw [hkeep q hq1 hq2, hframe q hq2] at hnode
    rcases prepareBinary_file_origin heap uuid1 uuid2 schemaInput jsonInput r r1 args hprep q b
      hnode with h | h | h
    · exact Or.inl h
    · exact Or.inr h
    · rw [resolve_input uuid2 hu2] at h
      simp only [Option.some.injEq] at h
      exact absurd h.symm hq1

/-! ## What mounting leaves readable -/

theorem node_append_of_some (fs : MemFS) (p q : Path) (n v : Node)
    (h : MemFS.node fs q = some v) : MemFS.node (fs ++ [(p, n)]) q = some v := by
  unfold MemFS.node at h ⊢
  split
  · rename_i hq; simpa [hq] using h
  · rename_i hq
    rw [if_neg hq] at h
    rw [List.lookup_append, h]
    rfl

theorem mkdir_preserves (fs fs' : MemFS) (path : String) (h : FS.mkdir fs path = .ok fs')
    (q : Path) (v : Node) (hq : MemFS.node fs q = some v) : MemFS.node fs' q = some v := by
  unfold FS.mkdir at h
  split at h
  · cases h
  · split at h
    · cases h
    · split at h
      · cases h
      · cases h
      · split at h
        · cases h
        · simp only [Except.ok.injEq] at h
          subst h
          exact node_append_of_some _ _ _ _ _ hq

theorem mkdirParts_preserves (parts : List String) (cur : String) (fs : MemFS)
    (q : Path) (v : Node) (hq : MemFS.node fs q = some v) :
    MemFS.node (mkdirParts parts cur fs) q = some v := by
  induction parts generalizing cur fs with
  | nil => exact hq
  | cons part rest ih =>
    simp only [mkdirParts]
    apply ih
    unfold swallow
    simp only
    cases h : FS.mkdir fs (cur ++ "/" ++ part) with
    | error e => exact hq
    | ok fs1 => exact mkdir_preserves _ _ _ h q v hq

theorem writeFile_preserves (fs fs' : MemFS) (path : String) (data : Bytes)
    (h : FS.writeFile fs path data = .ok fs')
    (q : Path) (v : Node) (hne : resolve path ≠ some q) (hq : MemFS.node fs q = some v) :
    MemFS.node fs' q = some v := by
  unfold FS.writeFile at h
  split at h
  · cases h
  · rename_i p hres
    have hqp : q ≠ p := by
      intro h'
      apply hne
      rw [hres, h']
    split at h
    · cases h
    · simp only [Except.ok.injEq] at h
      subst h
      unfold MemFS.node at hq ⊢
      split
      · rename_i h0; simpa [h0] using hq
      · rename_i h0
        rw [if_neg h0] at hq
        rw [lookup_map_replace, if_neg hqp]
        exact hq
    · split at h
      · cases h
      · cases h
      · simp only [Except.ok.injEq] at h
        subst h
        exact node_append_of_some _ _ _ _ _ hq

theorem writeFile_reads (fs fs' : MemFS) (path : String) (data : Bytes)
    (h : FS.writeFile fs path data = .ok fs') : FS.readFile fs' path = .ok data := by
  unfold FS.writeFile at h
  unfold FS.readFile
  split at h
  · cases h
  · rename_i p hres
    split at h
    · cases h
    · rename_i d0 hn
      simp only [Except.ok.injEq] at h
      subst h
      have hp : p ≠ [] := by
        intro h0
        rw [h0] at hn
        simp [MemFS.node] at hn
      have : MemFS.node (fs.map (fun e => if e.1 = p then (p, Node.file data) else e)) p =
          some (Node.file data) := by
        unfold MemFS.node at hn ⊢
        rw [if_neg hp] at hn
        rw [if_neg hp, lookup_map_replace, if_pos rfl, hn]
        rfl
      rw [this]
    · rename_i hn
      split at h
      · cases h
      · cases h
      · simp only [Except.ok.injEq] at h
        subst h
        have hp : p ≠ [] := by
          intro h0
          rw [h0] at hn
          simp [MemFS.node] at hn
        have : MemFS.node (fs ++ [(p, Node.file data)]) p = some (Node.file data) := by
          unfold MemFS.node at hn ⊢
          rw [if_neg hp] at hn
          rw [if_neg hp, List.lookup_append, hn]
          simp
        rw [this]

/-- The bytes `mountFile` writes for its `data` argument. -/
theorem mountFile_reads (path : String) (data : MountData) (fs fs' : MemFS)
    (h : mountFile path data fs = .ok fs') :
    FS.readFile fs' path = .ok data.toBytes := by
  unfold mountFile at h
  simp only at h
  split at h
  · rename_i fs2 hw
    simp only [Except.ok.injEq] at h
    subst h
    exact writeFile_reads _ _ _ _ hw
  · cases h

theorem mountFile_preserves (path : String) (data : MountData) (fs fs' : MemFS)
    (h : mountFile path data fs = .ok fs')
    (q : Path) (v : Node) (hne : resolve path ≠ some q) (hq : MemFS.node fs q = some v) :
    MemFS.node fs' q = some v := by
  unfold mountFile at h
  simp only at h
  split at h
  · rename_i fs2 hw
    simp only [Except.ok.injEq] at h
    subst h
    exact writeFile_preserves _ _ _ _ hw q v hne (mkdirParts_preserves _ _ _ q v hq)
  · cases h

theorem mountFiles_preserves (files : List (String × MountData)) (fs fs' : MemFS)
    (h : mountFiles files fs = .ok fs')
    (q : Path) (v : Node) (hne : ∀ f ∈ files, resolve f.1 ≠ some q)
    (hq : MemFS.node fs q = some v) : MemFS.node fs' q = some v := by
  induction files generalizing fs with
  | nil =>
    simp only [mountFiles, Except.ok.injEq] at h
    subst h; exact hq
  | cons f rest ih =>
    simp only [mountFiles] at h
    split at h
    · rename_i fs1 hm
      exact ih _ h (fun g hg => hne g (List.mem_cons_of_mem _ hg))
        (mountFile_preserves _ _ _ _ hm q v (hne f (List.mem_cons_self _ _)) hq)
    · cases h

theorem readFile_eq_ok_iff (fs : MemFS) (path : String) (b : Bytes) :
    FS.readFile fs path = .ok b ↔
      ∃ q, resolve path = some q ∧ MemFS.node fs q = some (Node.file b) := by
  unfold FS.readFile
  cases hres : resolve path with
  | none => simp
  | some q =>
    simp only [Option.some.injEq, exists_eq_left']
    cases hn : MemFS.node fs q with
    | none => simp
    | some n =>
      cases n with
      | dir => simp
      | file d => simp

/-- After a successful `mountFiles`, every listed path whose file no later entry names
again reads back what was mounted under it. -/
theorem mountFiles_reads (files : List (String × MountData)) (fs fs' : MemFS)
    (h : mountFiles files fs = .ok fs')
    (hnodup : (files.map (fun f => resolve f.1)).Nodup) :
    ∀ f ∈ files, FS.readFile fs' f.1 = .ok f.2.toBytes := by
  induction files generalizing fs with
  | nil => intro f hf; cases hf
  | cons g rest ih =>
    simp only [mountFiles] at h
    split at h
    · rename_i fs1 hm
      simp only [List.map_cons, List.nodup_cons] at hnodup
      intro f hf
      rcases List.mem_cons.1 hf with hfg | hfr
      · subst hfg
        have hr := mountFile_reads _ _ _ _ hm
        obtain ⟨q, hres, hnode⟩ := (readFile_eq_ok_iff _ _ _).1 hr
        apply (readFile_eq_ok_iff _ _ _).2
        refine ⟨q, hres, mountFiles_preserves _ _ _ h q _ ?_ hnode⟩
        intro g hg hgq
        apply hnodup.1
        rw [hres, ← hgq]
        exact List.mem_map.2 ⟨g, hg, rfl⟩
      · exact ih _ h hnodup.2 f hfr
    · cases h

/-! ## The cache fields -/

theorem runCommand_cache (callMain : Engine σ E) (args : List String) (r : FlatcRunner σ) :
    (runCommand callMain args r).2._cachedSchema = r._cachedSchema ∧
    (runCommand callMain args r).2._cachedIncludeDirs = r._cachedIncludeDirs := by
  unfold runCommand
  simp only
  split <;> exact ⟨rfl, rfl⟩

theorem harvestBinary_cache (outDir jsonInputPath : String) (args : List String)
    (result : CommandResult) (r : FlatcRunner σ) :
    (harvestBinary outDir jsonInputPath args result r :
      Except (JSError E) Bytes × FlatcRunner σ).2._cachedSchema = r._cachedSchema ∧
    (harvestBinary outDir jsonInputPath args result r :
      Except (JSError E) Bytes × FlatcRunner σ).2._cachedIncludeDirs = r._cachedIncludeDirs := by
  unfold harvestBinary
  split
  · exact ⟨rfl, rfl⟩
  · split
    · exact ⟨rfl, rfl⟩
    · split
      · exact ⟨rfl, rfl⟩
      · split
        · exact ⟨rfl, rfl⟩
        · split <;> exact ⟨rfl, rfl⟩

theorem harvestJSON_cache (utf8Decode : Bytes → String) (binaryInput : BinaryInput)
    (opts : JSONOptions) (args : List String) (result : CommandResult) (r : FlatcRunner σ) :
    (harvestJSON utf8Decode binaryInput opts args result r :
      Except (JSError E) Output × FlatcRunner σ).2._cachedSchema = r._cachedSchema ∧
    (harvestJSON utf8Decode binaryInput opts args result r :
      Except (JSError E) Output × FlatcRunner σ).2._cachedIncludeDirs =
        r._cachedIncludeDirs := by
  unfold harvestJSON
  simp only
  split
  · exact ⟨rfl, rfl⟩
  · split <;> exact ⟨rfl, rfl⟩

/-- Only the cache step writes the cache: after `generateBinary` the cache is as
`prepareBinary` left it. -/
theorem generateBinary_cache (callMain : Engine σ E) (heap : Heap) (uuid1 uuid2 : String)
    (schemaInput : SchemaInput) (jsonInput : FileData) (r : FlatcRunner σ) :
    (generateBinary callMain heap uuid1 uuid2 schemaInput jsonInput r).2._cachedSchema =
      (prepareBinary E heap uuid1 uuid2 schemaInput jsonInput r).2._cachedSchema ∧
    (generateBinary callMain heap uuid1 uuid2 schemaInput jsonInput r).2._cachedIncludeDirs =
      (prepareBinary E heap uuid1 uuid2 schemaInput jsonInput r).2._cachedIncludeDirs := by
  unfold generateBinary
  split
  · rename_i e r1 h
    rw [h]
    exact ⟨rfl, rfl⟩
  · rename_i args r1 h
    rw [h]
    split
    · rename_i e r2 h2
      have := runCommand_cache callMain args r1
      rw [h2] at this
      exact this
    · rename_i result r2 h2
      have h3 := runCommand_cache callMain args r1
      rw [h2] at h3
      have h4 := @harvestBinary_cache σ E ("/" ++ uuid1) ("/input-" ++ uuid2 ++ ".json")
        args result r2
      exact ⟨h4.1.trans h3.1, h4.2.trans h3.2⟩

theorem generateJSON_cache (callMain : Engine σ E) (utf8Decode : Bytes → String) (heap : Heap)
    (schemaInput : SchemaInput) (binaryInput : BinaryInput) (opts : JSONOptions)
    (r : FlatcRunner σ) :
    (generateJSON callMain utf8Decode heap schemaInput binaryInput opts r).2._cachedSchema =
      (prepareJSON E heap schemaInput binaryInput opts r).2._cachedSchema ∧
    (generateJSON callMain utf8Decode heap schemaInput binaryInput opts r).2._cachedIncludeDirs =
      (prepareJSON E heap schemaInput binaryInput opts r).2._cachedIncludeDirs := by
  unfold generateJSON
  split
  · rename_i e r1 h
    rw [h]
    exact ⟨rfl, rfl⟩
  · rename_i args r1 h
    rw [h]
    split
    · rename_i e r2 h2
      have := runCommand_cache callMain args r1
      rw [h2] at this
      exact this
    · rename_i result r2 h2
      have h3 := runCommand_cache callMain args r1
      rw [h2] at h3
      have h4 := @harvestJSON_cache σ E utf8Decode binaryInput opts args result r2
      exact ⟨h4.1.trans h3.1, h4.2.trans h3.2⟩

/-- The cache check succeeds on a cached schema with the same entry, the same keys and,
under every key, a strictly equal value that is not the empty string. -/
theorem schemaUnchanged_of_same (c schemaInput : SchemaInput)
    (hentry : c.entry = schemaInput.entry)
    (hkeys : ∀ k, k ∈ Object.keys c.files ↔ k ∈ Object.keys schemaInput.files)
    (hvals : ∀ k ∈ Object.keys c.files, Object.get c.files k = Object.get schemaInput.files k)
    (hnonempty : ∀ e ∈ schemaInput.files, e.2 ≠ FileData.text "") :
    schemaUnchanged (some c) schemaInput = true := by
  have hperm : (Object.keys c.files).Perm (Object.keys schemaInput.files) :=
    (List.perm_ext_iff_of_nodup c.keys_nodup schemaInput.keys_nodup).2 hkeys
  simp only [schemaUnchanged, Bool.and_eq_true, beq_iff_eq, List.all_eq_true, strictEq]
  refine ⟨hentry, hperm.length_eq, ?_⟩
  intro k hk
  refine ⟨?_, hvals k hk⟩
  have hk2 : k ∈ Object.keys schemaInput.files := (hkeys k).1 hk
  cases hg : Object.get schemaInput.files k with
  | none => exact absurd ((Object.get_eq_none_iff _ _).1 hg) (not_not.2 hk2)
  | some v =>
    cases v with
    | bytes ref => rfl
    | text s =>
      have : s ≠ "" := by
        intro hs
        subst hs
        exact hnonempty _ (lookup_mem hg) rfl
      simp [truthy, this]

/-! ## Cache hit -/

theorem ensureSchema_hit (E : Type) (heap : Heap) (schemaInput : SchemaInput)
    (r : FlatcRunner σ) (h : schemaUnchanged r._cachedSchema schemaInput = true) :
    ensureSchema E heap schemaInput r = (.ok (), r) := by
  unfold ensureSchema
  rw [if_pos h]

/-- C2, as amended: when the runner has cached a schema with the same entry and the same
key set as the incoming one, and under every key a strictly equal value (an equal
string, or the very same byte-array object) that is not the empty string, then the
cache step mounts nothing and leaves the runner as it is; `generateBinary` and
`generateJSON` start the engine on a filesystem in which only the output directory
and the call's own input were added, with an argument vector built from the stored
include directories; and the cached schema and include directories are the same
after the call. -/
theorem cache_hit_skips_mount (E : Type) (heap : Heap) (c schemaInput : SchemaInput)
    (includeDirs : List String) (r : FlatcRunner σ)
    (hcached : r._cachedSchema = some c)
    (hdirs : r._cachedIncludeDirs = some includeDirs)
    (hentry : c.entry = schemaInput.entry)
    (hkeys : ∀ k, k ∈ Object.keys c.files ↔ k ∈ Object.keys schemaInput.files)
    (hvals : ∀ k ∈ Object.keys c.files, Object.get c.files k = Object.get schemaInput.files k)
    (hnonempty : ∀ e ∈ schemaInput.files, e.2 ≠ FileData.text "") :
    ensureSchema E heap schemaInput r = (.ok (), r) ∧
    (∀ (uuid1 uuid2 : String) (jsonInput : FileData),
      prepareBinary E heap uuid1 uuid2 schemaInput jsonInput r =
        match FS.mkdirTree r.FS ("/" ++ uuid1) with
        | .error (e, fs) => (.error (.errno e), { r with FS := fs })
        | .ok fs0 =>
          match mountFiles
            [("/input-" ++ uuid2 ++ ".json", MountData.bytes (jsonInput.content heap))] fs0 with
          | .error (e, fs) => (.error (.errno e), { r with FS := fs })
          | .ok fs2 =>
            (.ok (binaryArgs ("/" ++ uuid1) includeDirs schemaInput.entry
                ("/input-" ++ uuid2 ++ ".json")),
              { r with FS := fs2 })) ∧
    (∀ (binaryInput : BinaryInput) (opts : JSONOptions),
      prepareJSON E heap schemaInput binaryInput opts r =
        match mountFiles [(binaryInput.path, binaryInput.data.toMount heap)] r.FS with
        | .error (e, fs) => (.error (.errno e), { r with FS := fs })
        | .ok fs2 =>
          (.ok (jsonArgs opts (jsonOutDir binaryInput) includeDirs schemaInput.entry
              binaryInput.path),
            { r with FS := fs2 })) ∧
    (∀ (callMain : Engine σ E) (uuid1 uuid2 : String) (jsonInput : FileData),
      (generateBinary callMain heap uuid1 uuid2 schemaInput jsonInput r).2._cachedSchema =
        some c ∧
      (generateBinary callMain heap uuid1 uuid2 schemaInput jsonInput r).2._cachedIncludeDirs =
        some includeDirs) ∧
    (∀ (callMain : Engine σ E) (utf8Decode : Bytes → String) (binaryInput : BinaryInput)
        (opts : JSONOptions),
      (generateJSON callMain utf8Decode heap schemaInput binaryInput opts r).2._cachedSchema =
        some c ∧
      (generateJSON callMain utf8Decode heap schemaInput binaryInput opts
        r).2._cachedIncludeDirs = some includeDirs) := by
  have hun : schemaUnchanged r._cachedSchema schemaInput = true := by
    rw [hcached]
    exact schemaUnchanged_of_same c schemaInput hentry hkeys hvals hnonempty
  have hB : ∀ (uuid1 uuid2 : String) (jsonInput : FileData),
      prepareBinary E heap uuid1 uuid2 schemaInput jsonInput r =
        match FS.mkdirTree r.FS ("/" ++ uuid1) with
        | .error (e, fs) => (.error (.errno e), { r with FS := fs })
        | .ok fs0 =>
          match mountFiles
            [("/input-" ++ uuid2 ++ ".json", MountData.bytes (jsonInput.content heap))] fs0 with
          | .error (e, fs) => (.error (.errno e), { r with FS := fs })
          | .ok fs2 =>
            (.ok (binaryArgs ("/" ++ uuid1) includeDirs schemaInput.entry
                ("/input-" ++ uuid2 ++ ".json")),
              { r with FS := fs2 }) := by
    intro uuid1 uuid2 jsonInput
    unfold prepareBinary
    simp only
    cases hmk : FS.mkdirTree r.FS ("/" ++ uuid1) with
    | error e => rfl
    | ok fs0 =>
      simp only
      rw [ensureSchema_hit E heap schemaInput _ (by simpa using hun)]
      simp only
      cases hm : mountFiles
          [("/input-" ++ uuid2 ++ ".json", MountData.bytes (jsonInput.content heap))] fs0 with
      | error e => rfl
      | ok fs2 => simp only [hdirs]
  have hJ : ∀ (binaryInput : BinaryInput) (opts : JSONOptions),
      prepareJSON E heap schemaInput binaryInput opts r =
        match mountFiles [(binaryInput.path, binaryInput.data.toMount heap)] r.FS with
        | .error (e, fs) => (.error (.errno e), { r with FS := fs })
        | .ok fs2 =>
          (.ok (jsonArgs opts (jsonOutDir binaryInput) includeDirs schemaInput.entry
              binaryInput.path),
            { r with FS := fs2 }) := by
    intro binaryInput opts
    unfold prepareJSON
    rw [ensureSchema_hit E heap schemaInput r hun]
    simp only
    cases hm : mountFiles [(binaryInput.path, binaryInput.data.toMount heap)] r.FS with
    | error e => rfl
    | ok fs2 => simp only [hdirs]
  refine ⟨ensureSchema_hit E heap schemaInput r hun, hB, hJ, ?_, ?_⟩
  · intro callMain uuid1 uuid2 jsonInput
    have h := generateBinary_cache callMain heap uuid1 uuid2 schemaInput jsonInput r
    rw [hB] at h
    rw [h.1, h.2]
    cases hmk : FS.mkdirTree r.FS ("/" ++ uuid1) with
    | error e => exact ⟨hcached, hdirs⟩
    | ok fs0 =>
      simp only
      cases hm : mountFiles
          [("/input-" ++ uuid2 ++ ".json", MountData.bytes (jsonInput.content heap))] fs0 with
      | error e => exact ⟨hcached, hdirs⟩
      | ok fs2 => exact ⟨hcached, hdirs⟩
  · intro callMain utf8Decode binaryInput opts
    have h := generateJSON_cache callMain utf8Decode heap schemaInput binaryInput opts r
    rw [hJ] at h
    rw [h.1, h.2]
    cases hm : mountFiles [(binaryInput.path, binaryInput.data.toMount heap)] r.FS with
    | error e => exact ⟨hcached, hdirs⟩
    | ok fs2 => exact ⟨hcached, hdirs⟩

/-- Counterexample to C2 as stated: the cached schema and the incoming one have the same
entry, the same key and byte arrays with equal bytes, yet the cache step mounts the
file and replaces the cached schema, because the two arrays are different objects; and
a schema with an empty file does not even match itself. -/
theorem cache_hit_counterexample :
    (bytesSchemaA.entry = bytesSchemaB.entry ∧
      (∀ k, k ∈ Object.keys bytesSchemaA.files ↔ k ∈ Object.keys bytesSchemaB.files) ∧
      (∀ k, (Object.get bytesSchemaA.files k).map (FileData.content exampleHeap) =
        (Object.get bytesSchemaB.files k).map (FileData.content exampleHeap)) ∧
      cachedRunner._cachedSchema = some bytesSchemaA ∧
      cachedRunner.FS = [] ∧
      (ensureSchema Unit exampleHeap bytesSchemaB cachedRunner).2.FS =
        [(["m.fbs"], Node.file [1, 2])] ∧
      (ensureSchema Unit exampleHeap bytesSchemaB cachedRunner).2._cachedSchema =
        some bytesSchemaB ∧
      bytesSchemaB ≠ bytesSchemaA) ∧
    schemaUnchanged (some emptyFileSchema) emptyFileSchema = false := by
  refine ⟨⟨rfl, ?_, ?_, rfl, rfl, by decide, by decide, by decide⟩, by decide⟩
  · intro k; rfl
  · intro k
    by_cases hk : k = "/m.fbs"
    · subst hk; rfl
    · have h1 : Object.get bytesSchemaA.files k = none :=
        (Object.get_eq_none_iff _ k).2 (by simp [Object.keys, bytesSchemaA, hk])
      have h2 : Object.get bytesSchemaB.files k = none :=
        (Object.get_eq_none_iff _ k).2 (by simp [Object.keys, bytesSchemaB, hk])
      rw [h1, h2]

/-- Witness for C2: the mounted example schema, presented again. -/
theorem cache_hit_skips_mount_witness :
    (ensureSchema Unit exampleHeap exampleSchema warmRunner).2.FS = warmRunner.FS ∧
    (prepareBinary Unit exampleHeap "u1" "u2" exampleSchema (FileData.text "{}")
      warmRunner).1.toOption =
      some ["--binary", "--unknown-json", "-o", "/u1", "-I", "/a", "-I", "/", "/a/m.fbs",
        "/input-u2.json"] ∧
    (generateBinary exampleEngine exampleHeap "u1" "u2" exampleSchema (FileData.text "{}")
      warmRunner).2._cachedSchema = some exampleSchema :=
  have h := @cache_hit_skips_mount Unit Unit exampleHeap exampleSchema exampleSchema
    ["/a", "/"] warmRunner rfl rfl rfl (fun _ => Iff.rfl) (fun _ _ => rfl) (by decide)
  ⟨congrArg (fun x => x.2.FS) h.1,
    by rw [h.2.1]; rfl,
    (h.2.2.2.1 exampleEngine "u1" "u2" (FileData.text "{}")).1⟩

/-! ## Cache miss -/

theorem schemaMountList_map_resolve (heap : Heap) (schemaInput : SchemaInput) :
    (schemaMountList heap schemaInput).map (fun f => resolve f.1) =
      (Object.keys schemaInput.files).map resolve := by
  unfold schemaMountList Object.keys
  simp [List.map_map, Function.comp]

theorem ensureSchema_miss (E : Type) (heap : Heap) (schemaInput : SchemaInput)
    (r : FlatcRunner σ) (h : schemaUnchanged r._cachedSchema schemaInput = false) :
    ensureSchema E heap schemaInput r =
      match mountFiles (schemaMountList heap schemaInput) r.FS with
      | .error (e, fs) => (.error (.errno e), { r with FS := fs })
      | .ok fs =>
        (.ok (), { r with
          FS := fs,
          _cachedSchema := some schemaInput,
          _cachedIncludeDirs := some (getIncludeDirsFromSchemaInput schemaInput) }) := by
  unfold ensureSchema
  rw [if_neg (by simp [h])]

/-- C3, as amended: when the cache check fails (nothing is cached, or the incoming schema
differs from the cached one) and mounting every file of the incoming schema succeeds,
the cache step leaves the filesystem with the files mounted, the cached schema equal to
the incoming one and the cached include directories equal to
`getIncludeDirsFromSchemaInput` of it, and every path of the schema reads back its
content, provided no two keys name the same file; the cache is in that state at the
end of `generateBinary` and `generateJSON`. When a mount fails, the cache step raises
that failure and leaves both cache fields as they were. -/
theorem cache_miss_replaces (E : Type) (heap : Heap) (schemaInput : SchemaInput)
    (r : FlatcRunner σ) (hmiss : schemaUnchanged r._cachedSchema schemaInput = false) :
    (∀ fs, mountFiles (schemaMountList heap schemaInput) r.FS = .ok fs →
      ensureSchema E heap schemaInput r =
        (.ok (), { r with
          FS := fs,
          _cachedSchema := some schemaInput,
          _cachedIncludeDirs := some (getIncludeDirsFromSchemaInput schemaInput) }) ∧
      (((Object.keys schemaInput.files).map resolve).Nodup →
        ∀ e ∈ schemaInput.files, FS.readFile fs e.1 = .ok (e.2.content heap))) ∧
    (∀ e fs, mountFiles (schemaMountList heap schemaInput) r.FS = .error (e, fs) →
      ensureSchema E heap schemaInput r = (.error (.errno e), { r with FS := fs })) ∧
    (∀ (callMain : Engine σ E) (uuid1 uuid2 : String) (jsonInput : FileData) (fs0 fs : MemFS),
      FS.mkdirTree r.FS ("/" ++ uuid1) = .ok fs0 →
      mountFiles (schemaMountList heap schemaInput) fs0 = .ok fs →
      (generateBinary callMain heap uuid1 uuid2 schemaInput jsonInput r).2._cachedSchema =
        some schemaInput ∧
      (generateBinary callMain heap uuid1 uuid2 schemaInput jsonInput r).2._cachedIncludeDirs =
        some (getIncludeDirsFromSchemaInput schemaInput)) ∧
    (∀ (callMain : Engine σ E) (utf8Decode : Bytes → String) (binaryInput : BinaryInput)
        (opts : JSONOptions) (fs : MemFS),
      mountFiles (schemaMountList heap schemaInput) r.FS = .ok fs →
      (generateJSON callMain utf8Decode heap schemaInput binaryInput opts r).2._cachedSchema =
        some schemaInput ∧
      (generateJSON callMain utf8Decode heap schemaInput binaryInput opts
        r).2._cachedIncludeDirs = some (getIncludeDirsFromSchemaInput schemaInput)) := by
  refine ⟨?_, ?_, ?_, ?_⟩
  · intro fs hm
    refine ⟨by rw [ensureSchema_miss E heap schemaInput r hmiss, hm], ?_⟩
    intro hnodup e he
    have hmem : (e.1, e.2.toMount heap) ∈ schemaMountList heap schemaInput := by
      unfold schemaMountList
      refine List.mem_map.2 ⟨e, he, ?_⟩
      cases h2 : e.2 <;> simp [FileData.toMount]
    have := mountFiles_reads _ _ _ hm
      (by rw [schemaMountList_map_resolve]; exact hnodup) _ hmem
    rw [this]
    cases e.2 <;> rfl
  · intro e fs hm
    rw [ensureSchema_miss E heap schemaInput r hmiss, hm]
  · intro callMain uuid1 uuid2 jsonInput fs0 fs hmk hm
    have h := generateBinary_cache callMain heap uuid1 uuid2 schemaInput jsonInput r
    rw [h.1, h.2]
    unfold prepareBinary
    simp only [hmk]
    rw [ensureSchema_miss E heap schemaInput _ (by simpa using hmiss)]
    simp only [hm]
    split <;> exact ⟨rfl, rfl⟩
  · intro callMain utf8Decode binaryInput opts fs hm
    have h := generateJSON_cache callMain utf8Decode heap schemaInput binaryInput opts r
    rw [h.1, h.2]
    unfold prepareJSON
    rw [ensureSchema_miss E heap schemaInput r hmiss]
    simp only [hm]
    split <;> exact ⟨rfl, rfl⟩

/-- Witness for C3: the example schema presented to a fresh runner. -/
theorem cache_miss_replaces_witness :
    schemaUnchanged emptyRunner._cachedSchema exampleSchema = false ∧
    (ensureSchema Unit exampleHeap exampleSchema emptyRunner).2._cachedSchema =
      some exampleSchema ∧
    FS.readFile (ensureSchema Unit exampleHeap exampleSchema emptyRunner).2.FS "/a/m.fbs" =
      .ok (TextEncoder.encode "table T{}") ∧
    (generateBinary exampleEngine exampleHeap "u1" "u2" exampleSchema (FileData.text "{}")
      emptyRunner).2._cachedIncludeDirs = some ["/a", "/"] :=
  have h := @cache_miss_replaces Unit Unit exampleHeap exampleSchema emptyRunner (by decide)
  have h1 := h.1 [(["a"], Node.dir), (["a", "m.fbs"], Node.file (TextEncoder.encode "table T{}")),
    (["b.fbs"], Node.file (TextEncoder.encode "x"))] rfl
  ⟨by decide,
    congrArg (fun x => x.2._cachedSchema) h1.1,
    by rw [h1.1]; exact h1.2 (by decide) ("/a/m.fbs", FileData.text "table T{}") (by decide),
    (h.2.2.1 exampleEngine "u1" "u2" (FileData.text "{}") [(["u1"], Node.dir)]
      [(["u1"], Node.dir), (["a"], Node.dir),
        (["a", "m.fbs"], Node.file (TextEncoder.encode "table T{}")),
        (["b.fbs"], Node.file (TextEncoder.encode "x"))] rfl rfl).2⟩

/-- Counterexample to C3 as stated: the schema `{ "/a": "x", "/a/b": "y" }` is presented to
a runner with nothing cached, so the cache check fails; mounting `/a/b` fails because
`/a` was just mounted as a regular file, `generateBinary` and `generateJSON` raise that
failure, the cached schema and include directories are still unset afterwards, and
`/a/b` cannot be read. -/
theorem cache_miss_counterexample :
    schemaUnchanged emptyRunner._cachedSchema nestedSchema = false ∧
    (generateBinary exampleEngine exampleHeap "u1" "u2" nestedSchema (FileData.text "{}")
      emptyRunner).1 = .error (.errno .ENOTDIR) ∧
    (generateBinary exampleEngine exampleHeap "u1" "u2" nestedSchema (FileData.text "{}")
      emptyRunner).2._cachedSchema = none ∧
    (generateBinary exampleEngine exampleHeap "u1" "u2" nestedSchema (FileData.text "{}")
      emptyRunner).2._cachedIncludeDirs = none ∧
    FS.readFile (generateBinary exampleEngine exampleHeap "u1" "u2" nestedSchema
      (FileData.text "{}") emptyRunner).2.FS "/a/b" = .error .ENOENT ∧
    (generateJSON decodingEngine exampleDecode exampleHeap nestedSchema
      ⟨"/out.mon", FileData.bytes 1⟩ noOptions emptyRunner).1 = .error (.errno .ENOTDIR) ∧
    (generateJSON decodingEngine exampleDecode exampleHeap nestedSchema
      ⟨"/out.mon", FileData.bytes 1⟩ noOptions emptyRunner).2._cachedSchema = none :=
  ⟨by decide, rfl, by decide, by decide, rfl, rfl, by decide⟩

/-! ## The directory of a path -/

theorem lastIndexOfChars_append (c : Char) (a t : List Char) (ht : c ∉ t) :
    lastIndexOfChars c (a ++ t) = lastIndexOfChars c a := by
  induction a with
  | nil =>
    simp only [List.nil_append, lastIndexOfChars]
    exact (lastIndexOfChars_eq_none c t).2 ht
  | cons x xs ih =>
    have ih' : lastIndexOfChars c (xs.append t) = lastIndexOfChars c xs := ih
    simp only [List.cons_append, lastIndexOfChars, ih']

theorem endsWith_iff (s suffix : String) :
    endsWith s suffix = true ↔ ∃ stem, s.data = stem ++ suffix.data := by
  unfold endsWith
  rw [List.isSuffixOf_iff_suffix]
  constructor
  · rintro ⟨t, ht⟩; exact ⟨t, ht.symm⟩
  · rintro ⟨t, ht⟩; exact ⟨t, ht.symm⟩

/-- The directory expression of `mountFile` and `generateJSON`,
`s.substring(0, s.lastIndexOf("/")) || "/"`, only depends on the text up to the last
`/`: appending text without `/` does not change it. -/
theorem dirExpr_append (stem t : List Char) (ht : '/' ∉ t) :
    orElse (substring ⟨stem ++ t⟩ 0 (lastIndexOf ⟨stem ++ t⟩ '/')) "/" =
      orElse (substring ⟨stem⟩ 0 (lastIndexOf ⟨stem⟩ '/')) "/" := by
  unfold lastIndexOf
  simp only [lastIndexOfChars_append '/' stem t ht]
  cases h : lastIndexOfChars '/' stem with
  | none => simp only [substring_zero_neg]
  | some i =>
    obtain ⟨_, _, hi⟩ := lastIndexOfChars_eq_some _ _ _ h
    simp only
    congr 1
    apply String.ext
    rw [substring_zero_data _ i (by simp; omega), substring_zero_data _ i (by simp; omega)]
    simp only
    rw [List.take_append_of_le_length (by omega)]

theorem dirExpr_cases (k : String) :
    (∃ rest, k.data = (orElse (substring k 0 (lastIndexOf k '/')) "/").data ++ '/' :: rest ∧
        '/' ∉ rest ∧ (orElse (substring k 0 (lastIndexOf k '/')) "/").data ≠ []) ∨
    (orElse (substring k 0 (lastIndexOf k '/')) "/" = "/" ∧
      ('/' ∉ k.data ∨ ∃ rest, k.data = '/' :: rest ∧ '/' ∉ rest)) := by
  unfold lastIndexOf
  cases h : lastIndexOfChars '/' k.data with
  | none =>
    right
    simp only [substring_zero_neg]
    exact ⟨rfl, Or.inl ((lastIndexOfChars_eq_none _ _).1 h)⟩
  | some i =>
    obtain ⟨h1, h2, h3⟩ := lastIndexOfChars_eq_some _ _ _ h
    simp only
    cases i with
    | zero =>
      right
      have : substring k 0 ((0 : Nat) : Int) = "" := by
        apply String.ext
        rw [substring_zero_data _ 0 (by omega)]
        rfl
      rw [this]
      exact ⟨rfl, Or.inr ⟨k.data.drop 1, by simpa using h1, h2⟩⟩
    | succ j =>
      left
      have hd : (substring k 0 ((j + 1 : Nat) : Int)).data = k.data.take (j + 1) :=
        substring_zero_data _ _ (by omega)
      have hne : substring k 0 ((j + 1 : Nat) : Int) ≠ "" := by
        intro he
        rw [he] at hd
        rcases List.take_eq_nil_iff.1 hd.symm with h0 | h0
        · omega
        · rw [h0] at h3; simp at h3
      rw [orElse, if_neg hne, hd]
      refine ⟨k.data.drop (j + 1 + 1), h1, h2, ?_⟩
      intro hnil
      rcases List.take_eq_nil_iff.1 hnil with h0 | h0
      · omega
      · rw [h0] at h3; simp at h3

/-! ## The output path of decoding -/

theorem node_filter_none (fs : MemFS) (f : Path × Node → Bool) (q : Path)
    (h : MemFS.node fs q = none) : MemFS.node (fs.filter f) q = none := by
  unfold MemFS.node at h ⊢
  split
  · rename_i hq; simp [hq] at h
  · rename_i hq
    rw [if_neg hq, List.lookup_eq_none_iff] at h
    rw [List.lookup_eq_none_iff]
    intro e he
    exact h e (List.mem_filter.1 he).1

theorem swallow_unlink_cases (fs : MemFS) (path : String) :
    swallow (fun fs => FS.unlink fs path) fs = fs ∨
      ∃ d, swallow (fun fs => FS.unlink fs path) fs = fs.filter (fun e => e.1 ≠ d) := by
  simp only [swallow, FS.unlink]
  split
  · rename_i fs1 h
    split at h
    · cases h
    · rename_i p _
      split at h
      · cases h
      · cases h
      · simp only [Except.ok.injEq] at h
        exact Or.inr ⟨p, h.symm⟩
  · exact Or.inl rfl

theorem swallow_rmdir_cases (fs : MemFS) (path : String) :
    swallow (fun fs => FS.rmdir fs path) fs = fs ∨
      ∃ d, swallow (fun fs => FS.rmdir fs path) fs = fs.filter (fun e => e.1 ≠ d) := by
  simp only [swallow, FS.rmdir]
  split
  · rename_i fs1 h
    split at h
    · cases h
    · rename_i p _
      split at h
      · cases h
      · split at h
        · cases h
        · cases h
        · split at h
          · simp only [Except.ok.injEq] at h
            exact Or.inr ⟨p, h.symm⟩
          · cases h
  · exact Or.inl rfl

/-- Once the input file is unlinked, nothing in `jsonCleanup` brings it back. -/
theorem jsonCleanup_removes_input (inputPath outPath outDir : String) (fs : MemFS)
    (q : Path) (d : Bytes) (hres : resolve inputPath = some q)
    (hnode : MemFS.node fs q = some (Node.file d)) :
    MemFS.node (jsonCleanup inputPath outPath outDir fs) q = none := by
  have hq : q ≠ [] := by
    intro h
    rw [h] at hnode
    simp [MemFS.node] at hnode
  unfold jsonCleanup
  simp only
  rw [swallow_unlink fs inputPath q hres hq (by rw [hnode]; simp)]
  have h1 : MemFS.node (fs.filter (fun e => decide (e.1 ≠ q))) q = none :=
    node_filter_drop _ _ _ hq (fun v => by simp)
  have h2 : MemFS.node (swallow (fun fs => FS.unlink fs outPath)
      (fs.filter (fun e => decide (e.1 ≠ q)))) q = none := by
    rcases swallow_unlink_cases (fs.filter (fun e => decide (e.1 ≠ q))) outPath with h | ⟨p, h⟩
    · rw [h]; exact h1
    · rw [h]; exact node_filter_none _ _ _ h1
  split
  · exact h2
  · split
    · rcases swallow_rmdir_cases (swallow (fun fs => FS.unlink fs outPath)
        (fs.filter (fun e => decide (e.1 ≠ q)))) outDir with h | ⟨p, h⟩
      · rw [h]; exact h2
      · rw [h]; exact node_filter_none _ _ _ h2
    · exact h2

theorem prepareJSON_ok (heap : Heap) (schemaInput : SchemaInput) (binaryInput : BinaryInput)
    (opts : JSONOptions) (r r1 : FlatcRunner σ) (args : List String)
    (h : prepareJSON E heap schemaInput binaryInput opts r = (.ok args, r1)) :
    ∃ r' fs2 includeDirs,
      ensureSchema E heap schemaInput r = (.ok (), r') ∧
      mountFiles [(binaryInput.path, binaryInput.data.toMount heap)] r'.FS = .ok fs2 ∧
      r'._cachedIncludeDirs = some includeDirs ∧
      args = jsonArgs opts (jsonOutDir binaryInput) includeDirs schemaInput.entry
        binaryInput.path ∧
      r1 = { r' with FS := fs2 } := by
  unfold prepareJSON at h
  split at h
  · simp at h
  · rename_i r' hens
    split at h
    · simp at h
    · rename_i fs2 hm
      split at h
      · simp at h
      · rename_i dirs hd
        simp only [Prod.mk.injEq, Except.ok.injEq] at h
        exact ⟨r', fs2, dirs, hens, hm, hd, h.1.symm, h.2.symm⟩

/-- C10: for an input path ending in `.mon`, the path `generateJSON` reads its result
from is the input path with that final `.mon` replaced by `.json`; it differs from the
input path and has the same directory. The `-o` argument is the directory of the
output path: the text before its last `/`, or `/` when that text is empty or the path
has no `/`. For an input path that does not end in `.mon` the output path is the input
path itself, so with exit code 0 (and no `encoding` option) the call returns the bytes
the engine left in the input file, and the input file is gone afterwards. -/
theorem jsonOutPath_derivation (binaryInput : BinaryInput) :
    (endsWith binaryInput.path ".mon" = true →
      ∃ stem : List Char,
        binaryInput.path.data = stem ++ ".mon".data ∧
        (jsonOutPath binaryInput).data = stem ++ ".json".data ∧
        jsonOutPath binaryInput ≠ binaryInput.path ∧
        jsonOutDir binaryInput =
          orElse (substring binaryInput.path 0 (lastIndexOf binaryInput.path '/')) "/") ∧
    ((∃ rest, (jsonOutPath binaryInput).data = (jsonOutDir binaryInput).data ++ '/' :: rest ∧
        '/' ∉ rest ∧ (jsonOutDir binaryInput).data ≠ []) ∨
      (jsonOutDir binaryInput = "/" ∧
        ('/' ∉ (jsonOutPath binaryInput).data ∨
          ∃ rest, (jsonOutPath binaryInput).data = '/' :: rest ∧ '/' ∉ rest))) ∧
    (∀ (opts : JSONOptions) (includeDirs : List String) (entry : String),
      ∃ before after, jsonArgs opts (jsonOutDir binaryInput) includeDirs entry
        binaryInput.path = before ++ "-o" :: jsonOutDir binaryInput :: after) ∧
    (endsWith binaryInput.path ".mon" = false →
      jsonOutPath binaryInput = binaryInput.path ∧
      ∀ (callMain : Engine σ E) (utf8Decode : Bytes → String) (heap : Heap)
        (schemaInput : SchemaInput) (opts : JSONOptions) (r r1 r2 : FlatcRunner σ)
        (args : List String) (result : CommandResult) (q : Path) (d : Bytes),
        prepareJSON E heap schemaInput binaryInput opts r = (.ok args, r1) →
        runCommand callMain args r1 = (.ok result, r2) →
        result.code = 0 →
        opts.encoding = JSValue.undefined →
        resolve binaryInput.path = some q →
        MemFS.node r2.FS q = some (Node.file d) →
        (generateJSON callMain utf8Decode heap schemaInput binaryInput opts r).1 =
          .ok (Output.bytes d) ∧
        FS.stat (generateJSON callMain utf8Decode heap schemaInput binaryInput opts r).2.FS
          binaryInput.path = .error .ENOENT) := by
  refine ⟨?_, ?_, ?_, ?_⟩
  · intro hends
    obtain ⟨stem, hstem⟩ := (endsWith_iff _ _).1 hends
    have hout : (jsonOutPath binaryInput).data = stem ++ ".json".data := by
      unfold jsonOutPath replaceFinalDotMon
      rw [if_pos hends, hstem]
      simp
    refine ⟨stem, hstem, hout, ?_, ?_⟩
    · intro h
      have := congrArg (fun s => s.data.length) h
      simp only [hout, hstem, List.length_append] at this
      have h5 : ".json".data.length = 5 := rfl
      have h4 : ".mon".data.length = 4 := rfl
      rw [h5, h4] at this
      omega
    · unfold jsonOutDir
      simp only
      have e1 : jsonOutPath binaryInput = ⟨stem ++ ".json".data⟩ := String.ext hout
      have e2 : binaryInput.path = ⟨stem ++ ".mon".data⟩ := String.ext hstem
      rw [e1, e2, dirExpr_append stem _ (by decide), dirExpr_append stem _ (by decide)]
  · exact dirExpr_cases (jsonOutPath binaryInput)
  · intro opts includeDirs entry
    refine ⟨["--json", "--strict-json"] ++
        (if opts.rawBinary = JSValue.bool false then [] else ["--raw-binary"]) ++
        (if opts.defaultsJson.truthy then ["--defaults-json"] else []),
      includeDirs.flatMap (fun d => ["-I", d]) ++ [entry, "--", binaryInput.path], ?_⟩
    simp [jsonArgs]
  · intro hends
    have hsame : jsonOutPath binaryInput = binaryInput.path := by
      unfold jsonOutPath replaceFinalDotMon
      rw [if_neg (by simp [hends])]
    refine ⟨hsame, ?_⟩
    intro callMain utf8Decode heap schemaInput opts r r1 r2 args result q d hprep hrun hcode
      henc hres hnode
    have hgen : generateJSON callMain utf8Decode heap schemaInput binaryInput opts r =
        harvestJSON utf8Decode binaryInput opts args result r2 := by
      simp [generateJSON, hprep, hrun]
    have hread : FS.readFile r2.FS binaryInput.path = .ok d :=
      (readFile_eq_ok_iff _ _ _).2 ⟨q, hres, hnode⟩
    have hharv : (harvestJSON utf8Decode binaryInput opts args result r2 :
        Except (JSError E) Output × FlatcRunner σ) =
        (.ok (Output.bytes d), { r2 with FS := (jsonCleanup binaryInput.path
          (jsonOutPath binaryInput) (jsonOutDir binaryInput) r2.FS) }) := by
      unfold harvestJSON
      simp [hcode, henc, hsame, FS.readFileAs, hread, JSValue.truthy]
    rw [hgen, hharv]
    refine ⟨rfl, ?_⟩
    simp only [FS.stat, hres,
      jsonCleanup_removes_input _ _ _ _ q d hres hnode]

/-! ## Outcome of encoding and witnesses -/

/-- C5: once the engine ran and gave an exit code, `generateBinary` returns bytes `b`
exactly when the code is 0, the listing of the output directory has an entry whose
name ends in `.mon`, and the first such entry is a file holding `b`; with a non-zero
code it raises the error starting `flatc failed with exit code`; with code 0 and no
`.mon` entry in the output directory it raises the error starting
`flatc succeeded but no .mon output was found`, which is not of the first kind. -/
theorem generateBinary_outcome (callMain : Engine σ E) (heap : Heap) (uuid1 uuid2 : String)
    (schemaInput : SchemaInput) (jsonInput : FileData) (r r1 r2 : FlatcRunner σ)
    (args : List String) (result : CommandResult)
    (hprep : prepareBinary E heap uuid1 uuid2 schemaInput jsonInput r = (.ok args, r1))
    (hrun : runCommand callMain args r1 = (.ok result, r2)) :
    (∀ b, (generateBinary callMain heap uuid1 uuid2 schemaInput jsonInput r).1 = .ok b ↔
      result.code = 0 ∧ ∃ files before file after,
        FS.readdir r2.FS ("/" ++ uuid1) = .ok files ∧
        files = before ++ file :: after ∧
        (∀ f ∈ before, endsWith f ".mon" = false) ∧
        endsWith file ".mon" = true ∧
        FS.readFile r2.FS ("/" ++ uuid1 ++ "/" ++ file) = .ok b) ∧
    (result.code ≠ 0 →
      ∃ msg, (generateBinary callMain heap uuid1 uuid2 schemaInput jsonInput r).1 =
          .error (.error msg) ∧
        "flatc failed with exit code".data <+: msg.data) ∧
    (result.code = 0 →
      ∀ files, FS.readdir r2.FS ("/" ++ uuid1) = .ok files →
        (∀ f ∈ files, endsWith f ".mon" = false) →
        ∃ msg, (generateBinary callMain heap uuid1 uuid2 schemaInput jsonInput r).1 =
            .error (.error msg) ∧
          "flatc succeeded but no .mon output was found".data <+: msg.data ∧
          ¬ "flatc failed with exit code".data <+: msg.data) := by
  obtain ⟨h1, h2, h3⟩ := generateBinary_outcome_find callMain heap uuid1 uuid2 schemaInput
    jsonInput r r1 r2 args result hprep hrun
  refine ⟨?_, h2, h3⟩
  intro b
  rw [h1 b]
  constructor
  · rintro ⟨hc, files, file, hrd, hfind, hread⟩
    obtain ⟨hp, before, after, hfiles, hbefore⟩ := List.find?_eq_some.1 hfind
    exact ⟨hc, files, before, file, after, hrd, hfiles,
      fun f hf => by simpa using hbefore f hf, hp, hread⟩
  · rintro ⟨hc, files, before, file, after, hrd, hfiles, hbefore, hp, hread⟩
    exact ⟨hc, files, file, hrd,
      List.find?_eq_some.2 ⟨hp, before, after, hfiles, fun f hf => by simp [hbefore f hf]⟩, hread⟩

/-- Witness for C5: the example engine writes `/u1/input-u2.mon`. -/
theorem generateBinary_outcome_witness :
    (generateBinary exampleEngine exampleHeap "u1" "u2" exampleSchema (FileData.text "{}")
      emptyRunner).1 = .ok [1, 2, 3] :=
  ((generateBinary_outcome exampleEngine exampleHeap "u1" "u2" exampleSchema
    (FileData.text "{}") emptyRunner examplePrepared exampleRan exampleArgs
    ⟨0, "ok", ""⟩ rfl rfl).1 [1, 2, 3]).2
    ⟨rfl, [".", "..", "input-u2.mon"], [".", ".."], "input-u2.mon", [], rfl, rfl,
      by decide, by decide, rfl⟩

/-- Witness for C6: the failing engine, in an encode and in a decode call. -/
theorem failure_diagnostics_complete_witness :
    (∃ msg, (generateBinary failingEngine exampleHeap "u1" "u2" exampleSchema
        (FileData.text "{}") emptyRunner).1 = .error (.error msg) ∧
      includes msg (toString (1 : Int)) ∧
      includes msg (join exampleArgs " ") ∧
      (∀ a ∈ exampleArgs, includes msg a) ∧
      includes msg "(empty)" ∧
      includes msg "error: bad input") ∧
    (∃ msg, (generateJSON failingEngine exampleDecode exampleHeap exampleSchema exampleInput
        noOptions emptyRunner).1 = .error (.error msg) ∧
      includes msg (toString (1 : Int)) ∧
      includes msg (join decodeArgs " ") ∧
      (∀ a ∈ decodeArgs, includes msg a) ∧
      includes msg "(empty)" ∧
      includes msg "error: bad input") :=
  ⟨(@failure_diagnostics_complete Unit Unit).1 failingEngine exampleHeap "u1" "u2"
      exampleSchema (FileData.text "{}") emptyRunner examplePrepared exampleFailed exampleArgs
      ⟨1, "", "error: bad input"⟩ rfl rfl (by decide),
    (@failure_diagnostics_complete Unit Unit).2 failingEngine exampleDecode exampleHeap
      exampleSchema exampleInput noOptions emptyRunner decodePrepared decodeFailed decodeArgs
      ⟨1, "", "error: bad input"⟩ rfl rfl (by decide)⟩

/-- Witness for C7: the example engine leaves one regular file in `/u1`. -/
theorem generateBinary_cleanup_witness :
    FS.stat (generateBinary exampleEngine exampleHeap "u1" "u2" exampleSchema
      (FileData.text "{}") emptyRunner).2.FS "/input-u2.json" = .error .ENOENT ∧
    FS.stat (generateBinary exampleEngine exampleHeap "u1" "u2" exampleSchema
      (FileData.text "{}") emptyRunner).2.FS "/u1" = .error .ENOENT ∧
    listAllFiles (generateBinary exampleEngine exampleHeap "u1" "u2" exampleSchema
      (FileData.text "{}") emptyRunner).2.FS "/" = some (.ok ["/a/m.fbs", "/b.fbs"]) :=
  have h := generateBinary_cleanup exampleEngine exampleHeap "u1" "u2" exampleSchema
    (FileData.text "{}") emptyRunner examplePrepared exampleRan exampleArgs ⟨0, "ok", ""⟩
    rfl rfl (by decide) (by decide) (by decide) (by decide) (by decide)
  ⟨h.2.1, h.2.2.1, rfl⟩

/-- Witness for C10: `/data/out.mon` is decoded into `/data/out.json`; a decode of
`/out.bin` returns the input bytes and removes the input. -/
theorem jsonOutPath_derivation_witness :
    jsonOutPath ⟨"/data/out.mon", FileData.bytes 1⟩ = "/data/out.json" ∧
    jsonOutDir ⟨"/data/out.mon", FileData.bytes 1⟩ = "/data" ∧
    jsonOutPath plainInput = plainInput.path ∧
    (generateJSON silentEngine exampleDecode exampleHeap exampleSchema plainInput noOptions
      emptyRunner).1 = .ok (Output.bytes [1, 2]) ∧
    FS.stat (generateJSON silentEngine exampleDecode exampleHeap exampleSchema plainInput
      noOptions emptyRunner).2.FS "/out.bin" = .error .ENOENT :=
  have h := (@jsonOutPath_derivation Unit Unit plainInput).2.2.2 (by decide)
  have h2 := h.2 silentEngine exampleDecode exampleHeap exampleSchema noOptions emptyRunner
    (prepareJSON Unit exampleHeap exampleSchema plainInput noOptions emptyRunner).2
    (prepareJSON Unit exampleHeap exampleSchema plainInput noOptions emptyRunner).2
    ["--json", "--strict-json", "--raw-binary", "-o", "/", "-I", "/a", "-I", "/", "/a/m.fbs",
      "--", "/out.bin"]
    ⟨0, "", ""⟩ ["out.bin"] [1, 2] rfl rfl rfl rfl rfl rfl
  ⟨by decide, by decide, h.1, h2.1, h2.2⟩

/-! ## Exit paths without cleanup -/

/-- C8, the code at a failing input: the engine aborts with a value that is not a
number. `runCommand` raises it again, and `generateBinary` and `generateJSON` end
without running their cleanup: the mounted document and the output directory, and the
mounted binary input, are still there. The same happens when the engine exits with
code 0 and wrote nothing, so that reading the output file fails in `generateJSON`. -/
theorem cleanup_skipped_on_engine_fault :
    (generateBinary abortingEngine exampleHeap "u1" "u2" exampleSchema (FileData.text "{}")
      emptyRunner).1 = .error (.engine ()) ∧
    FS.readFile (generateBinary abortingEngine exampleHeap "u1" "u2" exampleSchema
      (FileData.text "{}") emptyRunner).2.FS "/input-u2.json" =
      .ok (TextEncoder.encode "{}") ∧
    FS.stat (generateBinary abortingEngine exampleHeap "u1" "u2" exampleSchema
      (FileData.text "{}") emptyRunner).2.FS "/u1" = .ok Node.dir ∧
    (generateJSON abortingEngine exampleDecode exampleHeap exampleSchema exampleInput
      noOptions emptyRunner).1 = .error (.engine ()) ∧
    FS.readFile (generateJSON abortingEngine exampleDecode exampleHeap exampleSchema
      exampleInput noOptions emptyRunner).2.FS "/out.mon" = .ok [1, 2] ∧
    (generateJSON silentEngine exampleDecode exampleHeap exampleSchema exampleInput
      noOptions emptyRunner).1 = .error (.errno .ENOENT) ∧
    FS.readFile (generateJSON silentEngine exampleDecode exampleHeap exampleSchema
      exampleInput noOptions emptyRunner).2.FS "/out.mon" = .ok [1, 2] :=
  ⟨rfl, rfl, rfl, rfl, rfl, rfl, rfl⟩

/-- C9, the code at a failing input: the engine exits with code 0 and leaves no file at
the output path `/out.json`. `generateJSON` ends with the bare `ENOENT` failure of
`FS.readFile`, which carries neither the argument vector nor the captured streams,
whereas `generateBinary` in the same situation raises its own error with the
arguments in the message. -/
theorem decode_missing_output_is_raw_errno :
    (runCommand silentEngine decodeArgs decodePrepared).1 = .ok ⟨0, "", ""⟩ ∧
    FS.stat (runCommand silentEngine decodeArgs decodePrepared).2.FS "/out.json" =
      .error .ENOENT ∧
    (generateJSON silentEngine exampleDecode exampleHeap exampleSchema exampleInput
      noOptions emptyRunner).1 = .error (.errno .ENOENT) ∧
    (∃ msg, (generateBinary silentEngine exampleHeap "u1" "u2" exampleSchema
        (FileData.text "{}") emptyRunner).1 = .error (.error msg) ∧
      includes msg (join exampleArgs " ")) :=
  ⟨rfl, rfl, rfl, _, rfl, by
    have h : includes (missingOutputMessage "/u1" [".", ".."] ⟨0, "", ""⟩ exampleArgs)
        ("Arguments: " ++ join exampleArgs " ") :=
      includes_join _ _ _ (by simp)
    exact includes_trans (includes_append_right "Arguments: " _) h⟩

/-! ## The argument vector of decoding -/

theorem readFileAs_null {E : Type} (utf8Decode : Bytes → String) (fs : MemFS) (path : String) :
    (FS.readFileAs utf8Decode fs path JSValue.null : Except (JSError E) Output) =
      match FS.readFile fs path with
      | .error e => .error (.errno e)
      | .ok data => .ok (Output.bytes data) := by
  unfold FS.readFileAs
  cases FS.readFile fs path <;> simp [JSValue.truthy]

theorem readFileAs_utf8 {E : Type} (utf8Decode : Bytes → String) (fs : MemFS) (path : String) :
    (FS.readFileAs utf8Decode fs path (JSValue.string "utf8") : Except (JSError E) Output) =
      match FS.readFile fs path with
      | .error e => .error (.errno e)
      | .ok data => .ok (Output.text (utf8Decode data)) := by
  unfold FS.readFileAs
  cases FS.readFile fs path <;> simp [JSValue.truthy]

/-- C11. Whenever `generateJSON` gets as far as the engine, the argument vector it
passes is `--json --strict-json`, then `--raw-binary` unless `opts.rawBinary` is exactly
`false`, then `--defaults-json` iff `opts.defaultsJson` is truthy, then `-o` and the
output directory, one `-I d` pair per cached include directory in order, the schema
entry, `--` and the input path; with the options omitted that is the vector with
`--raw-binary` and without `--defaults-json`. After an exit code of `0` the output file is
returned as raw bytes when `opts.encoding` is absent (`undefined` or `null`), and as
decoded text when it is `utf8`. -/
theorem generateJSON_argv (callMain : Engine σ E) (utf8Decode : Bytes → String) (heap : Heap)
    (schemaInput : SchemaInput) (binaryInput : BinaryInput) (opts : JSONOptions)
    (r r1 : FlatcRunner σ) (args : List String)
    (hprep : prepareJSON E heap schemaInput binaryInput opts r = (.ok args, r1)) :
    ∃ includeDirs, r1._cachedIncludeDirs = some includeDirs ∧
      args = ["--json", "--strict-json"] ++
        (if opts.rawBinary = JSValue.bool false then [] else ["--raw-binary"]) ++
        (if opts.defaultsJson.truthy = true then ["--defaults-json"] else []) ++
        ["-o", jsonOutDir binaryInput] ++
        includeDirs.flatMap (fun d => ["-I", d]) ++
        [schemaInput.entry, "--", binaryInput.path] ∧
      (opts = ⟨JSValue.undefined, JSValue.undefined, JSValue.undefined⟩ →
        args = ["--json", "--strict-json", "--raw-binary", "-o", jsonOutDir binaryInput] ++
          includeDirs.flatMap (fun d => ["-I", d]) ++
          [schemaInput.entry, "--", binaryInput.path]) ∧
      generateJSON callMain utf8Decode heap schemaInput binaryInput opts r =
        (match runCommand callMain args r1 with
        | (.error e, r2) => (.error e, r2)
        | (.ok result, r2) => harvestJSON utf8Decode binaryInput opts args result r2) ∧
      (∀ result r2 d, runCommand callMain args r1 = (.ok result, r2) → result.code = 0 →
        FS.readFile r2.FS (jsonOutPath binaryInput) = .ok d →
        (opts.encoding = JSValue.undefined ∨ opts.encoding = JSValue.null →
          (generateJSON callMain utf8Decode heap schemaInput binaryInput opts r).1 =
            .ok (Output.bytes d)) ∧
        (opts.encoding = JSValue.string "utf8" →
          (generateJSON callMain utf8Decode heap schemaInput binaryInput opts r).1 =
            .ok (Output.text (utf8Decode d)))) := by
  obtain ⟨r', fs2, includeDirs, _, _, hdirs, hargs, hr1⟩ :=
    prepareJSON_ok heap schemaInput binaryInput opts r r1 args hprep
  have hgen : generateJSON callMain utf8Decode heap schemaInput binaryInput opts r =
        (match runCommand callMain args r1 with
        | (.error e, r2) => (.error e, r2)
        | (.ok result, r2) => harvestJSON utf8Decode binaryInput opts args result r2) := by
    unfold generateJSON
    simp only [hprep]
  refine ⟨includeDirs, ?_, ?_, ?_, hgen, ?_⟩
  · rw [hr1]; exact hdirs
  · rw [hargs]; unfold jsonArgs; rfl
  · intro hopts
    rw [hargs, hopts]
    rfl
  · intro result r2 d hrun hcode hread
    rw [hgen, hrun]
    constructor
    · intro henc
      show (harvestJSON utf8Decode binaryInput opts args result r2).1 = _
      unfold harvestJSON
      simp only [hcode, ne_eq, not_true_eq_false, if_false, henc, if_true]
      rw [readFileAs_null, hread]
    · intro henc
      show (harvestJSON utf8Decode binaryInput opts args result r2).1 = _
      unfold harvestJSON
      have h1 : ¬ (opts.encoding = JSValue.undefined ∨ opts.encoding = JSValue.null) := by
        rw [henc]; decide
      simp only [hcode, ne_eq, not_true_eq_false, if_false, h1]
      rw [henc, readFileAs_utf8, hread]

theorem generateJSON_argv_witness :
    (prepareJSON Unit exampleHeap exampleSchema exampleInput textOptions emptyRunner).1 =
      .ok ["--json", "--strict-json", "--defaults-json", "-o", "/", "-I", "/a", "-I", "/",
        "/a/m.fbs", "--", "/out.mon"] ∧
    (prepareJSON Unit exampleHeap exampleSchema exampleInput noOptions emptyRunner).1 =
      .ok decodeArgs ∧
    (generateJSON decodingEngine exampleDecode exampleHeap exampleSchema exampleInput
      noOptions emptyRunner).1 = .ok (Output.bytes [123, 125]) ∧
    (generateJSON decodingEngine exampleDecode exampleHeap exampleSchema exampleInput
      textOptions emptyRunner).1 = .ok (Output.text "{}") ∧
    ∃ includeDirs, decodePrepared._cachedIncludeDirs = some includeDirs ∧
      decodeArgs = ["--json", "--strict-json"] ++
        (if noOptions.rawBinary = JSValue.bool false then [] else ["--raw-binary"]) ++
        (if noOptions.defaultsJson.truthy = true then ["--defaults-json"] else []) ++
        ["-o", jsonOutDir exampleInput] ++
        includeDirs.flatMap (fun d => ["-I", d]) ++
        [exampleSchema.entry, "--", exampleInput.path] :=
  ⟨rfl, rfl, rfl, rfl,
    (generateJSON_argv decodingEngine exampleDecode exampleHeap exampleSchema exampleInput
      noOptions emptyRunner decodePrepared decodeArgs rfl).imp
      (fun _ h => ⟨h.1, h.2.1⟩)⟩

/-! ## Cleanup after decoding -/

theorem properName_of_mem_names {fs : MemFS} (h : MemFS.ProperNames fs) {p : Path} {n : String}
    (hn : n ∈ MemFS.names fs p) : ProperName n := by
  obtain ⟨v, hv⟩ := mem_names.1 hn
  exact h _ hv n (by simp)

theorem readdir_all_dots (names : List String) (h : ∀ n ∈ names, ProperName n) :
    (("." :: ".." :: names).all (fun f => f = "." || f = "..") = true) ↔ names = [] := by
  constructor
  · intro hall
    cases names with
    | nil => rfl
    | cons a t =>
      exfalso
      have ha := h a (by simp)
      simp only [List.all_cons, Bool.and_eq_true] at hall
      have := hall.2.2.1
      simp only [Bool.or_eq_true, decide_eq_true_eq] at this
      rcases this with h1 | h1
      · exact ha.2.1 h1
      · exact ha.2.2.1 h1
  · intro hn
    subst hn
    decide

theorem node_filter_ne (fs : MemFS) (p q : Path) (hq : q ≠ p) :
    MemFS.node (fs.filter (fun e => decide (e.1 ≠ p))) q = MemFS.node fs q :=
  node_filter_keep _ _ _ (fun v => by simpa using hq)

theorem node_filter_self (fs : MemFS) (p : Path) (hp : p ≠ []) :
    MemFS.node (fs.filter (fun e => decide (e.1 ≠ p))) p = none :=
  node_filter_drop _ _ _ hp (fun v => by simp)

/-- The filesystem `jsonCleanup` leaves, when the input and output paths do not name
directories and the output directory is one. -/
theorem jsonCleanup_eq (inputPath outPath outDir : String) (fs : MemFS) (pin pout d : Path)
    (hfs : MemFS.ProperNames fs)
    (hin : resolve inputPath = some pin) (hout : resolve outPath = some pout)
    (hdir : resolve outDir = some d) (hpin : pin ≠ []) (hpout : pout ≠ [])
    (hinf : MemFS.node fs pin ≠ some Node.dir) (houtf : MemFS.node fs pout ≠ some Node.dir)
    (hd : MemFS.node fs d = some Node.dir) :
    jsonCleanup inputPath outPath outDir fs =
      if d ≠ [] ∧ MemFS.names ((fs.filter (fun e => e.1 ≠ pin)).filter (fun e => e.1 ≠ pout)) d = []
      then ((fs.filter (fun e => e.1 ≠ pin)).filter (fun e => e.1 ≠ pout)).filter
        (fun e => e.1 ≠ d)
      else (fs.filter (fun e => e.1 ≠ pin)).filter (fun e => e.1 ≠ pout) := by
  have hdin : d ≠ pin := by
    intro h; rw [h] at hd; exact hinf hd
  have hdout : d ≠ pout := by
    intro h; rw [h] at hd; exact houtf hd
  have h1 : MemFS.node (fs.filter (fun e => decide (e.1 ≠ pin))) pout ≠ some Node.dir := by
    by_cases hc : pout = pin
    · rw [hc, node_filter_self _ _ hpin]; simp
    · rw [node_filter_ne _ _ _ hc]; exact houtf
  have hd2 : MemFS.node ((fs.filter (fun e => decide (e.1 ≠ pin))).filter
      (fun e => decide (e.1 ≠ pout))) d = some Node.dir := by
    rw [node_filter_ne _ _ _ hdout, node_filter_ne _ _ _ hdin]; exact hd
  have hprop : MemFS.ProperNames ((fs.filter (fun e => decide (e.1 ≠ pin))).filter
      (fun e => decide (e.1 ≠ pout))) :=
    properNames_filter (properNames_filter hfs _) _
  unfold jsonCleanup
  simp only
  rw [swallow_unlink fs inputPath pin hin hpin hinf,
    swallow_unlink _ outPath pout hout hpout h1]
  have hrd : FS.readdir ((fs.filter (fun e => decide (e.1 ≠ pin))).filter
      (fun e => decide (e.1 ≠ pout))) outDir =
      .ok ("." :: ".." :: MemFS.names ((fs.filter (fun e => decide (e.1 ≠ pin))).filter
      (fun e => decide (e.1 ≠ pout))) d) := by
    simp only [FS.readdir, hdir, hd2]
  rw [hrd]
  simp only
  by_cases hempty : MemFS.names ((fs.filter (fun e => decide (e.1 ≠ pin))).filter
      (fun e => decide (e.1 ≠ pout))) d = []
  · rw [if_pos ((readdir_all_dots _ (fun n hn => properName_of_mem_names hprop hn)).2 hempty)]
    by_cases hroot : d = []
    · rw [if_neg (by simp [hroot])]
      simp only [swallow, FS.rmdir, hdir, hroot, if_true]
    · rw [if_pos ⟨hroot, hempty⟩]
      exact swallow_rmdir _ outDir d hdir hroot hd2 hempty
  · rw [if_neg (fun h => hempty ((readdir_all_dots _ (fun n hn => properName_of_mem_names hprop hn)).1 h))]
    rw [if_neg (fun h => hempty h.2)]

theorem mem_names_filter_ne {fs : MemFS} {p d : Path} {n : String} :
    n ∈ MemFS.names (fs.filter (fun e => decide (e.1 ≠ p))) d ↔
      n ∈ MemFS.names fs d ∧ d ++ [n] ≠ p := by
  simp only [mem_names, List.mem_filter, decide_eq_true_eq]
  constructor
  · rintro ⟨v, hv, hne⟩
    exact ⟨⟨v, hv⟩, hne⟩
  · rintro ⟨⟨v, hv⟩, hne⟩
    exact ⟨v, hv, hne⟩

theorem names_filter_eq_nil {fs : MemFS} {pin pout d : Path} :
    MemFS.names ((fs.filter (fun e => decide (e.1 ≠ pin))).filter
      (fun e => decide (e.1 ≠ pout))) d = [] ↔
    ∀ n ∈ MemFS.names fs d, d ++ [n] = pin ∨ d ++ [n] = pout := by
  rw [List.eq_nil_iff_forall_not_mem]
  constructor
  · intro h n hn
    by_contra hc
    push_neg at hc
    exact h n (mem_names_filter_ne.2 ⟨mem_names_filter_ne.2 ⟨hn, hc.1⟩, hc.2⟩)
  · intro h n hn
    obtain ⟨h1, h2⟩ := mem_names_filter_ne.1 hn
    obtain ⟨h3, h4⟩ := mem_names_filter_ne.1 h1
    rcases h n h3 with h5 | h5
    · exact h4 h5
    · exact h2 h5

/-- When `harvestJSON` reports a failed run or returns the output, the filesystem it
leaves is the one `jsonCleanup` gives. -/
theorem harvestJSON_cleans (utf8Decode : Bytes → String) (binaryInput : BinaryInput)
    (opts : JSONOptions) (args : List String) (result : CommandResult) (r : FlatcRunner σ)
    (h : result.code ≠ 0 ∨ ∃ out, (harvestJSON utf8Decode binaryInput opts args result r :
      Except (JSError E) Output × FlatcRunner σ).1 = .ok out) :
    (harvestJSON utf8Decode binaryInput opts args result r :
      Except (JSError E) Output × FlatcRunner σ).2.FS =
      jsonCleanup binaryInput.path (jsonOutPath binaryInput) (jsonOutDir binaryInput) r.FS := by
  unfold harvestJSON at h ⊢
  simp only at h ⊢
  by_cases hc : result.code ≠ 0
  · rw [if_pos hc]
  · rw [if_neg hc] at h ⊢
    rcases h with h | ⟨out, h⟩
    · exact absurd h hc
    · split at h
      · cases h
      · rfl

/-- The cleanup of `generateJSON` in terms of the resolved input path, output path and
output directory. -/
theorem generateJSON_cleanup_paths (callMain : Engine σ E) (utf8Decode : Bytes → String) (heap : Heap)
    (schemaInput : SchemaInput) (binaryInput : BinaryInput) (opts : JSONOptions)
    (r r1 r2 : FlatcRunner σ) (args : List String) (result : CommandResult)
    (pin pout d : Path)
    (hprep : prepareJSON E heap schemaInput binaryInput opts r = (.ok args, r1))
    (hrun : runCommand callMain args r1 = (.ok result, r2))
    (hclean : result.code ≠ 0 ∨
      ∃ out, (generateJSON callMain utf8Decode heap schemaInput binaryInput opts r).1 = .ok out)
    (hfs : MemFS.ProperNames r2.FS)
    (hin : resolve binaryInput.path = some pin)
    (hout : resolve (jsonOutPath binaryInput) = some pout)
    (hdir : resolve (jsonOutDir binaryInput) = some d)
    (hpin : pin ≠ []) (hpout : pout ≠ [])
    (hinf : MemFS.node r2.FS pin ≠ some Node.dir)
    (houtf : MemFS.node r2.FS pout ≠ some Node.dir)
    (hd : MemFS.node r2.FS d = some Node.dir) :
    FS.stat (generateJSON callMain utf8Decode heap schemaInput binaryInput opts r).2.FS
      binaryInput.path = .error .ENOENT ∧
    FS.stat (generateJSON callMain utf8Decode heap schemaInput binaryInput opts r).2.FS
      (jsonOutPath binaryInput) = .error .ENOENT ∧
    (d ≠ [] →
      (MemFS.node (generateJSON callMain utf8Decode heap schemaInput binaryInput opts r).2.FS
          d = none ↔
        ∀ n ∈ MemFS.names r2.FS d, d ++ [n] = pin ∨ d ++ [n] = pout)) ∧
    (MemFS.node (generateJSON callMain utf8Decode heap schemaInput binaryInput opts r).2.FS
        d ≠ none →
      MemFS.node (generateJSON callMain utf8Decode heap schemaInput binaryInput opts r).2.FS
        d = some Node.dir) ∧
    (∀ q, q ≠ pin → q ≠ pout → q ≠ d →
      MemFS.node (generateJSON callMain utf8Decode heap schemaInput binaryInput opts r).2.FS
        q = MemFS.node r2.FS q) := by
  have hdin : d ≠ pin := by
    intro h; rw [h] at hd; exact hinf hd
  have hdout : d ≠ pout := by
    intro h; rw [h] at hd; exact houtf hd
  have hgen : generateJSON callMain utf8Decode heap schemaInput binaryInput opts r =
      harvestJSON utf8Decode binaryInput opts args result r2 := by
    unfold generateJSON
    rw [hprep]
    simp only
    rw [hrun]
  rw [hgen] at hclean ⊢
  rw [harvestJSON_cleans utf8Decode binaryInput opts args result r2 hclean,
    jsonCleanup_eq _ _ _ r2.FS pin pout d hfs hin hout hdir hpin hpout hinf houtf hd]
  have hnin : ∀ fs : MemFS, MemFS.node ((fs.filter (fun e => decide (e.1 ≠ pin))).filter
      (fun e => decide (e.1 ≠ pout))) pin = none := fun fs =>
    node_filter_none _ _ _ (node_filter_self _ _ hpin)
  have hnout : ∀ fs : MemFS, MemFS.node ((fs.filter (fun e => decide (e.1 ≠ pin))).filter
      (fun e => decide (e.1 ≠ pout))) pout = none := fun fs =>
    node_filter_self _ _ hpout
  have hd2 : MemFS.node ((r2.FS.filter (fun e => decide (e.1 ≠ pin))).filter
      (fun e => decide (e.1 ≠ pout))) d = some Node.dir := by
    rw [node_filter_ne _ _ _ hdout, node_filter_ne _ _ _ hdin]; exact hd
  by_cases hc : d ≠ [] ∧ MemFS.names ((r2.FS.filter (fun e => decide (e.1 ≠ pin))).filter
      (fun e => decide (e.1 ≠ pout))) d = []
  · rw [if_pos hc]
    refine ⟨?_, ?_, ?_, ?_, ?_⟩
    · simp only [FS.stat, hin, node_filter_none _ _ _ (hnin r2.FS)]
    · simp only [FS.stat, hout, node_filter_none _ _ _ (hnout r2.FS)]
    · intro _
      rw [node_filter_self _ _ hc.1]
      simp only [true_iff]
      exact names_filter_eq_nil.1 hc.2
    · intro h
      rw [node_filter_self _ _ hc.1] at h
      exact absurd rfl h
    · intro q h1 h2 h3
      rw [node_filter_ne _ _ _ h3, node_filter_ne _ _ _ h2, node_filter_ne _ _ _ h1]
  · rw [if_neg hc]
    refine ⟨?_, ?_, ?_, ?_, ?_⟩
    · simp only [FS.stat, hin, hnin r2.FS]
    · simp only [FS.stat, hout, hnout r2.FS]
    · intro hroot
      rw [hd2]
      constructor
      · intro h; cases h
      · intro h
        exact absurd ⟨hroot, names_filter_eq_nil.2 h⟩ hc
    · intro _
      exact hd2
    · intro q h1 h2 _
      rw [node_filter_ne _ _ _ h2, node_filter_ne _ _ _ h1]

theorem resolve_isSome_of_ne_empty {p : String} (h : p ≠ "") : ∃ q, resolve p = some q := by
  unfold resolve
  rw [if_neg h]
  exact ⟨_, rfl⟩

theorem resolve_eq_none_iff {p : String} : resolve p = none ↔ p = "" := by
  unfold resolve
  split
  · rename_i h; simp [h]
  · rename_i h; simp [h]

theorem jsonOutPath_ne_empty (binaryInput : BinaryInput) (h : binaryInput.path ≠ "") :
    jsonOutPath binaryInput ≠ "" := by
  unfold jsonOutPath replaceFinalDotMon
  split
  · intro he
    have := congrArg String.data he
    simp at this
  · exact h

/-- A successful `mountFile` wrote a path that resolves to something other than the
root. -/
theorem mountFile_resolves (path : String) (data : MountData) (fs fs' : MemFS)
    (h : mountFile path data fs = .ok fs') : ∃ q, resolve path = some q ∧ q ≠ [] := by
  obtain ⟨q, hres, hnode⟩ := (readFile_eq_ok_iff _ _ _).1 (mountFile_reads _ _ _ _ h)
  refine ⟨q, hres, ?_⟩
  intro hq
  rw [hq] at hnode
  simp [MemFS.node] at hnode

theorem stat_ok_iff (fs : MemFS) (path : String) (n : Node) :
    FS.stat fs path = .ok n ↔ ∃ q, resolve path = some q ∧ MemFS.node fs q = some n := by
  unfold FS.stat
  cases hres : resolve path with
  | none => simp
  | some q =>
    cases hn : MemFS.node fs q with
    | none => simp [hn]
    | some v => simp [hn]

/-- C12. After the cleanup of `generateJSON` (which runs when the engine reported a
failure and when the output was read), on a state in which the input and output paths
do not name directories and the output directory is one: the input file and the derived
output file no longer exist; the output directory, when it is not the root, is gone
exactly when every entry it held was one of those two files, and is still a directory
otherwise; and every other node of the filesystem is as the engine left it, the other
entries of the output directory included. The root directory is never removed. -/
theorem generateJSON_cleanup (callMain : Engine σ E) (utf8Decode : Bytes → String)
    (heap : Heap)
    (schemaInput : SchemaInput) (binaryInput : BinaryInput) (opts : JSONOptions)
    (r r1 r2 : FlatcRunner σ) (args : List String) (result : CommandResult)
    (hprep : prepareJSON E heap schemaInput binaryInput opts r = (.ok args, r1))
    (hrun : runCommand callMain args r1 = (.ok result, r2))
    (hclean : result.code ≠ 0 ∨
      ∃ out, (generateJSON callMain utf8Decode heap schemaInput binaryInput opts r).1 = .ok out)
    (hfs : MemFS.ProperNames r2.FS)
    (hinf : FS.stat r2.FS binaryInput.path ≠ .ok Node.dir)
    (houtf : FS.stat r2.FS (jsonOutPath binaryInput) ≠ .ok Node.dir)
    (hd : FS.stat r2.FS (jsonOutDir binaryInput) = .ok Node.dir) :
    FS.stat (generateJSON callMain utf8Decode heap schemaInput binaryInput opts r).2.FS
      binaryInput.path = .error .ENOENT ∧
    FS.stat (generateJSON callMain utf8Decode heap schemaInput binaryInput opts r).2.FS
      (jsonOutPath binaryInput) = .error .ENOENT ∧
    ∃ pin pout d, resolve binaryInput.path = some pin ∧
      resolve (jsonOutPath binaryInput) = some pout ∧
      resolve (jsonOutDir binaryInput) = some d ∧
      (d ≠ [] →
        (MemFS.node (generateJSON callMain utf8Decode heap schemaInput binaryInput opts r).2.FS
            d = none ↔
          ∀ n ∈ MemFS.names r2.FS d, d ++ [n] = pin ∨ d ++ [n] = pout)) ∧
      (MemFS.node (generateJSON callMain utf8Decode heap schemaInput binaryInput opts r).2.FS
          d ≠ none →
        MemFS.node (generateJSON callMain utf8Decode heap schemaInput binaryInput opts r).2.FS
          d = some Node.dir) ∧
      (∀ q, q ≠ pin → q ≠ pout → q ≠ d →
        MemFS.node (generateJSON callMain utf8Decode heap schemaInput binaryInput opts r).2.FS
          q = MemFS.node r2.FS q) := by
  obtain ⟨r', fs2, _, _, hmount, _, _, _⟩ :=
    prepareJSON_ok heap schemaInput binaryInput opts r r1 args hprep
  have hmf : ∃ fs3, mountFile binaryInput.path (binaryInput.data.toMount heap) r'.FS =
      .ok fs3 := by
    simp only [mountFiles] at hmount
    split at hmount
    · rename_i fs3 h3
      exact ⟨fs3, h3⟩
    · cases hmount
  obtain ⟨fs3, hmf⟩ := hmf
  obtain ⟨pin, hin, _⟩ := mountFile_resolves _ _ _ _ hmf
  have hpne : binaryInput.path ≠ "" := fun h => by
    rw [resolve_eq_none_iff.2 h] at hin
    cases hin
  obtain ⟨pout, hout⟩ := resolve_isSome_of_ne_empty (jsonOutPath_ne_empty binaryInput hpne)
  obtain ⟨d, hdir, hdn⟩ := (stat_ok_iff _ _ _).1 hd
  have hroot : MemFS.node r2.FS [] = some Node.dir := by simp [MemFS.node]
  have hinf' : MemFS.node r2.FS pin ≠ some Node.dir := fun h =>
    hinf ((stat_ok_iff _ _ _).2 ⟨pin, hin, h⟩)
  have houtf' : MemFS.node r2.FS pout ≠ some Node.dir := fun h =>
    houtf ((stat_ok_iff _ _ _).2 ⟨pout, hout, h⟩)
  have hpin : pin ≠ [] := fun h => hinf' (h ▸ hroot)
  have hpout : pout ≠ [] := fun h => houtf' (h ▸ hroot)
  have h := generateJSON_cleanup_paths callMain utf8Decode heap schemaInput binaryInput opts r r1 r2
    args result pin pout d hprep hrun hclean hfs hin hout hdir hpin hpout hinf' houtf' hdn
  exact ⟨h.1, h.2.1, pin, pout, d, hin, hout, hdir, h.2.2.1, h.2.2.2.1, h.2.2.2.2⟩

theorem generateJSON_cleanup_witness :
    (generateJSON nestedDecodingEngine exampleDecode exampleHeap exampleSchema nestedInput
      noOptions emptyRunner).1 = .ok (Output.bytes [123, 125]) ∧
    (generateJSON nestedDecodingEngine exampleDecode exampleHeap exampleSchema nestedInput
      noOptions emptyRunner).2.FS =
      [(["a"], Node.dir), (["a", "m.fbs"], Node.file (TextEncoder.encode "table T{}")),
        (["b.fbs"], Node.file (TextEncoder.encode "x"))] ∧
    (FS.stat (generateJSON nestedDecodingEngine exampleDecode exampleHeap exampleSchema
        nestedInput noOptions emptyRunner).2.FS nestedInput.path = .error .ENOENT ∧
      FS.stat (generateJSON nestedDecodingEngine exampleDecode exampleHeap exampleSchema
        nestedInput noOptions emptyRunner).2.FS (jsonOutPath nestedInput) = .error .ENOENT ∧
      ∃ pin pout d, resolve nestedInput.path = some pin ∧
        resolve (jsonOutPath nestedInput) = some pout ∧
        resolve (jsonOutDir nestedInput) = some d ∧
        (d ≠ [] →
          (MemFS.node (generateJSON nestedDecodingEngine exampleDecode exampleHeap
              exampleSchema nestedInput noOptions emptyRunner).2.FS d = none ↔
            ∀ n ∈ MemFS.names nestedRan.FS d, d ++ [n] = pin ∨ d ++ [n] = pout)) ∧
        (MemFS.node (generateJSON nestedDecodingEngine exampleDecode exampleHeap
            exampleSchema nestedInput noOptions emptyRunner).2.FS d ≠ none →
          MemFS.node (generateJSON nestedDecodingEngine exampleDecode exampleHeap
            exampleSchema nestedInput noOptions emptyRunner).2.FS d = some Node.dir) ∧
        (∀ q, q ≠ pin → q ≠ pout → q ≠ d →
          MemFS.node (generateJSON nestedDecodingEngine exampleDecode exampleHeap
            exampleSchema nestedInput noOptions emptyRunner).2.FS q =
              MemFS.node nestedRan.FS q)) :=
  ⟨rfl, rfl,
    generateJSON_cleanup nestedDecodingEngine exampleDecode exampleHeap exampleSchema
      nestedInput noOptions emptyRunner nestedPrepared nestedRan nestedArgs ⟨0, "", ""⟩
      rfl rfl (Or.inr ⟨_, rfl⟩) (by decide)
      (fun h => by
        have h' : FS.stat nestedRan.FS nestedInput.path = .ok (Node.file [1, 2]) := rfl
        rw [h'] at h
        cases h)
      (fun h => by
        have h' : FS.stat nestedRan.FS (jsonOutPath nestedInput) =
            .ok (Node.file [123, 125]) := rfl
        rw [h'] at h
        cases h)
      rfl⟩

/-! ## The invocation gateway -/

theorem appendPrinted_data (buffer : String) (texts : List String) :
    (appendPrinted buffer texts).data =
      buffer.data ++ texts.flatMap (fun t => t.data ++ ['\n']) := by
  unfold appendPrinted
  induction texts generalizing buffer with
  | nil => simp
  | cons t ts ih =>
    rw [List.foldl_cons, ih]
    simp [String.data_append, List.append_assoc]

/-- C13. `runCommand` empties both buffers before the engine starts: its outcome does
not depend on what the buffers held, and the buffers afterwards hold exactly the texts
of this run, each followed by a newline. The returned `stdout` and `stderr` are the
trimmed buffers. The code is `0` when the engine completes, `n` when it throws the
number `n`; any other thrown value is thrown on unchanged and no result is returned. -/
theorem runCommand_result (callMain : Engine σ E) (args : List String) (r : FlatcRunner σ) :
    (∀ out err : String,
      runCommand callMain args { r with _stdout := out, _stderr := err } =
        runCommand callMain args r) ∧
    ((runCommand callMain args r).2._stdout.data =
        (callMain args r.FS r.mem).printed.flatMap (fun t => t.data ++ ['\n']) ∧
      (runCommand callMain args r).2._stderr.data =
        (callMain args r.FS r.mem).printedErr.flatMap (fun t => t.data ++ ['\n'])) ∧
    (∀ result, (runCommand callMain args r).1 = .ok result →
      result.stdout = trim (runCommand callMain args r).2._stdout ∧
      result.stderr = trim (runCommand callMain args r).2._stderr) ∧
    ((callMain args r.FS r.mem).thrown = none →
      ∃ result, (runCommand callMain args r).1 = .ok result ∧ result.code = 0) ∧
    (∀ n, (callMain args r.FS r.mem).thrown = some (Thrown.number n) →
      ∃ result, (runCommand callMain args r).1 = .ok result ∧ result.code = n) ∧
    (∀ e, (callMain args r.FS r.mem).thrown = some (Thrown.other e) →
      (runCommand callMain args r).1 = .error (.engine e)) := by
  refine ⟨fun out err => rfl, ?_, ?_, ?_, ?_, ?_⟩
  · unfold runCommand
    cases hth : (callMain args r.FS r.mem).thrown with
    | none => simp only [hth]; constructor <;> rw [appendPrinted_data] <;> rfl
    | some t =>
      cases t with
      | number n => simp only [hth]; constructor <;> rw [appendPrinted_data] <;> rfl
      | other e => simp only [hth]; constructor <;> rw [appendPrinted_data] <;> rfl
  · intro result h
    unfold runCommand at h ⊢
    cases hth : (callMain args r.FS r.mem).thrown with
    | none =>
      simp only [hth] at h ⊢
      cases h
      exact ⟨rfl, rfl⟩
    | some t =>
      cases t with
      | number n =>
        simp only [hth] at h ⊢
        cases h
        exact ⟨rfl, rfl⟩
      | other e =>
        simp only [hth] at h
        cases h
  · intro hth
    unfold runCommand
    simp only [hth]
    exact ⟨_, rfl, rfl⟩
  · intro n hth
    unfold runCommand
    simp only [hth]
    exact ⟨_, rfl, rfl⟩
  · intro e hth
    unfold runCommand
    simp only [hth]

theorem runCommand_result_witness :
    (runCommand noisyEngine ["--version"] staleRunner).1 = .ok ⟨3, "one\ntwo", "bad"⟩ ∧
    (runCommand silentEngine ["--version"] staleRunner).1 = .ok ⟨0, "", ""⟩ ∧
    (runCommand abortingEngine ["--version"] staleRunner).1 = .error (.engine ()) ∧
    ((runCommand noisyEngine ["--version"] staleRunner).2._stdout.data =
        (noisyEngine ["--version"] staleRunner.FS staleRunner.mem).printed.flatMap
          (fun t => t.data ++ ['\n']) ∧
      (runCommand noisyEngine ["--version"] staleRunner).2._stderr.data =
        (noisyEngine ["--version"] staleRunner.FS staleRunner.mem).printedErr.flatMap
          (fun t => t.data ++ ['\n'])) :=
  ⟨rfl, rfl, rfl, (runCommand_result noisyEngine ["--version"] staleRunner).2.1⟩

/-! ## The postcondition of mounting -/

theorem absolutePath_snoc (q : Path) (n : String) :
    absolutePath (q ++ [n]) = absolutePath q ++ "/" ++ n := by
  unfold absolutePath
  rw [List.foldl_append]
  rfl

theorem absolutePath_snoc_data (q : Path) (n : String) :
    (absolutePath (q ++ [n])).data = (absolutePath q).data ++ '/' :: n.data := by
  rw [absolutePath_snoc]
  simp [String.data_append]

theorem lastIndexOfChars_snoc (c : Char) (a : List Char) :
    lastIndexOfChars c (a ++ [c]) = some a.length := by
  induction a with
  | nil => simp [lastIndexOfChars]
  | cons x xs ih =>
    have ih' : lastIndexOfChars c (xs.append [c]) = some xs.length := ih
    simp only [List.cons_append, lastIndexOfChars, ih', List.length_cons]

/-- The text before the last `/` of `a/n`, for a name `n` without `/`, is `a`. -/
theorem substring_lastSlash (a n : List Char) (hn : '/' ∉ n) :
    substring ⟨a ++ '/' :: n⟩ 0 (lastIndexOf ⟨a ++ '/' :: n⟩ '/') = ⟨a⟩ := by
  have h1 : lastIndexOfChars '/' (a ++ '/' :: n) = some a.length := by
    have : a ++ '/' :: n = (a ++ ['/']) ++ n := by simp
    rw [this, lastIndexOfChars_append _ _ _ hn, lastIndexOfChars_snoc]
  unfold lastIndexOf
  simp only [h1]
  apply String.ext
  rw [substring_zero_data _ a.length (by simp)]
  simp

theorem split_absolutePath (q : Path) (hq : ∀ n ∈ q, ProperName n) :
    (split (absolutePath q) '/').filter (fun part => part ≠ "") = q := by
  induction q using List.reverseRecOn with
  | nil => decide
  | append_singleton q n ih =>
    have hn := hq n (by simp)
    unfold split at ih ⊢
    rw [absolutePath_snoc_data, splitChars_append_sep, splitChars_of_not_mem _ _ hn.2.2.2,
      List.map_append, List.filter_append, ih (fun m hm => hq m (by simp [hm]))]
    simp [hn.1]

theorem normalizeParts_proper (q : Path) (hq : ∀ n ∈ q, ProperName n) :
    normalizeParts [] q = q := by
  induction q using List.reverseRecOn with
  | nil => rfl
  | append_singleton q n ih =>
    have hn := hq n (by simp)
    rw [normalizeParts_append_proper _ _ _ hn.2.1 hn.2.2.1, ih (fun m hm => hq m (by simp [hm]))]

theorem absolutePath_ne_empty (q : Path) (hne : q ≠ []) : absolutePath q ≠ "" := by
  induction q using List.reverseRecOn with
  | nil => exact absurd rfl hne
  | append_singleton q n _ =>
    intro h
    have := congrArg String.data h
    rw [absolutePath_snoc_data] at this
    simp at this

/-- The string `/n1/.../nk` resolves to the path `n1, ..., nk`. -/
theorem resolve_absolutePath (q : Path) (hne : q ≠ []) (hq : ∀ n ∈ q, ProperName n) :
    resolve (absolutePath q) = some q := by
  unfold resolve
  rw [if_neg (absolutePath_ne_empty q hne), split_absolutePath q hq, normalizeParts_proper q hq]

/-- The directory expression of `mountFile` on `/n1/.../nk`: its parts are
`n1, ..., n(k-1)`. -/
theorem dirParts_absolutePath (q : Path) (n : String) (hq : ∀ m ∈ q, ProperName m)
    (hn : ProperName n) :
    (split (orElse (substring (absolutePath (q ++ [n])) 0
      (lastIndexOf (absolutePath (q ++ [n])) '/')) "/") '/').filter (fun part => part ≠ "") =
      q := by
  have h1 : absolutePath (q ++ [n]) = ⟨(absolutePath q).data ++ '/' :: n.data⟩ :=
    String.ext (absolutePath_snoc_data q n)
  rw [h1, substring_lastSlash _ _ hn.2.2.2]
  by_cases hq0 : q = []
  · subst hq0
    decide
  · have : (⟨(absolutePath q).data⟩ : String) = absolutePath q := rfl
    rw [this, orElse_eq_ite, if_neg (absolutePath_ne_empty q hq0)]
    exact split_absolutePath q hq

theorem node_append_ne (fs : MemFS) (p q : Path) (n : Node) (h : q ≠ p) :
    MemFS.node (fs ++ [(p, n)]) q = MemFS.node fs q := by
  unfold MemFS.node
  split
  · rfl
  · rw [List.lookup_append]
    have hb : (q == p) = false := by simpa using h
    have : (List.lookup q [(p, n)] : Option Node) = none := by
      simp [List.lookup, hb]
    rw [this]
    simp

theorem node_append_new (fs : MemFS) (p : Path) (n : Node) (hp : p ≠ [])
    (h : MemFS.node fs p = none) : MemFS.node (fs ++ [(p, n)]) p = some n := by
  unfold MemFS.node at h ⊢
  rw [if_neg hp] at h ⊢
  rw [List.lookup_append, h]
  simp [List.lookup]

/-- A swallowed `mkdir` of a child of an existing directory, where no regular file is
in the way: afterwards the child is a directory and nothing else changed. -/
theorem swallow_mkdir_child (fs : MemFS) (path : String) (pre : Path) (part : String)
    (hres : resolve path = some (pre ++ [part]))
    (hpre : MemFS.node fs pre = some Node.dir)
    (hnf : ∀ b, MemFS.node fs (pre ++ [part]) ≠ some (Node.file b)) :
    MemFS.node (swallow (fun fs => FS.mkdir fs path) fs) (pre ++ [part]) = some Node.dir ∧
    ∀ q, q ≠ pre ++ [part] →
      MemFS.node (swallow (fun fs => FS.mkdir fs path) fs) q = MemFS.node fs q := by
  have hne : pre ++ [part] ≠ [] := by simp
  cases hn : MemFS.node fs (pre ++ [part]) with
  | none =>
    have hm : FS.mkdir fs path = .ok (fs ++ [(pre ++ [part], Node.dir)]) := by
      simp only [FS.mkdir, hres, if_neg hne, List.dropLast_concat, hpre, hn]
    simp only [swallow, hm]
    exact ⟨node_append_new _ _ _ hne hn, fun q hq => node_append_ne _ _ _ _ hq⟩
  | some v =>
    have hm : FS.mkdir fs path = .error .EEXIST := by
      simp only [FS.mkdir, hres, if_neg hne, List.dropLast_concat, hpre, hn]
    simp only [swallow, hm]
    cases v with
    | file b => exact absurd hn (hnf b)
    | dir =>
      refine ⟨hn, ?_⟩
      intro q _
      first | rfl | trivial

/-- The loop of `mountFile` over proper names, started below an existing directory
`pre` with no regular file on the way: afterwards every directory on the way exists,
and nothing else changed. -/
theorem mkdirParts_creates (parts : List String) :
    ∀ (pre : Path) (fs : MemFS),
      (∀ n ∈ pre, ProperName n) → (∀ n ∈ parts, ProperName n) →
      MemFS.node fs pre = some Node.dir →
      (∀ k, 0 < k → k ≤ parts.length → ∀ b,
        MemFS.node fs (pre ++ parts.take k) ≠ some (Node.file b)) →
      (∀ k, k ≤ parts.length →
        MemFS.node (mkdirParts parts (absolutePath pre) fs) (pre ++ parts.take k) =
          some Node.dir) ∧
      (∀ q, (∀ k, 0 < k → k ≤ parts.length → q ≠ pre ++ parts.take k) →
        MemFS.node (mkdirParts parts (absolutePath pre) fs) q = MemFS.node fs q) := by
  induction parts with
  | nil =>
    intro pre fs _ _ hpre _
    refine ⟨fun k hk => ?_, fun q _ => rfl⟩
    simp only [List.length_nil, Nat.le_zero] at hk
    subst hk
    simpa [mkdirParts] using hpre
  | cons part rest ih =>
    intro pre fs hpn hparts hpre hnf
    have hpart : ProperName part := hparts part (by simp)
    have hcur : absolutePath pre ++ "/" ++ part = absolutePath (pre ++ [part]) :=
      (absolutePath_snoc pre part).symm
    have hpn1 : ∀ n ∈ pre ++ [part], ProperName n := by
      intro n hn
      rcases List.mem_append.1 hn with h | h
      · exact hpn n h
      · simp only [List.mem_singleton] at h
        exact h ▸ hpart
    have hres : resolve (absolutePath (pre ++ [part])) = some (pre ++ [part]) :=
      resolve_absolutePath _ (by simp) hpn1
    obtain ⟨h1, h2⟩ := swallow_mkdir_child fs (absolutePath (pre ++ [part])) pre part hres hpre
      (fun b => by simpa using hnf 1 (by omega) (by simp) b)
    have hlen : ∀ k, pre ++ (part :: rest).take (k + 1) = (pre ++ [part]) ++ rest.take k := by
      intro k; simp
    obtain ⟨i1, i2⟩ := ih (pre ++ [part])
      (swallow (fun fs => FS.mkdir fs (absolutePath (pre ++ [part]))) fs) hpn1
      (fun n hn => hparts n (by simp [hn])) h1
      (fun k hk0 hk b => by
        rw [h2 _ (by
          intro h
          have h3 := List.append_right_eq_self.1 h
          rcases List.take_eq_nil_iff.1 h3 with h4 | h4
          · omega
          · rw [h4] at hk
            simp at hk
            omega)]
        rw [← hlen k]
        exact hnf (k + 1) (by omega) (by simp; omega) b)
    simp only [mkdirParts, hcur]
    constructor
    · intro k hk
      cases k with
      | zero =>
        simp only [List.take_zero, List.append_nil]
        exact mkdirParts_preserves _ _ _ _ _
          (by rw [h2 _ (by simp)]; exact hpre)
      | succ k =>
        rw [hlen k]
        exact i1 k (by simpa using hk)
    · intro q hq
      rw [i2 q (fun k hk0 hk => by
        rw [← hlen k]
        exact hq (k + 1) (by omega) (by simp; omega))]
      exact h2 q (by simpa using hq 1 (by omega) (by simp))

/-- What `writeFile` changes: only the node it writes. -/
theorem writeFile_frame (fs fs' : MemFS) (path : String) (data : Bytes) (q : Path)
    (h : FS.writeFile fs path data = .ok fs') (hres : resolve path = some q)
    (q' : Path) (hq' : q' ≠ q) : MemFS.node fs' q' = MemFS.node fs q' := by
  simp only [FS.writeFile, hres] at h
  split at h
  · cases h
  · simp only [Except.ok.injEq] at h
    subst h
    unfold MemFS.node
    split
    · rfl
    · rw [lookup_map_replace, if_neg hq']
  · split at h
    · cases h
    · cases h
    · simp only [Except.ok.injEq] at h
      subst h
      exact node_append_ne _ _ _ _ hq'

theorem writeFile_ok (fs : MemFS) (path : String) (data : Bytes) (q : Path)
    (hres : resolve path = some q) (hnd : MemFS.node fs q ≠ some Node.dir)
    (hparent : MemFS.node fs q.dropLast = some Node.dir) :
    ∃ fs', FS.writeFile fs path data = .ok fs' := by
  simp only [FS.writeFile, hres]
  cases hn : MemFS.node fs q with
  | none => simp only [hparent]; exact ⟨_, rfl⟩
  | some v =>
    cases v with
    | dir => exact absurd hn hnd
    | file b => exact ⟨_, rfl⟩

theorem mountFiles_append (a b : List (String × MountData)) (fs fs' : MemFS)
    (h : mountFiles (a ++ b) fs = .ok fs') :
    ∃ fs1, mountFiles a fs = .ok fs1 ∧ mountFiles b fs1 = .ok fs' := by
  induction a generalizing fs with
  | nil => exact ⟨fs, rfl, h⟩
  | cons f rest ih =>
    simp only [List.cons_append, mountFiles] at h ⊢
    split at h
    · rename_i fs1 hm
      exact ih fs1 h
    · cases h

/-- In `mountFiles`, the content readable at a path afterwards is that of the last
entry naming it. -/
theorem mountFiles_last (before after : List (String × MountData)) (path : String)
    (data : MountData) (fs fs' : MemFS)
    (h : mountFiles (before ++ (path, data) :: after) fs = .ok fs')
    (hafter : ∀ f ∈ after, resolve f.1 ≠ resolve path) :
    FS.readFile fs' path = .ok data.toBytes := by
  obtain ⟨fs1, _, h2⟩ := mountFiles_append before _ fs fs' h
  simp only [mountFiles] at h2
  split at h2
  · rename_i fs2 hm
    obtain ⟨q, hres, hnode⟩ := (readFile_eq_ok_iff _ _ _).1 (mountFile_reads _ _ _ _ hm)
    exact (readFile_eq_ok_iff _ _ _).2 ⟨q, hres,
      mountFiles_preserves after fs2 fs' h2 q _ (fun f hf => hres ▸ hafter f hf) hnode⟩
  · cases h2

/-- What `mountFile` leaves for a path written `/n1/.../nk`, and which entry of
`mountFiles` is readable afterwards. -/
theorem mountFile_postcondition_frame (p : Path) (data : MountData) (fs : MemFS)
    (hp : p ≠ []) (hnames : ∀ n ∈ p, ProperName n)
    (hanc : ∀ a, a <+: p → a ≠ p → ∀ b, MemFS.node fs a ≠ some (Node.file b))
    (hnd : MemFS.node fs p ≠ some Node.dir) :
    (∃ fs', mountFile (absolutePath p) data fs = .ok fs' ∧
      (∀ a, a <+: p → a ≠ p → MemFS.node fs' a = some Node.dir) ∧
      FS.readFile fs' (absolutePath p) = .ok data.toBytes ∧
      (∀ q, ¬ q <+: p → MemFS.node fs' q = MemFS.node fs q) ∧
      (∀ q v, q ≠ p → MemFS.node fs q = some v → MemFS.node fs' q = some v)) ∧
    (∀ (before after : List (String × MountData)) (path : String) (d : MountData)
        (fs0 fs1 : MemFS),
      mountFiles (before ++ (path, d) :: after) fs0 = .ok fs1 →
      (∀ f ∈ after, resolve f.1 ≠ resolve path) →
      FS.readFile fs1 path = .ok d.toBytes) := by
  refine ⟨?_, fun before after path d fs0 fs1 h ha => mountFiles_last before after path d fs0 fs1 h ha⟩
  obtain ⟨q, name, rfl⟩ : ∃ q name, p = q ++ [name] :=
    ⟨p.dropLast, p.getLast hp, (List.dropLast_append_getLast hp).symm⟩
  have hq : ∀ n ∈ q, ProperName n := fun n hn => hnames n (by simp [hn])
  have hname : ProperName name := hnames name (by simp)
  have hres : resolve (absolutePath (q ++ [name])) = some (q ++ [name]) :=
    resolve_absolutePath _ hp hnames
  have htake : ∀ k, k ≤ q.length → q.take k <+: q ++ [name] ∧ q.take k ≠ q ++ [name] := by
    intro k _
    refine ⟨(List.take_prefix k q).trans (List.prefix_append q [name]), ?_⟩
    intro h
    have := congrArg List.length h
    simp at this
    omega
  obtain ⟨c1, c2⟩ := mkdirParts_creates q [] fs (by simp) hq (by simp [MemFS.node])
    (fun k _ hk b => by simpa using hanc (q.take k) (htake k hk).1 (htake k hk).2 b)
  simp only [List.nil_append] at c1 c2
  have hpne : ∀ k, k ≤ q.length → q ++ [name] ≠ q.take k := fun k hk => (htake k hk).2.symm
  have hn1 : MemFS.node (mkdirParts q (absolutePath []) fs) (q ++ [name]) ≠ some Node.dir := by
    rw [c2 _ (fun k _ hk => hpne k hk)]
    exact hnd
  have hpar : MemFS.node (mkdirParts q (absolutePath []) fs) (q ++ [name]).dropLast =
      some Node.dir := by
    rw [List.dropLast_concat]
    simpa using c1 q.length (le_refl _)
  obtain ⟨fs', hw⟩ := writeFile_ok _ (absolutePath (q ++ [name])) data.toBytes _ hres hn1 hpar
  have hm : mountFile (absolutePath (q ++ [name])) data fs = .ok fs' := by
    unfold mountFile
    simp only [dirParts_absolutePath q name hq hname]
    have : mkdirParts q "" fs = mkdirParts q (absolutePath []) fs := rfl
    rw [this, hw]
  refine ⟨fs', hm, ?_, mountFile_reads _ _ _ _ hm, ?_, ?_⟩
  · intro a ha hne
    have hak : a = q.take a.length ∧ a.length ≤ q.length := by
      have h1 := List.prefix_iff_eq_take.1 ha
      have hlen : a.length ≤ (q ++ [name]).length := ha.length_le
      have hlt : a.length ≠ (q ++ [name]).length := by
        intro h
        exact hne (ha.eq_of_length h)
      have hle : a.length ≤ q.length := by
        simp at hlen hlt
        omega
      refine ⟨?_, hle⟩
      rw [h1, List.take_append_of_le_length hle]
      simp [List.length_take, hle]
    rw [writeFile_frame _ _ _ _ _ hw hres a hne, hak.1]
    exact c1 _ hak.2
  · intro q' hq'
    have h1 : q' ≠ q ++ [name] := fun h => hq' (h ▸ List.prefix_refl _)
    rw [writeFile_frame _ _ _ _ _ hw hres q' h1]
    exact c2 q' (fun k _ hk h => hq' (h ▸ (htake k hk).1))
  · intro q' v hne hv
    exact mountFile_preserves _ _ _ _ hm q' v (by rw [hres]; simpa using hne.symm) hv

/-- The loop of `mountFile` appends the missing directories on the way, the outermost
first. -/
theorem mkdirParts_eq (parts : List String) :
    ∀ (pre : Path) (fs : MemFS),
      (∀ n ∈ pre, ProperName n) → (∀ n ∈ parts, ProperName n) →
      MemFS.node fs pre = some Node.dir →
      (∀ k, 0 < k → k ≤ parts.length → ∀ b,
        MemFS.node fs (pre ++ parts.take k) ≠ some (Node.file b)) →
      mkdirParts parts (absolutePath pre) fs =
        fs ++ (((List.range parts.length).map (fun k => pre ++ parts.take (k + 1))).filter
          (fun a => MemFS.node fs a = none)).map (fun a => (a, Node.dir)) := by
  induction parts with
  | nil => intro pre fs _ _ _ _; simp [mkdirParts]
  | cons part rest ih =>
    intro pre fs hpn hparts hpre hnf
    have hpart : ProperName part := hparts part (by simp)
    have hcur : absolutePath pre ++ "/" ++ part = absolutePath (pre ++ [part]) :=
      (absolutePath_snoc pre part).symm
    have hpn1 : ∀ n ∈ pre ++ [part], ProperName n := by
      intro n hn
      rcases List.mem_append.1 hn with h | h
      · exact hpn n h
      · simp only [List.mem_singleton] at h
        exact h ▸ hpart
    have hres : resolve (absolutePath (pre ++ [part])) = some (pre ++ [part]) :=
      resolve_absolutePath _ (by simp) hpn1
    obtain ⟨h1, h2⟩ := swallow_mkdir_child fs (absolutePath (pre ++ [part])) pre part hres hpre
      (fun b => by simpa using hnf 1 (by omega) (by simp) b)
    have hlen : ∀ k, pre ++ (part :: rest).take (k + 1) = (pre ++ [part]) ++ rest.take k := by
      intro k; simp
    have hne : ∀ k, 0 < k → k ≤ rest.length → (pre ++ [part]) ++ rest.take k ≠ pre ++ [part] := by
      intro k hk0 hk h
      have h3 := List.append_right_eq_self.1 h
      rcases List.take_eq_nil_iff.1 h3 with h4 | h4
      · omega
      · rw [h4] at hk
        simp at hk
        omega
    have hih := ih (pre ++ [part])
      (swallow (fun fs => FS.mkdir fs (absolutePath (pre ++ [part]))) fs) hpn1
      (fun n hn => hparts n (by simp [hn])) h1
      (fun k hk0 hk b => by
        rw [h2 _ (hne k hk0 hk), ← hlen k]
        exact hnf (k + 1) (by omega) (by simp; omega) b)
    simp only [mkdirParts, hcur]
    rw [hih]
    have hfilter : ((List.range rest.length).map
        (fun k => (pre ++ [part]) ++ rest.take (k + 1))).filter
        (fun a => decide (MemFS.node
          (swallow (fun fs => FS.mkdir fs (absolutePath (pre ++ [part]))) fs) a = none)) =
        ((List.range rest.length).map
        (fun k => (pre ++ [part]) ++ rest.take (k + 1))).filter
        (fun a => decide (MemFS.node fs a = none)) := by
      apply List.filter_congr
      intro a ha
      obtain ⟨k, hk, rfl⟩ := List.mem_map.1 ha
      rw [h2 _ (hne (k + 1) (by omega) (by
        have := List.mem_range.1 hk
        omega))]
    rw [hfilter]
    have hrange : (List.range (part :: rest).length).map
        (fun k => pre ++ (part :: rest).take (k + 1)) =
        (pre ++ [part]) :: (List.range rest.length).map
          (fun k => (pre ++ [part]) ++ rest.take (k + 1)) := by
      rw [List.length_cons, List.range_succ_eq_map, List.map_cons, List.map_map]
      simp
    rw [hrange, List.filter_cons]
    cases hn : MemFS.node fs (pre ++ [part]) with
    | none =>
      have hm : FS.mkdir fs (absolutePath (pre ++ [part])) =
          .ok (fs ++ [(pre ++ [part], Node.dir)]) := by
        simp only [FS.mkdir, hres, List.dropLast_concat, hpre, hn]
        simp
      simp [swallow, hm]
    | some v =>
      have hm : FS.mkdir fs (absolutePath (pre ++ [part])) = .error .EEXIST := by
        simp only [FS.mkdir, hres, List.dropLast_concat, hpre, hn]
        simp
      simp [swallow, hm]

/-- C14 (amended). For a path written `/n1/.../nk` with `k ≥ 1` and proper names, on a
filesystem in which no proper ancestor of the path is a regular file and the path itself
is not a directory, `mountFile` succeeds whether or not the ancestor directories exist:
it makes the missing ancestors, the outermost first, and then writes the file.
Afterwards every proper ancestor is a directory, reading the path yields the data (the
UTF-8 encoding of a string), every path that is not the path or one of its ancestors
is as before, and every node that existed other than the path itself is as before. In
`mountFiles` the entries are applied in list order, so the content readable at a path
afterwards is that of the last entry naming it. -/
theorem mountFile_postcondition (p : Path) (data : MountData) (fs : MemFS)
    (hp : p ≠ []) (hnames : ∀ n ∈ p, ProperName n)
    (hanc : ∀ a, a <+: p → a ≠ p → ∀ b, MemFS.node fs a ≠ some (Node.file b))
    (hnd : MemFS.node fs p ≠ some Node.dir) :
    (∃ fs', mountFile (absolutePath p) data fs = .ok fs' ∧
      FS.writeFile
        (fs ++ (((List.range (p.length - 1)).map (fun k => p.take (k + 1))).filter
          (fun a => MemFS.node fs a = none)).map (fun a => (a, Node.dir)))
        (absolutePath p) data.toBytes = .ok fs' ∧
      (∀ a, a <+: p → a ≠ p → MemFS.node fs' a = some Node.dir) ∧
      FS.readFile fs' (absolutePath p) = .ok data.toBytes ∧
      (∀ q, ¬ q <+: p → MemFS.node fs' q = MemFS.node fs q) ∧
      (∀ q v, q ≠ p → MemFS.node fs q = some v → MemFS.node fs' q = some v)) ∧
    (∀ (before after : List (String × MountData)) (path : String) (d : MountData)
        (fs0 fs1 : MemFS),
      mountFiles (before ++ (path, d) :: after) fs0 = .ok fs1 →
      (∀ f ∈ after, resolve f.1 ≠ resolve path) →
      FS.readFile fs1 path = .ok d.toBytes) := by
  obtain ⟨⟨fs', hm, h1, h2, h3, h4⟩, hfiles⟩ :=
    mountFile_postcondition_frame p data fs hp hnames hanc hnd
  refine ⟨⟨fs', hm, ?_, h1, h2, h3, h4⟩, hfiles⟩
  obtain ⟨q, name, rfl⟩ : ∃ q name, p = q ++ [name] :=
    ⟨p.dropLast, p.getLast hp, (List.dropLast_append_getLast hp).symm⟩
  have hq : ∀ n ∈ q, ProperName n := fun n hn => hnames n (by simp [hn])
  have hname : ProperName name := hnames name (by simp)
  have htake : ∀ k, k ≤ q.length → q.take k <+: q ++ [name] ∧ q.take k ≠ q ++ [name] := by
    intro k _
    refine ⟨(List.take_prefix k q).trans (List.prefix_append q [name]), ?_⟩
    intro h
    have := congrArg List.length h
    simp at this
    omega
  have heq := mkdirParts_eq q [] fs (by simp) hq (by simp [MemFS.node])
    (fun k _ hk b => by simpa using hanc (q.take k) (htake k hk).1 (htake k hk).2 b)
  simp only [List.nil_append] at heq
  have hlist : (List.range ((q ++ [name]).length - 1)).map
      (fun k => (q ++ [name]).take (k + 1)) =
      (List.range q.length).map (fun k => q.take (k + 1)) := by
    have hl : (q ++ [name]).length - 1 = q.length := by simp
    rw [hl]
    apply List.map_congr_left
    intro k hk
    have := List.mem_range.1 hk
    rw [List.take_append_of_le_length (by omega)]
  rw [hlist, ← heq]
  unfold mountFile at hm
  simp only [dirParts_absolutePath q name hq hname] at hm
  have hcur : mkdirParts q "" fs = mkdirParts q (absolutePath []) fs := rfl
  rw [hcur] at hm
  split at hm
  · rename_i fs2 hw
    simp only [Except.ok.injEq] at hm
    rw [hw, hm]
  · cases hm

theorem mountFile_postcondition_witness :
    mountFile "/a/b/m.fbs" (MountData.text "x") [(["a"], Node.dir)] =
      .ok [(["a"], Node.dir), (["a", "b"], Node.dir),
        (["a", "b", "m.fbs"], Node.file (TextEncoder.encode "x"))] ∧
    mountFile "/p/q/m.fbs" (MountData.text "x") [] =
      .ok [(["p"], Node.dir), (["p", "q"], Node.dir),
        (["p", "q", "m.fbs"], Node.file (TextEncoder.encode "x"))] ∧
    (mountFiles [("/m.fbs", MountData.text "one"), ("/m.fbs", MountData.text "two")] []).toOption =
      some [(["m.fbs"], Node.file (TextEncoder.encode "two"))] ∧
    ∃ fs', mountFile (absolutePath ["a", "b", "m.fbs"]) (MountData.text "x")
        [(["a"], Node.dir)] = .ok fs' ∧
      FS.writeFile
        ([(["a"], Node.dir)] ++
          (((List.range (["a", "b", "m.fbs"].length - 1)).map
            (fun k => ["a", "b", "m.fbs"].take (k + 1))).filter
            (fun a => MemFS.node [(["a"], Node.dir)] a = none)).map (fun a => (a, Node.dir)))
        (absolutePath ["a", "b", "m.fbs"]) (MountData.text "x").toBytes = .ok fs' ∧
      (∀ a, a <+: ["a", "b", "m.fbs"] → a ≠ ["a", "b", "m.fbs"] →
        MemFS.node fs' a = some Node.dir) ∧
      FS.readFile fs' (absolutePath ["a", "b", "m.fbs"]) = .ok (MountData.text "x").toBytes ∧
      (∀ q, ¬ q <+: ["a", "b", "m.fbs"] →
        MemFS.node fs' q = MemFS.node [(["a"], Node.dir)] q) ∧
      (∀ q v, q ≠ ["a", "b", "m.fbs"] → MemFS.node [(["a"], Node.dir)] q = some v →
        MemFS.node fs' q = some v) :=
  ⟨rfl, rfl, rfl,
    (mountFile_postcondition ["a", "b", "m.fbs"] (MountData.text "x") [(["a"], Node.dir)]
      (by decide) (by decide)
      (by
        intro a _ _ b h
        unfold MemFS.node at h
        split at h
        · cases h
        · simp only [List.lookup] at h
          split at h <;> cases h)
      (by decide)).1⟩

/-- Counterexample to C14 as stated. `/a` is an existing directory and its only proper
ancestor is the root, yet `mountFile("/a", "x")` fails with `EISDIR`. On an empty
filesystem `mountFile("/a/", "x")` makes the directory `/a` and then fails the same
way. And `mountFile("/a/../b", "x")` succeeds but leaves the new directory `/a`, which
is neither the file written, `/b`, nor one of its ancestors. -/
theorem mountFile_counterexample :
    (∀ a : Path, a <+: ["a"] → a ≠ ["a"] → ∀ b,
      MemFS.node [(["a"], Node.dir)] a ≠ some (Node.file b)) ∧
    mountFile "/a" (MountData.text "x") [(["a"], Node.dir)] =
      .error (.EISDIR, [(["a"], Node.dir)]) ∧
    mountFile "/a/" (MountData.text "x") [] = .error (.EISDIR, [(["a"], Node.dir)]) ∧
    mountFile "/a/../b" (MountData.text "x") [] =
      .ok [(["a"], Node.dir), (["b"], Node.file (TextEncoder.encode "x"))] ∧
    resolve "/a/../b" = some ["b"] := by
  refine ⟨?_, rfl, rfl, rfl, rfl⟩
  intro a _ _ b h
  unfold MemFS.node at h
  split at h
  · cases h
  · simp only [List.lookup] at h
    split at h <;> cases h

/-! ## The argument vector of code generation -/

theorem filter_map_snd_cons (p : String × String → Bool) (f : String × String)
    (rest : List (String × String)) :
    ((f :: rest).filter p).map Prod.snd =
      (if p f = true then [f.2] else []) ++ (rest.filter p).map Prod.snd := by
  by_cases h : p f = true <;> simp [List.filter_cons, h]

/-- The twelve `if` statements of `generateCode` select from the flag table, in its
order, the flags whose option is truthy. -/
theorem codeArgs_eq_table (language outputDir : String) (includeDirs : List String)
    (options : CodeOptions) (entry : String) :
    codeArgs language outputDir includeDirs options entry =
      ["--" ++ language, "-o", outputDir] ++
        includeDirs.flatMap (fun d => ["-I", d]) ++
        (codeFlagTable.filter (fun f => (optionValue options f.1).truthy)).map Prod.snd ++
        [entry] := by
  unfold codeArgs codeFlagTable
  simp only [filter_map_snd_cons, List.filter_nil, List.map_nil, List.append_nil,
    List.append_assoc]

theorem optionValue_cons_ne (options : CodeOptions) (key other : String) (v : JSValue)
    (h : key ≠ other) : optionValue ((other, v) :: options) key = optionValue options key := by
  unfold optionValue Object.get
  have : (key == other) = false := by simpa using h
  simp [List.lookup, this]

theorem prepareCode_ok (heap : Heap) (schemaInput : SchemaInput) (language outputDir : String)
    (options : CodeOptions) (r r1 : FlatcRunner σ) (args : List String)
    (h : prepareCode E heap schemaInput language outputDir options r = (.ok args, r1)) :
    ∃ fs0 fs1, FS.mkdirTree r.FS outputDir = .ok fs0 ∧
      mountFiles (schemaMountList heap schemaInput) fs0 = .ok fs1 ∧
      args = codeArgs language outputDir (getIncludeDirsFromSchemaInput schemaInput) options
        schemaInput.entry ∧
      r1 = { r with FS := fs1 } := by
  unfold prepareCode at h
  split at h
  · cases h
  · rename_i fs0 h0
    split at h
    · cases h
    · rename_i fs1 h1
      simp only [Prod.mk.injEq, Except.ok.injEq] at h
      exact ⟨fs0, fs1, h0, h1, h.1.symm, h.2.symm⟩

/-- C16. Whenever `generateCode` gets as far as the engine, the argument vector it passes
is `--<language>`, `-o`, the output directory, one `-I d` pair per include directory of
the schema, then the flags of the table whose option is truthy, in the table's order,
then the schema entry. The vector is the same for any other options object whose
twelve options have the same truthiness, in particular with a further key such as
`objectAPI`, and it does not depend on the runner or the heap. -/
theorem generateCode_argv (callMain : Engine σ E) (utf8Decode : Bytes → String) (heap : Heap)
    (schemaInput : SchemaInput) (language outputDir : String) (options : CodeOptions)
    (r r1 : FlatcRunner σ) (args : List String)
    (hprep : prepareCode E heap schemaInput language outputDir options r = (.ok args, r1)) :
    args = ["--" ++ language, "-o", outputDir] ++
      (getIncludeDirsFromSchemaInput schemaInput).flatMap (fun d => ["-I", d]) ++
      (codeFlagTable.filter (fun f => (optionValue options f.1).truthy)).map Prod.snd ++
      [schemaInput.entry] ∧
    (∀ options' : CodeOptions,
      (∀ f ∈ codeFlagTable,
        (optionValue options' f.1).truthy = (optionValue options f.1).truthy) →
      prepareCode E heap schemaInput language outputDir options' r = (.ok args, r1)) ∧
    (∀ v, prepareCode E heap schemaInput language outputDir (("objectAPI", v) :: options) r =
      (.ok args, r1)) ∧
    (∀ (heap' : Heap) (r' r1' : FlatcRunner σ) (args' : List String),
      prepareCode E heap' schemaInput language outputDir options r' = (.ok args', r1') →
      args' = args) ∧
    generateCode callMain utf8Decode heap schemaInput language outputDir options r =
      (match runCommand callMain args r1 with
      | (.error e, r2) => (some (.error e), r2)
      | (.ok result, r2) => harvestCode utf8Decode outputDir result r2) := by
  obtain ⟨fs0, fs1, h0, h1, hargs, hr1⟩ :=
    prepareCode_ok heap schemaInput language outputDir options r r1 args hprep
  have hsame : ∀ options' : CodeOptions,
      (∀ f ∈ codeFlagTable,
        (optionValue options' f.1).truthy = (optionValue options f.1).truthy) →
      prepareCode E heap schemaInput language outputDir options' r = (.ok args, r1) := by
    intro options' hopt
    unfold prepareCode
    simp only [h0, h1]
    rw [hargs, hr1, codeArgs_eq_table, codeArgs_eq_table]
    have : codeFlagTable.filter (fun f => (optionValue options' f.1).truthy) =
        codeFlagTable.filter (fun f => (optionValue options f.1).truthy) :=
      List.filter_congr (fun f hf => hopt f hf)
    rw [this]
  refine ⟨?_, hsame, ?_, ?_, ?_⟩
  · rw [hargs, codeArgs_eq_table]
  · intro v
    apply hsame
    intro f hf
    have hkeys : ∀ g ∈ codeFlagTable, g.1 ≠ "objectAPI" := by decide
    rw [optionValue_cons_ne _ _ _ _ (hkeys f hf)]
  · intro heap' r' r1' args' h'
    obtain ⟨_, _, _, _, hargs', _⟩ :=
      prepareCode_ok heap' schemaInput language outputDir options r' r1' args' h'
    rw [hargs, hargs']
  · unfold generateCode
    simp only [hprep]

theorem generateCode_argv_witness :
    (prepareCode Unit exampleHeap exampleSchema "ts" "/out" exampleCodeOptions emptyRunner).1 =
      .ok exampleCodeArgs ∧
    (prepareCode Unit exampleHeap exampleSchema "ts" "/out"
      [("preserveCase", JSValue.bool true), ("genOneFile", JSValue.bool true)] emptyRunner).1 =
      .ok exampleCodeArgs ∧
    exampleCodeArgs = ["--" ++ "ts", "-o", "/out"] ++
      (getIncludeDirsFromSchemaInput exampleSchema).flatMap (fun d => ["-I", d]) ++
      (codeFlagTable.filter (fun f => (optionValue exampleCodeOptions f.1).truthy)).map
        Prod.snd ++
      [exampleSchema.entry] :=
  ⟨rfl, rfl,
    (generateCode_argv codegenEngine exampleDecode exampleHeap exampleSchema "ts" "/out"
      exampleCodeOptions emptyRunner codePrepared exampleCodeArgs rfl).1⟩

/-! ## Listing returns exactly the regular files -/

theorem lookup_of_mem_nodup {l : MemFS} (h : (l.map Prod.fst).Nodup) {k : Path} {v : Node}
    (hm : (k, v) ∈ l) : l.lookup k = some v := by
  induction l with
  | nil => cases hm
  | cons e es ih =>
    obtain ⟨k', v'⟩ := e
    simp only [List.map_cons, List.nodup_cons] at h
    rcases List.mem_cons.1 hm with heq | hmem
    · cases heq
      simp [List.lookup]
    · have hne : k ≠ k' := by
        intro hk
        subst hk
        exact h.1 (List.mem_map.2 ⟨(k, v), hmem, rfl⟩)
      have hb : (k == k') = false := by simpa using hne
      simp only [List.lookup, hb]
      exact ih h.2 hmem

theorem node_of_mem_nodup {fs : MemFS} (h : (fs.map Prod.fst).Nodup) {q : Path} {v : Node}
    (hq : q ≠ []) (hm : (q, v) ∈ fs) : MemFS.node fs q = some v := by
  unfold MemFS.node
  rw [if_neg hq]
  exact lookup_of_mem_nodup h hm

/-- In a directory tree every proper ancestor of a node is a directory. -/
theorem tree_ancestor_dir {fs : MemFS} (hfs : MemFS.Tree fs) :
    ∀ (n : Nat) (f : Path) (v : Node), f.length = n → (f, v) ∈ fs →
      ∀ a, a <+: f → a ≠ f → MemFS.node fs a = some Node.dir := by
  intro n
  induction n using Nat.strong_induction_on with
  | _ n ih =>
    intro f v hlen hmem a ha hne
    by_cases ha0 : a = []
    · subst ha0; simp [MemFS.node]
    have hf0 : f ≠ [] := by
      intro h; subst h
      exact ha0 (List.prefix_nil.1 ha)
    have hadl : a <+: f.dropLast := by
      obtain ⟨t, ht⟩ := ha
      have ht0 : t ≠ [] := by
        intro h; subst h
        simp at ht
        exact hne ht
      refine ⟨t.dropLast, ?_⟩
      rw [← ht, List.dropLast_append_of_ne_nil _ ht0]
    rcases hfs.2.2 (f, v) hmem with hd | hd
    · simp only at hd
      rw [hd] at hadl
      exact absurd (List.prefix_nil.1 hadl) ha0
    · simp only at hd
      by_cases hc : a = f.dropLast
      · rw [hc]
        exact node_of_mem_nodup hfs.2.1 (by rw [← hc]; exact ha0) hd
      · exact ih f.dropLast.length (by
          rw [← hlen, List.length_dropLast]
          have := List.length_pos.2 hf0
          omega) f.dropLast Node.dir rfl hd a hadl hc

theorem relFiles_sound (fs : MemFS) (hfs : MemFS.ProperNames fs) (n : Nat) :
    ∀ (q rest : Path), rest ∈ relFiles fs n q →
      (∃ b, MemFS.node fs (q ++ rest) = some (Node.file b)) ∧ ∀ m ∈ rest, ProperName m := by
  induction n with
  | zero => intro q rest h; simp [relFiles] at h
  | succ n ih =>
    intro q rest h
    unfold relFiles at h
    cases hn : MemFS.node fs q with
    | none => simp [hn] at h
    | some v =>
      cases v with
      | file b =>
        simp only [hn, List.mem_singleton] at h
        subst h
        exact ⟨⟨b, by simpa using hn⟩, by simp⟩
      | dir =>
        simp only [hn, List.mem_flatMap, List.mem_map] at h
        obtain ⟨name, hname, rest', hrest', rfl⟩ := h
        obtain ⟨⟨b, hb⟩, hp⟩ := ih (q ++ [name]) rest' hrest'
        refine ⟨⟨b, by simpa using hb⟩, ?_⟩
        intro m hm
        rcases List.mem_cons.1 hm with h1 | h1
        · subst h1
          obtain ⟨v', hv'⟩ := mem_names.1 hname
          exact hfs _ hv' m (by simp)
        · exact hp m h1

theorem relFiles_complete (fs : MemFS) (hfs : MemFS.Tree fs) (n : Nat) :
    ∀ (q rest : Path) (b : Bytes), MemFS.node fs (q ++ rest) = some (Node.file b) →
      rest.length < n → rest ∈ relFiles fs n q := by
  induction n with
  | zero => intro q rest b _ h; exact absurd h (Nat.not_lt_zero _)
  | succ n ih =>
    intro q rest b hnode hlen
    unfold relFiles
    cases rest with
    | nil =>
      simp only [List.append_nil] at hnode
      simp [hnode]
    | cons name rest' =>
      have hne : q ++ name :: rest' ≠ [] := by simp
      have hmem := node_mem hne hnode
      have hq : MemFS.node fs q = some Node.dir :=
        tree_ancestor_dir hfs _ _ _ rfl hmem q (List.prefix_append q _) (by
          intro h
          have := congrArg List.length h
          simp at this)
      have hchild : ∃ v, (q ++ [name], v) ∈ fs := by
        by_cases hr : rest' = []
        · subst hr
          exact ⟨_, hmem⟩
        · have hd := tree_ancestor_dir hfs _ _ _ rfl hmem (q ++ [name])
            ⟨rest', by simp⟩ (by
              intro h
              have h3 := List.append_cancel_left h
              exact hr (List.cons.inj h3).2.symm)
          exact ⟨_, node_mem (by simp) hd⟩
      simp only [hq, List.mem_flatMap, List.mem_map]
      refine ⟨name, mem_names.2 hchild, rest', ?_, rfl⟩
      exact ih (q ++ [name]) rest' b (by simpa using hnode) (by simpa using hlen)

theorem names_nodup {fs : MemFS} (h : (fs.map Prod.fst).Nodup) (q : Path) :
    (MemFS.names fs q).Nodup := by
  have hrw : MemFS.names fs q = (fs.map Prod.fst).filterMap
      (fun p => if p ≠ [] ∧ p.dropLast = q then p.getLast? else none) := by
    unfold MemFS.names
    rw [List.filterMap_map]
    rfl
  rw [hrw]
  refine List.Nodup.filterMap ?_ h
  intro p p' n hp hp'
  simp only [Option.mem_def] at hp hp'
  split at hp
  · rename_i hc
    split at hp'
    · rename_i hc'
      have h1 := List.dropLast_append_getLast? n hp
      have h2 := List.dropLast_append_getLast? n hp'
      rw [← h1, ← h2, hc.2, hc'.2]
    · cases hp'
  · cases hp

theorem relFiles_nodup (fs : MemFS) (hfs : (fs.map Prod.fst).Nodup) (n : Nat) :
    ∀ q : Path, (relFiles fs n q).Nodup := by
  induction n with
  | zero => intro q; simp [relFiles]
  | succ n ih =>
    intro q
    unfold relFiles
    cases hn : MemFS.node fs q with
    | none => simp
    | some v =>
      cases v with
      | file b => simp
      | dir =>
        simp only
        rw [List.nodup_flatMap]
        constructor
        · intro name _
          exact (ih (q ++ [name])).map (fun a b h => by simpa using h)
        · refine (names_nodup hfs q).imp ?_
          intro a b hab
          simp only [Function.onFun]
          rw [List.disjoint_left]
          intro x hx hx'
          obtain ⟨r1, _, rfl⟩ := List.mem_map.1 hx
          obtain ⟨r2, _, h2⟩ := List.mem_map.1 hx'
          simp only [List.cons.injEq] at h2
          exact hab h2.1.symm

theorem traverseLoop_eq (visit : String → List String → Option (Except Errno (List String)))
    (g : String → List String) (names : List String)
    (hvisit : ∀ name ∈ names, ∀ res, visit name res = some (.ok (res ++ g name)))
    (acc : List String) :
    traverseLoop visit names acc = some (.ok (acc ++ names.flatMap g)) := by
  induction names generalizing acc with
  | nil => simp [traverseLoop]
  | cons n rest ih =>
    simp only [traverseLoop, hvisit n (List.mem_cons_self _ _) acc]
    rw [ih (fun m hm => hvisit m (List.mem_cons_of_mem _ hm))]
    simp

theorem descend_cons (p name : String) (rest : Path) :
    descend p (name :: rest) =
      descend (if p = "/" then "/" ++ name else p ++ "/" ++ name) rest := rfl

/-- The string reported for the file `rest` below `p` names that file. -/
theorem resolve_descend (rest : Path) :
    ∀ (p : String) (q : Path), resolve p = some q → (∀ n ∈ rest, ProperName n) →
      resolve (descend p rest) = some (q ++ rest) := by
  induction rest with
  | nil => intro p q h _; simpa [descend] using h
  | cons name rest ih =>
    intro p q h hp
    rw [descend_cons, ih _ (q ++ [name])
      (resolve_traverse_child p name q h (hp name (by simp)))
      (fun n hn => hp n (by simp [hn]))]
    simp

theorem filter_dots_names {fs : MemFS} (hfs : MemFS.ProperNames fs) (q : Path) :
    ("." :: ".." :: MemFS.names fs q).filter (fun n => n ≠ "." ∧ n ≠ "..") =
      MemFS.names fs q := by
  have h : (MemFS.names fs q).filter (fun n => decide (n ≠ "." ∧ n ≠ "..")) =
      MemFS.names fs q := by
    rw [List.filter_eq_self]
    intro n hn
    have hp := properName_of_mem_names hfs hn
    simp [hp.2.1, hp.2.2.1]
  simpa [List.filter_cons] using h

/-- On a filesystem with proper names, `traverse` appends the regular files at and
below its path, depth-first in directory order. -/
theorem traverse_eq (fs : MemFS) (hfs : MemFS.ProperNames fs) (fuel : Nat) :
    ∀ (p : String) (q : Path) (v : Node) (acc : List String),
      resolve p = some q → MemFS.node fs q = some v →
      MemFS.depth fs + 1 ≤ fuel + q.length → 0 < fuel →
      traverse fs fuel p acc = some (.ok (acc ++ (relFiles fs fuel q).map (descend p))) := by
  induction fuel with
  | zero => intro p q v acc _ _ _ h; exact absurd h (Nat.lt_irrefl 0)
  | succ fuel ih =>
    intro p q v acc hres hnode hdepth _
    have hstat : FS.stat fs p = .ok v := by
      simp only [FS.stat, hres, hnode]
    simp only [traverse, hstat, relFiles, hnode]
    cases v with
    | file d => simp [FS.isDir, descend]
    | dir =>
      have hrd : FS.readdir fs p = .ok ("." :: ".." :: MemFS.names fs q) := by
        simp only [FS.readdir, hres, hnode]
      simp only [FS.isDir, if_true, hrd]
      rw [filter_dots_names hfs q, traverseLoop_eq _
        (fun name => (relFiles fs fuel (q ++ [name])).map
          (descend (if p = "/" then "/" ++ name else p ++ "/" ++ name)))]
      · simp only [List.map_flatMap, List.map_map]
        rfl
      · intro name hn res
        obtain ⟨v', hv'⟩ := mem_names.1 hn
        have hproper : ProperName name := hfs _ hv' name (by simp)
        have hlen := length_le_depth fs _ _ hv'
        simp only [List.length_append, List.length_singleton] at hlen
        obtain ⟨v'', hv''⟩ := node_isSome_of_mem (by simp) hv'
        exact ih _ (q ++ [name]) v'' res (resolve_traverse_child p name q hres hproper) hv''
          (by simp only [List.length_append, List.length_singleton]; omega) (by omega)

/-- C15. On a directory tree, for a path `root` that names a node of it, `listAllFiles`
returns a list: the regular files at and below `root`, depth-first in directory order,
each as `root` followed by the names leading to it. Resolving the entries gives every
regular file under `root` and nothing else, each once; so no entry is a directory, and
no entry has a `.` or `..` component after `root`. When `root` is a regular file the
list is `[root]`. The list is a function of the filesystem state and the path, and the
listing does not change the state. -/
theorem listAllFiles_exact (fs : MemFS) (hfs : MemFS.Tree fs) (root : String) (q : Path)
    (v : Node) (hres : resolve root = some q) (hnode : MemFS.node fs q = some v) :
    ∃ l, listAllFiles fs root = some (.ok l) ∧
      l = (relFiles fs (MemFS.depth fs + 2) q).map (descend root) ∧
      l.Nodup ∧ (l.map resolve).Nodup ∧
      (∀ f, some f ∈ l.map resolve ↔
        q <+: f ∧ ∃ b, MemFS.node fs f = some (Node.file b)) ∧
      (∀ x ∈ l, ∃ rest, x = descend root rest ∧ ∀ n ∈ rest, ProperName n) ∧
      (∀ b, v = Node.file b → l = [root]) := by
  have hl : listAllFiles fs root =
      some (.ok ((relFiles fs (MemFS.depth fs + 2) q).map (descend root))) := by
    unfold listAllFiles
    rw [traverse_eq fs hfs.1 _ root q v [] hres hnode (by omega) (by omega)]
    simp
  have hmap : ((relFiles fs (MemFS.depth fs + 2) q).map (descend root)).map resolve =
      (relFiles fs (MemFS.depth fs + 2) q).map (fun rest => some (q ++ rest)) := by
    rw [List.map_map]
    apply List.map_congr_left
    intro rest hrest
    exact resolve_descend rest root q hres (relFiles_sound fs hfs.1 _ q rest hrest).2
  have hnd : (((relFiles fs (MemFS.depth fs + 2) q).map (descend root)).map resolve).Nodup := by
    rw [hmap]
    exact (relFiles_nodup fs hfs.2.1 _ q).map (fun a b h => by simpa using h)
  refine ⟨_, hl, rfl, hnd.of_map _, hnd, ?_, ?_, ?_⟩
  · intro f
    rw [hmap]
    simp only [List.mem_map, Option.some.injEq]
    constructor
    · rintro ⟨rest, hrest, rfl⟩
      exact ⟨List.prefix_append q rest, (relFiles_sound fs hfs.1 _ q rest hrest).1⟩
    · rintro ⟨⟨rest, rfl⟩, b, hb⟩
      refine ⟨rest, relFiles_complete fs hfs _ q rest b hb ?_, rfl⟩
      have hne : q ++ rest ≠ [] := by
        intro h
        rw [h] at hb
        simp [MemFS.node] at hb
      have := length_le_depth fs _ _ (node_mem hne hb)
      simp only [List.length_append] at this
      omega
  · intro x hx
    obtain ⟨rest, hrest, rfl⟩ := List.mem_map.1 hx
    exact ⟨rest, rfl, (relFiles_sound fs hfs.1 _ q rest hrest).2⟩
  · intro b hv
    subst hv
    simp [relFiles, hnode, descend]

theorem listAllFiles_exact_witness :
    listAllFiles exampleTree "/out" =
      some (.ok ["/out/m_generated.ts", "/out/ns/t.ts"]) ∧
    listAllFiles exampleTree "/" =
      some (.ok ["/out/m_generated.ts", "/out/ns/t.ts", "/b.fbs"]) ∧
    listAllFiles exampleTree "/b.fbs" = some (.ok ["/b.fbs"]) ∧
    ∃ l, listAllFiles exampleTree "/out" = some (.ok l) ∧
      l = (relFiles exampleTree (MemFS.depth exampleTree + 2) ["out"]).map (descend "/out") ∧
      l.Nodup ∧ (l.map resolve).Nodup ∧
      (∀ f, some f ∈ l.map resolve ↔
        ["out"] <+: f ∧ ∃ b, MemFS.node exampleTree f = some (Node.file b)) ∧
      (∀ x ∈ l, ∃ rest, x = descend "/out" rest ∧ ∀ n ∈ rest, ProperName n) ∧
      (∀ b, Node.dir = Node.file b → l = ["/out"]) :=
  ⟨rfl, rfl, rfl,
    listAllFiles_exact exampleTree (by decide) "/out" ["out"] Node.dir (by decide) (by decide)⟩

/-! ## The result of code generation -/

theorem Object.set_new {α : Type} (o : List (String × α)) (key : String) (value : α)
    (h : key ∉ Object.keys o) : Object.set o key value = o ++ [(key, value)] := by
  unfold Object.set
  rw [if_neg h]

/-- Assigning entries with fresh, distinct keys appends them. -/
theorem Object.assign_fresh {α : Type} (source : List (String × α)) :
    ∀ target : List (String × α), (Object.keys (target ++ source)).Nodup →
      Object.assign target source = target ++ source := by
  induction source with
  | nil => intro target _; simp [Object.assign]
  | cons e rest ih =>
    intro target h
    have h1 : e.1 ∉ Object.keys target := by
      unfold Object.keys at h ⊢
      rw [List.map_append, List.map_cons] at h
      have := (List.nodup_append.1 h).2.2
      intro hmem
      exact this hmem (List.mem_cons_self _ _)
    have h2 : (Object.keys ((target ++ [e]) ++ rest)).Nodup := by
      simpa using h
    have := ih (target ++ [e]) h2
    unfold Object.assign at this ⊢
    rw [List.foldl_cons, Object.set_new _ _ _ h1, this]
    simp

theorem relKey_cons (base name : String) (rest : Path) :
    relKey base (name :: rest) =
      relKey (if base ≠ "" then base ++ "/" ++ name else name) rest := rfl

theorem relKey_data (rest : Path) :
    ∀ base : String, base ≠ "" →
      (relKey base rest).data = base.data ++ rest.flatMap (fun m => '/' :: m.data) := by
  induction rest with
  | nil => intro base _; simp [relKey]
  | cons name rest ih =>
    intro base hb
    rw [relKey_cons, if_pos hb, ih]
    · simp [String.data_append]
    · intro h
      have := congrArg String.data h
      simp [String.data_append] at this

theorem relKey_nil_cons_data (name : String) (rest : Path) (hn : name ≠ "") :
    (relKey "" (name :: rest)).data = name.data ++ rest.flatMap (fun m => '/' :: m.data) := by
  rw [relKey_cons, if_neg (by simp), relKey_data rest name hn]

theorem splitChars_joined (n : List Char) (rest : Path) (hn : '/' ∉ n)
    (hrest : ∀ m ∈ rest, '/' ∉ m.data) :
    splitChars '/' (n ++ rest.flatMap (fun m => '/' :: m.data)) = n :: rest.map String.data := by
  induction rest generalizing n with
  | nil => simpa using splitChars_of_not_mem '/' n hn
  | cons m rest ih =>
    have : n ++ (m :: rest).flatMap (fun m => '/' :: m.data) =
        n ++ '/' :: (m.data ++ rest.flatMap (fun m => '/' :: m.data)) := by simp
    rw [this, splitChars_append_sep, splitChars_of_not_mem _ _ hn,
      ih m.data (hrest m (by simp)) (fun k hk => hrest k (by simp [hk]))]
    simp

/-- Distinct relative paths of proper names get distinct keys. -/
theorem relKey_inj (r1 r2 : Path) (h1 : ∀ m ∈ r1, ProperName m) (h2 : ∀ m ∈ r2, ProperName m)
    (h : relKey "" r1 = relKey "" r2) : r1 = r2 := by
  have hd := congrArg String.data h
  cases r1 with
  | nil =>
    cases r2 with
    | nil => rfl
    | cons n2 t2 =>
      exfalso
      have hn2 := h2 n2 (by simp)
      rw [relKey_nil_cons_data n2 t2 hn2.1] at hd
      have : n2.data = [] := by
        have h3 : ([] : List Char) = n2.data ++ t2.flatMap (fun m => '/' :: m.data) := hd
        exact (List.append_eq_nil.1 h3.symm).1
      exact hn2.1 (String.ext this)
  | cons n1 t1 =>
    have hn1 := h1 n1 (by simp)
    cases r2 with
    | nil =>
      exfalso
      rw [relKey_nil_cons_data n1 t1 hn1.1] at hd
      have : n1.data = [] := by
        have h3 : n1.data ++ t1.flatMap (fun m => '/' :: m.data) = ([] : List Char) := hd
        exact (List.append_eq_nil.1 h3).1
      exact hn1.1 (String.ext this)
    | cons n2 t2 =>
      have hn2 := h2 n2 (by simp)
      rw [relKey_nil_cons_data n1 t1 hn1.1, relKey_nil_cons_data n2 t2 hn2.1] at hd
      have hs := congrArg (splitChars '/') hd
      rw [splitChars_joined _ _ hn1.2.2.2 (fun m hm => (h1 m (by simp [hm])).2.2.2),
        splitChars_joined _ _ hn2.2.2.2 (fun m hm => (h2 m (by simp [hm])).2.2.2)] at hs
      have hmap : (n1 :: t1).map String.data = (n2 :: t2).map String.data := by
        simpa using hs
      exact List.map_injective_iff.2 (fun a b hab => String.ext hab) hmap

theorem relKey_ne_empty (rest : Path) (hne : rest ≠ []) (h : ∀ m ∈ rest, ProperName m) :
    relKey "" rest ≠ "" := by
  intro he
  exact hne (relKey_inj rest [] h (by simp) he)

theorem relKey_snoc (rest : Path) (m : String) (hne : rest ≠ [])
    (h : ∀ n ∈ rest, ProperName n) :
    relKey "" (rest ++ [m]) = relKey "" rest ++ "/" ++ m := by
  have hk := relKey_ne_empty rest hne h
  unfold relKey at hk ⊢
  rw [List.foldl_append]
  simp only [List.foldl_cons, List.foldl_nil]
  rw [if_pos hk]

/-- The key of a file, appended to the walked directory, names that file. -/
theorem resolve_relKey (d : String) (q : Path) (hd : resolve d = some q) (rest : Path) :
    rest ≠ [] → (∀ n ∈ rest, ProperName n) →
      resolve (d ++ "/" ++ relKey "" rest) = some (q ++ rest) := by
  induction rest using List.reverseRecOn with
  | nil => intro h; exact absurd rfl h
  | append_singleton rest m ih =>
    intro _ hp
    have hm : ProperName m := hp m (by simp)
    by_cases hr : rest = []
    · subst hr
      have : relKey "" ([] ++ [m]) = m := by simp [relKey]
      rw [this, resolve_child d m hm, ← resolve_ne_empty hd]
      simp
    · have hp' : ∀ n ∈ rest, ProperName n := fun n hn => hp n (by simp [hn])
      have h1 := ih hr hp'
      rw [relKey_snoc rest m hr hp']
      have : d ++ "/" ++ (relKey "" rest ++ "/" ++ m) = (d ++ "/" ++ relKey "" rest) ++ "/" ++ m := by
        simp [String.append_assoc]
      rw [this, resolve_child _ m hm, ← resolve_ne_empty h1]
      simp

theorem relKey_head (rest : Path) (hne : rest ≠ []) (h : ∀ m ∈ rest, ProperName m) :
    ¬ "/".data <+: (relKey "" rest).data := by
  cases rest with
  | nil => exact absurd rfl hne
  | cons n t =>
    have hn := h n (by simp)
    rw [relKey_nil_cons_data n t hn.1]
    intro hpre
    obtain ⟨s, hs⟩ := hpre
    cases hnd : n.data with
    | nil => exact hn.1 (String.ext hnd)
    | cons c cs =>
      rw [hnd] at hs
      have hc : '/' = c := by
        have := congrArg List.head? hs
        simpa using this
      apply hn.2.2.2
      rw [hnd, ← hc]
      simp

theorem walkLoop_eq {ε : Type}
    (visit : String → List (String × String) → Option (Except ε (List (String × String))))
    (g : String → List (String × String)) (names : List String)
    (hvisit : ∀ name ∈ names, ∀ res, (Object.keys (res ++ g name)).Nodup →
      visit name res = some (.ok (res ++ g name)))
    (acc : List (String × String)) (hnd : (Object.keys (acc ++ names.flatMap g)).Nodup) :
    walkLoop visit names acc = some (.ok (acc ++ names.flatMap g)) := by
  induction names generalizing acc with
  | nil => simp [walkLoop]
  | cons n rest ih =>
    have hnd' : (Object.keys ((acc ++ g n) ++ rest.flatMap g)).Nodup := by
      simpa using hnd
    have h1 : (Object.keys (acc ++ g n)).Nodup := by
      unfold Object.keys at hnd' ⊢
      rw [List.map_append] at hnd'
      exact (List.nodup_append.1 hnd').1
    simp only [walkLoop, hvisit n (List.mem_cons_self _ _) acc h1]
    rw [ih (fun m hm => hvisit m (List.mem_cons_of_mem _ hm)) _ hnd']
    simp

theorem relKey_append_singleton (pre : Path) (name : String) :
    (if relKey "" pre ≠ "" then relKey "" pre ++ "/" ++ name else name) =
      relKey "" (pre ++ [name]) := by
  unfold relKey
  rw [List.foldl_append]
  rfl

/-- The keys `walk` produces below `q` are pairwise distinct. -/
theorem relFiles_keys_nodup (fs : MemFS) (hfs : MemFS.ProperNames fs)
    (hnd : (fs.map Prod.fst).Nodup) (fuel : Nat) (q pre : Path)
    (hpre : ∀ n ∈ pre, ProperName n) (t : Path → String) :
    (Object.keys ((relFiles fs fuel q).map
      (fun rest => (relKey "" (pre ++ rest), t rest)))).Nodup := by
  unfold Object.keys
  rw [List.map_map]
  refine List.Nodup.map_on ?_ (relFiles_nodup fs hnd fuel q)
  intro x hx y hy hxy
  have hpx : ∀ m ∈ pre ++ x, ProperName m := by
    intro m hm
    rcases List.mem_append.1 hm with h | h
    · exact hpre m h
    · exact (relFiles_sound fs hfs fuel q x hx).2 m h
  have hpy : ∀ m ∈ pre ++ y, ProperName m := by
    intro m hm
    rcases List.mem_append.1 hm with h | h
    · exact hpre m h
    · exact (relFiles_sound fs hfs fuel q y hy).2 m h
  exact List.append_cancel_left (relKey_inj _ _ hpx hpy hxy)

/-- On a filesystem with proper names and each path held once, `walk` of a directory
returns one entry per regular file below it, depth-first in directory order: the key is
the relative path and the value the decoded content. -/
theorem walk_eq (utf8Decode : Bytes → String) (fs : MemFS) (hfs : MemFS.ProperNames fs)
    (hnd : (fs.map Prod.fst).Nodup) (fuel : Nat) :
    ∀ (path : String) (q pre : Path),
      resolve path = some q → MemFS.node fs q = some Node.dir →
      (∀ n ∈ pre, ProperName n) →
      MemFS.depth fs + 1 ≤ fuel + q.length → 0 < fuel →
      (walk utf8Decode fs fuel path (relKey "" pre) :
        Option (Except (JSError E) (List (String × String)))) =
        some (.ok ((relFiles fs fuel q).map
          (fun rest => (relKey "" (pre ++ rest), textAt utf8Decode fs (q ++ rest))))) := by
  induction fuel with
  | zero => intro path q pre _ _ _ _ h; exact absurd h (Nat.lt_irrefl 0)
  | succ fuel ih =>
    intro path q pre hres hnode hpre hdepth _
    have hrd : FS.readdir fs path = .ok ("." :: ".." :: MemFS.names fs q) := by
      simp only [FS.readdir, hres, hnode]
    have hkeys := relFiles_keys_nodup fs hfs hnd (fuel + 1) q pre hpre
      (fun rest => textAt utf8Decode fs (q ++ rest))
    have hM : (relFiles fs (fuel + 1) q).map
        (fun rest => (relKey "" (pre ++ rest), textAt utf8Decode fs (q ++ rest))) =
        (MemFS.names fs q).flatMap (fun name => (relFiles fs fuel (q ++ [name])).map
          (fun rest => (relKey "" (pre ++ name :: rest),
            textAt utf8Decode fs (q ++ name :: rest)))) := by
      simp only [relFiles, hnode, List.map_flatMap, List.map_map]
      rfl
    rw [hM] at hkeys ⊢
    simp only [walk, hrd]
    rw [filter_dots_names hfs q]
    have hloop := @walkLoop_eq (JSError E)
      (fun entry result =>
        match FS.stat fs (path ++ "/" ++ entry) with
        | .error e => some (.error (.errno e))
        | .ok stat =>
          if FS.isDir stat then
            match (walk utf8Decode fs fuel (path ++ "/" ++ entry)
              (if relKey "" pre ≠ "" then relKey "" pre ++ "/" ++ entry else entry) :
                Option (Except (JSError E) (List (String × String)))) with
            | some (.ok sub) => some (.ok (Object.assign result sub))
            | other => other
          else
            match FS.readFile fs (path ++ "/" ++ entry) with
            | .error e => some (.error (.errno e))
            | .ok data =>
              some (.ok (Object.set result
                (if relKey "" pre ≠ "" then relKey "" pre ++ "/" ++ entry else entry)
                (utf8Decode data))))
      (fun name => (relFiles fs fuel (q ++ [name])).map
          (fun rest => (relKey "" (pre ++ name :: rest),
            textAt utf8Decode fs (q ++ name :: rest))))
      (MemFS.names fs q) ?_ [] (by simpa using hkeys)
    · simpa using hloop
    · intro name hn res hres_nd
      beta_reduce at hres_nd
      obtain ⟨v', hv'⟩ := mem_names.1 hn
      have hproper : ProperName name := hfs _ hv' name (by simp)
      have hlen := length_le_depth fs _ _ hv'
      simp only [List.length_append, List.length_singleton] at hlen
      obtain ⟨v'', hv''⟩ := node_isSome_of_mem (by simp) hv'
      have hchild : resolve (path ++ "/" ++ name) = some (q ++ [name]) := by
        rw [resolve_child path name hproper, ← resolve_ne_empty hres]
      have hstat : FS.stat fs (path ++ "/" ++ name) = .ok v'' := by
        simp only [FS.stat, hchild, hv'']
      have hpre' : ∀ n ∈ pre ++ [name], ProperName n := by
        intro n hn'
        rcases List.mem_append.1 hn' with h | h
        · exact hpre n h
        · simp only [List.mem_singleton] at h
          exact h ▸ hproper
      simp only [hstat, relKey_append_singleton]
      cases v'' with
      | dir =>
        have hih := ih (path ++ "/" ++ name) (q ++ [name]) (pre ++ [name]) hchild hv'' hpre'
          (by simp only [List.length_append, List.length_singleton]; omega) (by omega)
        simp only [List.append_assoc, List.singleton_append] at hih
        simp only [FS.isDir, if_true, hih]
        rw [Object.assign_fresh _ _ hres_nd]
      | file b =>
        have hread : FS.readFile fs (path ++ "/" ++ name) = .ok b := by
          simp only [FS.readFile, hchild, hv'']
        obtain ⟨fuel', rfl⟩ : ∃ fuel', fuel = fuel' + 1 := ⟨fuel - 1, by omega⟩
        have hg : (relFiles fs (fuel' + 1) (q ++ [name])).map
            (fun rest => (relKey "" (pre ++ name :: rest),
              textAt utf8Decode fs (q ++ name :: rest))) =
            [(relKey "" (pre ++ [name]), utf8Decode b)] := by
          have ht : textAt utf8Decode fs (q ++ [name]) = utf8Decode b := by
            simp only [textAt, hv'']
          simp only [relFiles, hv'', List.map_cons, List.map_nil, ht]
        rw [hg] at hres_nd ⊢
        simp only [FS.isDir, Bool.false_eq_true, if_false, hread]
        rw [Object.set_new]
        intro hmem
        unfold Object.keys at hres_nd hmem
        rw [List.map_append] at hres_nd
        exact (List.nodup_append.1 hres_nd).2.2 hmem (by simp)

/-- The result of `generateCode` in terms of the resolved output directory. -/
theorem generateCode_result_keys_paths (callMain : Engine σ E) (utf8Decode : Bytes → String)
    (heap : Heap) (schemaInput : SchemaInput) (language outputDir : String)
    (options : CodeOptions) (r r1 r2 : FlatcRunner σ) (args : List String)
    (result : CommandResult) (q : Path)
    (hprep : prepareCode E heap schemaInput language outputDir options r = (.ok args, r1))
    (hrun : runCommand callMain args r1 = (.ok result, r2))
    (hcode : result.code = 0)
    (htree : MemFS.Tree r2.FS)
    (hres : resolve outputDir = some q) (hdir : MemFS.node r2.FS q = some Node.dir) :
    ∃ files,
      (generateCode callMain utf8Decode heap schemaInput language outputDir options r).1 =
        some (.ok files) ∧
      (Object.keys files).Nodup ∧
      (∀ key text, (key, text) ∈ files →
        key ≠ "" ∧ ¬ "/".data <+: key.data ∧
        ∃ f b, resolve (outputDir ++ "/" ++ key) = some f ∧ q <+: f ∧ f ≠ q ∧
          FS.readFile r2.FS (outputDir ++ "/" ++ key) = .ok b ∧ text = utf8Decode b) ∧
      (∀ f b, q <+: f → MemFS.node r2.FS f = some (Node.file b) →
        ∃ key, (key, utf8Decode b) ∈ files ∧
          resolve (outputDir ++ "/" ++ key) = some f ∧
          ∀ key' ∈ Object.keys files,
            resolve (outputDir ++ "/" ++ key') = some f → key' = key) := by
  have hwalk : (walk utf8Decode r2.FS (MemFS.depth r2.FS + 2) outputDir "" :
      Option (Except (JSError E) (List (String × String)))) =
      some (.ok ((relFiles r2.FS (MemFS.depth r2.FS + 2) q).map
        (fun rest => (relKey "" rest, textAt utf8Decode r2.FS (q ++ rest))))) := by
    have h := @walk_eq E utf8Decode r2.FS htree.1 htree.2.1 (MemFS.depth r2.FS + 2) outputDir q []
      hres hdir (by simp) (by omega) (by omega)
    simpa [relKey] using h
  have hgen : (generateCode callMain utf8Decode heap schemaInput language outputDir options r).1 =
      walk utf8Decode r2.FS (MemFS.depth r2.FS + 2) outputDir "" := by
    unfold generateCode
    simp only [hprep, hrun, harvestCode, hcode, ne_eq, not_true_eq_false, if_false]
  have hsound := relFiles_sound r2.FS htree.1 (MemFS.depth r2.FS + 2) q
  have hrest_ne : ∀ rest ∈ relFiles r2.FS (MemFS.depth r2.FS + 2) q, rest ≠ [] := by
    intro rest hrest h0
    subst h0
    obtain ⟨⟨b, hb⟩, _⟩ := hsound [] hrest
    rw [List.append_nil, hdir] at hb
    cases hb
  refine ⟨_, hgen.trans hwalk, ?_, ?_, ?_⟩
  · have := relFiles_keys_nodup r2.FS htree.1 htree.2.1 (MemFS.depth r2.FS + 2) q [] (by simp)
      (fun rest => textAt utf8Decode r2.FS (q ++ rest))
    simpa using this
  · intro key text hmem
    obtain ⟨rest, hrest, heq⟩ := List.mem_map.1 hmem
    simp only [Prod.mk.injEq] at heq
    obtain ⟨rfl, rfl⟩ := heq
    obtain ⟨⟨b, hb⟩, hp⟩ := hsound rest hrest
    have hne := hrest_ne rest hrest
    have hrk := resolve_relKey outputDir q hres rest hne hp
    refine ⟨relKey_ne_empty rest hne hp, relKey_head rest hne hp, q ++ rest, b, hrk,
      List.prefix_append q rest, ?_, ?_, ?_⟩
    · intro h
      exact hne (List.append_right_eq_self.1 h)
    · simp only [FS.readFile, hrk, hb]
    · simp only [textAt, hb]
  · rintro f b ⟨rest, rfl⟩ hb
    have hne0 : q ++ rest ≠ [] := by
      intro h
      rw [h] at hb
      simp [MemFS.node] at hb
    have hlen := length_le_depth r2.FS _ _ (node_mem hne0 hb)
    simp only [List.length_append] at hlen
    have hrest := relFiles_complete r2.FS htree (MemFS.depth r2.FS + 2) q rest b hb (by omega)
    have hp := (hsound rest hrest).2
    have hne := hrest_ne rest hrest
    refine ⟨relKey "" rest, ?_, resolve_relKey outputDir q hres rest hne hp, ?_⟩
    · refine List.mem_map.2 ⟨rest, hrest, ?_⟩
      simp only [textAt, hb]
    · intro key' hkey' hres'
      unfold Object.keys at hkey'
      rw [List.map_map] at hkey'
      obtain ⟨rest', hrest', rfl⟩ := List.mem_map.1 hkey'
      simp only [Function.comp] at hres' ⊢
      have h1 := resolve_relKey outputDir q hres rest' (hrest_ne rest' hrest')
        (hsound rest' hrest').2
      rw [h1] at hres'
      simp only [Option.some.injEq] at hres'
      rw [List.append_cancel_left hres']

/-- C17. When the engine exited with code 0 and left a directory tree in which the output
directory is a directory, `generateCode` returns a mapping with distinct keys. Every
key is non-empty and does not start with `/`; the output directory, `/` and the key name
a regular file strictly below the output directory, and the value is the decoded
content of that file, so no key names a directory. Conversely every regular file at any
depth below the output directory is named by exactly one key, with its decoded content
as the value. -/
theorem generateCode_result_keys (callMain : Engine σ E) (utf8Decode : Bytes → String)
    (heap : Heap) (schemaInput : SchemaInput) (language outputDir : String)
    (options : CodeOptions) (r r1 r2 : FlatcRunner σ) (args : List String)
    (result : CommandResult)
    (hprep : prepareCode E heap schemaInput language outputDir options r = (.ok args, r1))
    (hrun : runCommand callMain args r1 = (.ok result, r2))
    (hcode : result.code = 0)
    (htree : MemFS.Tree r2.FS)
    (hstat : FS.stat r2.FS outputDir = .ok Node.dir) :
    ∃ files q,
      (generateCode callMain utf8Decode heap schemaInput language outputDir options r).1 =
        some (.ok files) ∧
      resolve outputDir = some q ∧
      (Object.keys files).Nodup ∧
      (∀ key text, (key, text) ∈ files →
        key ≠ "" ∧ ¬ "/".data <+: key.data ∧
        ∃ f b, resolve (outputDir ++ "/" ++ key) = some f ∧ q <+: f ∧ f ≠ q ∧
          FS.readFile r2.FS (outputDir ++ "/" ++ key) = .ok b ∧ text = utf8Decode b) ∧
      (∀ f b, q <+: f → MemFS.node r2.FS f = some (Node.file b) →
        ∃ key, (key, utf8Decode b) ∈ files ∧
          resolve (outputDir ++ "/" ++ key) = some f ∧
          ∀ key' ∈ Object.keys files,
            resolve (outputDir ++ "/" ++ key') = some f → key' = key) := by
  obtain ⟨q, hres, hdir⟩ := (stat_ok_iff _ _ _).1 hstat
  obtain ⟨files, h1, h2, h3, h4⟩ := generateCode_result_keys_paths callMain utf8Decode heap
    schemaInput language outputDir options r r1 r2 args result q hprep hrun hcode htree hres
    hdir
  exact ⟨files, q, h1, hres, h2, h3, h4⟩

theorem generateCode_result_keys_witness :
    (generateCode codegenEngine exampleDecode exampleHeap exampleSchema "ts" "/out"
      exampleCodeOptions emptyRunner).1 =
      some (.ok [("m_generated.ts", "a"), ("ns/t.ts", "b")]) ∧
    ∃ files q,
      (generateCode codegenEngine exampleDecode exampleHeap exampleSchema "ts" "/out"
        exampleCodeOptions emptyRunner).1 = some (.ok files) ∧
      resolve "/out" = some q ∧
      (Object.keys files).Nodup ∧
      (∀ key text, (key, text) ∈ files →
        key ≠ "" ∧ ¬ "/".data <+: key.data ∧
        ∃ f b, resolve ("/out" ++ "/" ++ key) = some f ∧ q <+: f ∧ f ≠ q ∧
          FS.readFile codeRan.FS ("/out" ++ "/" ++ key) = .ok b ∧ text = exampleDecode b) ∧
      (∀ f b, q <+: f → MemFS.node codeRan.FS f = some (Node.file b) →
        ∃ key, (key, exampleDecode b) ∈ files ∧
          resolve ("/out" ++ "/" ++ key) = some f ∧
          ∀ key' ∈ Object.keys files,
            resolve ("/out" ++ "/" ++ key') = some f → key' = key) :=
  ⟨rfl,
    generateCode_result_keys codegenEngine exampleDecode exampleHeap exampleSchema "ts"
      "/out" exampleCodeOptions emptyRunner codePrepared codeRan exampleCodeArgs ⟨0, "", ""⟩
      rfl rfl rfl (by decide) rfl⟩

/-! ## Teardown of the streaming transformer -/

theorem destroyRunnerBody_eq (fs : MemFS) : destroyRunnerBody fs = .ok [] := by
  unfold destroyRunnerBody
  have h : FS.readdir fs "/" = .ok ("." :: ".." :: MemFS.names fs []) := by
    simp only [FS.readdir, resolve_slash, MemFS.node, if_true]
  rw [h]

/-- Teardown never throws, and it leaves the filesystem of the instance empty. -/
theorem destroyRunner_eq (r : FlatcRunner σ) :
    (destroyRunner r : Except (JSError E) Unit × FlatcRunner σ) =
      (.ok (), { r with FS := [] }) := by
  unfold destroyRunner
  rw [destroyRunnerBody_eq]

theorem tryFinally_destroyRunner {α : Type}
    (body : FlatcRunner σ → Except (JSError E) α × FlatcRunner σ) (r : FlatcRunner σ) :
    tryFinally body destroyRunner r =
      ⟨(body r).1, some { (body r).2 with FS := [] }, [(body r).2]⟩ := by
  unfold tryFinally
  rcases body r with ⟨out, r1⟩
  simp only [destroyRunner_eq]

/-- C18. For every call of `transformJsonToBinary` or `transformBinaryToJson` whose
engine instance was created: `#destroyRunner` is called exactly once, with the runner
as the driver left it, whether the driver returned or threw; the teardown itself never
throws, whatever fails inside it, and leaves the filesystem of the instance empty; and
the caller receives exactly the outcome of the driver, its value or its failure. -/
theorem transform_teardown (callMain : Engine σ E) (utf8Decode : Bytes → String) (heap : Heap)
    (uuid1 uuid2 : String) (schemaInput : SchemaInput) (json buffer : FileData)
    (fs0 : MemFS) (mem0 : σ) :
    ((transformJsonToBinary callMain heap uuid1 uuid2 schemaInput json
        (.ok (fs0, mem0))).outcome =
      (generateBinary callMain heap uuid1 uuid2 schemaInput json (initRunner fs0 mem0)).1 ∧
      (transformJsonToBinary callMain heap uuid1 uuid2 schemaInput json
        (.ok (fs0, mem0))).teardowns =
      [(generateBinary callMain heap uuid1 uuid2 schemaInput json (initRunner fs0 mem0)).2] ∧
      (transformJsonToBinary callMain heap uuid1 uuid2 schemaInput json
        (.ok (fs0, mem0))).runner =
      some (destroyRunner
        (generateBinary callMain heap uuid1 uuid2 schemaInput json (initRunner fs0 mem0)).2 :
          Except (JSError E) Unit × FlatcRunner σ).2) ∧
    ((transformBinaryToJson callMain utf8Decode heap schemaInput buffer
        (.ok (fs0, mem0))).outcome =
      (generateJSON callMain utf8Decode heap schemaInput ⟨"/input.mon", buffer⟩
        ⟨JSValue.undefined, JSValue.undefined, JSValue.undefined⟩ (initRunner fs0 mem0)).1 ∧
      (transformBinaryToJson callMain utf8Decode heap schemaInput buffer
        (.ok (fs0, mem0))).teardowns =
      [(generateJSON callMain utf8Decode heap schemaInput ⟨"/input.mon", buffer⟩
        ⟨JSValue.undefined, JSValue.undefined, JSValue.undefined⟩ (initRunner fs0 mem0)).2] ∧
      (transformBinaryToJson callMain utf8Decode heap schemaInput buffer
        (.ok (fs0, mem0))).runner =
      some (destroyRunner
        (generateJSON callMain utf8Decode heap schemaInput ⟨"/input.mon", buffer⟩
          ⟨JSValue.undefined, JSValue.undefined, JSValue.undefined⟩ (initRunner fs0 mem0)).2 :
          Except (JSError E) Unit × FlatcRunner σ).2) ∧
    (∀ r : FlatcRunner σ,
      (destroyRunner r : Except (JSError E) Unit × FlatcRunner σ).1 = .ok () ∧
      (destroyRunner r : Except (JSError E) Unit × FlatcRunner σ).2.FS = []) := by
  refine ⟨?_, ?_, ?_⟩
  · unfold transformJsonToBinary
    simp only [tryFinally_destroyRunner, destroyRunner_eq, and_self]
  · unfold transformBinaryToJson
    simp only [tryFinally_destroyRunner, destroyRunner_eq, and_self]
  · intro r
    rw [destroyRunner_eq]
    exact ⟨rfl, rfl⟩

theorem transform_teardown_witness :
    (transformJsonToBinary exampleEngine exampleHeap "u1" "u2" exampleSchema
      (FileData.text "{}") freshInstance).outcome = .ok [1, 2, 3] ∧
    ((transformJsonToBinary failingEngine exampleHeap "u1" "u2" exampleSchema
      (FileData.text "{}") freshInstance).teardowns.map (fun r => r.FS)) =
      [[(["a"], Node.dir), (["a", "m.fbs"], Node.file (TextEncoder.encode "table T{}")),
        (["b.fbs"], Node.file (TextEncoder.encode "x"))]] ∧
    ((transformJsonToBinary abortingEngine exampleHeap "u1" "u2" exampleSchema
      (FileData.text "{}") freshInstance).runner.map (fun r => r.FS)) = some [] ∧
    (transformJsonToBinary abortingEngine exampleHeap "u1" "u2" exampleSchema
      (FileData.text "{}") (.ok ([], ()))).outcome =
      (generateBinary abortingEngine exampleHeap "u1" "u2" exampleSchema (FileData.text "{}")
        (initRunner [] ())).1 :=
  ⟨rfl, rfl, rfl,
    (transform_teardown abortingEngine exampleDecode exampleHeap "u1" "u2" exampleSchema
      (FileData.text "{}") (FileData.bytes 1) [] ()).1.1⟩

/-! ## Cache and filesystem on one runner -/

/-- C20 fails on the code. After an encode against `schemaOne`, cache and filesystem
agree. A `generateCode` call for `schemaTwo`, which has the same path with other content,
overwrites `/m.fbs` and leaves the cached schema as it was; the next encode against
`schemaOne` is a cache hit, mounts nothing, and the engine reads the content of
`schemaTwo`, where a fresh runner would have given it that of `schemaOne`. Likewise a
decode whose input path is the schema path `/m.fbs` ends with the cached schema still
set and `/m.fbs` unlinked, and the next encode is a cache hit in which the engine finds
no schema file. -/
theorem cache_filesystem_incoherent :
    (afterEncode._cachedSchema = some schemaOne ∧
      FS.readFile afterEncode.FS "/m.fbs" = .ok (TextEncoder.encode "a")) ∧
    (afterGenerate._cachedSchema = some schemaOne ∧
      FS.readFile afterGenerate.FS "/m.fbs" = .ok (TextEncoder.encode "b") ∧
      TextEncoder.encode "b" ≠ TextEncoder.encode "a" ∧
      schemaUnchanged afterGenerate._cachedSchema schemaOne = true ∧
      (generateBinary probeEngine exampleHeap "u3" "u4" schemaOne (FileData.text "{}")
        afterGenerate).1 = .ok (TextEncoder.encode "b") ∧
      (generateBinary probeEngine exampleHeap "u3" "u4" schemaOne (FileData.text "{}")
        emptyRunner).1 = .ok (TextEncoder.encode "a")) ∧
    (afterDecode._cachedSchema = some schemaOne ∧
      FS.readFile afterDecode.FS "/m.fbs" = .error .ENOENT ∧
      schemaUnchanged afterDecode._cachedSchema schemaOne = true ∧
      (generateBinary probeEngine exampleHeap "u3" "u4" schemaOne (FileData.text "{}")
        afterDecode).1 = .ok []) :=
  ⟨⟨by decide, rfl⟩, ⟨by decide, rfl, by decide, by decide, rfl, rfl⟩,
    ⟨by decide, rfl, by decide, rfl⟩⟩

end FlatcWasm
